import Mathlib

/-!
# Wordle solver: constraints, word trie, pattern enumeration, solver rounds

A shallow embedding of `pkg/wordle/solver.go` and `pkg/wordle/game.go`.

Conventions of the embedding:

* a Go `string` is the list of its bytes (`List Nat`, every byte below 256);
  `word[i]` is `word.getD i 0`, which agrees with Go wherever the index is in
  range (all theorems about indexing assume words of `WordLength` bytes);
* `byte` and `uint32` values are natural numbers, with the wrap-around of the
  machine type written out (`% 256`, `% 4294967296`) where the code can wrap;
* fixed-size arrays (`[5]LetterConstraint`, `[5]MinCountConstraint`, `[5]Hint`)
  are lists, their length being part of the well-formedness predicates;
* a Go `map` is an association list with one pair per key;
* dereferencing a `nil` tree node is the result `none`.
-/

namespace Wordle

/-! ## Constants (game.go) -/

def MaxGuesses : Nat := 6
def WordLength : Nat := 5

/-- Go type `Hint` is a `byte`; the constants are an `iota` enumeration. -/
abbrev Hint := Nat

def LetterPossible : Hint := 0
def LetterWrong : Hint := 1
def LetterTransposed : Hint := 2
def LetterCorrect : Hint := 3

/-- A pattern is a `[5]Hint`. -/
abbrev Pattern := List Hint

/-- A word is a Go string, the list of its bytes. -/
abbrev Word := List Nat

/-- The bytes of an ASCII literal (used to write concrete words). -/
def bytes (s : String) : Word := s.data.map Char.toNat

/-! ## LetterConstraint (solver.go 57-84) -/

/-- Go type `LetterConstraint` is a `uint32`. -/
abbrev LetterConstraint := Nat

/-- `1 << LetterConstraint(char-'a')`: the subtraction wraps in `byte`, the
shift is a `uint32` shift (a count of 32 or more gives 0). -/
def NewLetterConstraint (char : Nat) : LetterConstraint :=
  (1 <<< ((char + 256 - 97) % 256)) % 4294967296

def LetterConstraint.Include (lc : LetterConstraint) (char : Nat) : LetterConstraint :=
  lc ||| NewLetterConstraint char

/-- `lc & ^NewLetterConstraint(char)`, the complement taken in 32 bits. -/
def LetterConstraint.Exclude (lc : LetterConstraint) (char : Nat) : LetterConstraint :=
  lc &&& (NewLetterConstraint char ^^^ 4294967295)

def LetterConstraint.Includes (lc : LetterConstraint) (letter : LetterConstraint) : Bool :=
  decide (letter &&& lc > 0)

/-- The loop `for char := byte('a'); char <= 'z'; char++` keeping the set bits. -/
def LetterConstraint.ToChars (lc : LetterConstraint) : List Nat :=
  ((List.range 26).map (fun k => k + 97)).filter
    (fun char => decide (lc &&& NewLetterConstraint char > 0))

/-! ## Constraint (solver.go 86-158) -/

structure MinCountConstraint where
  Char : Nat
  Count : Nat
deriving DecidableEq, Repr

structure Constraint where
  Letters : List LetterConstraint
  Counts : List MinCountConstraint
deriving DecidableEq, Repr

/-- The zero value of `MinCountConstraint`. -/
def MinCountConstraint.zero : MinCountConstraint := ⟨0, 0⟩

def NewConstraint : Constraint :=
  { Letters := [4294967295, 4294967295, 4294967295, 4294967295, 4294967295]
    Counts := [MinCountConstraint.zero, MinCountConstraint.zero, MinCountConstraint.zero,
      MinCountConstraint.zero, MinCountConstraint.zero] }

/-- The inner loop of `And` (`for i := range WordLength` with its two `break`s)
for one entry `counts` of the other operand, over the slots `is` still to visit. -/
def mergeCount (counts : MinCountConstraint) :
    List Nat → List MinCountConstraint → List MinCountConstraint
  | [], combinedCounts => combinedCounts
  | i :: is, combinedCounts =>
    if counts.Char = (combinedCounts.getD i MinCountConstraint.zero).Char then
      combinedCounts.set i
        ⟨(combinedCounts.getD i MinCountConstraint.zero).Char,
          max (combinedCounts.getD i MinCountConstraint.zero).Count counts.Count⟩
    else if (combinedCounts.getD i MinCountConstraint.zero).Char = 0 then
      combinedCounts.set i counts
    else mergeCount counts is combinedCounts

def Constraint.And (c other : Constraint) : Constraint :=
  { Letters :=
      [ c.Letters.getD 0 0 &&& other.Letters.getD 0 0,
        c.Letters.getD 1 0 &&& other.Letters.getD 1 0,
        c.Letters.getD 2 0 &&& other.Letters.getD 2 0,
        c.Letters.getD 3 0 &&& other.Letters.getD 3 0,
        c.Letters.getD 4 0 &&& other.Letters.getD 4 0 ]
    Counts :=
      other.Counts.foldl
        (fun combinedCounts counts => mergeCount counts (List.range WordLength) combinedCounts)
        c.Counts }

/-- `Count--` on a `byte` wraps from 0 to 255. -/
def Constraint.Dec (c : Constraint) (char : Nat) : Constraint :=
  { Letters := c.Letters
    Counts := c.Counts.map
      (fun cc => if cc.Char = char then ⟨cc.Char, (cc.Count + 255) % 256⟩ else cc) }

/-- The inner counting loop of `Matches`: occurrences of `char` among the first
`WordLength` bytes of `word`. -/
def countChar (word : Word) (char : Nat) : Nat :=
  ((List.range WordLength).filter (fun i => word.getD i 0 = char)).length

def Constraint.Matches (c : Constraint) (word : Word) : Bool :=
  (List.range WordLength).all
      (fun i => (c.Letters.getD i 0).Includes (NewLetterConstraint (word.getD i 0)))
    && c.Counts.all (fun countConstraint =>
      !decide (countChar word countConstraint.Char < countConstraint.Count))

/-! ## WordleTree (solver.go 160-240) -/

inductive WordleTreeNode where
  | mk (Options : LetterConstraint) (Children : List (Nat × WordleTreeNode))

def WordleTreeNode.Options : WordleTreeNode → LetterConstraint
  | .mk o _ => o

def WordleTreeNode.Children : WordleTreeNode → List (Nat × WordleTreeNode)
  | .mk _ ch => ch

/-- Map read `m[key]` with the comma-ok form: `none` when the key is absent. -/
def mapGet {κ β : Type} [DecidableEq κ] (m : List (κ × β)) (key : κ) : Option β :=
  match m with
  | [] => none
  | (k, v) :: rest => if k = key then some v else mapGet rest key

/-- Map write `m[key] = v`: replaces the pair of `key`, or adds one. -/
def mapSet {κ β : Type} [DecidableEq κ] (m : List (κ × β)) (key : κ) (v : β) :
    List (κ × β) :=
  match m with
  | [] => [(key, v)]
  | (k, w) :: rest => if k = key then (key, v) :: rest else (k, w) :: mapSet rest key v

def NewWordleTreeNode : WordleTreeNode := .mk 0 []

structure WordleTree where
  node : WordleTreeNode
  WordCount : Nat
  Wordles : List Word

/-- The inner loop of `NewWordleTree` (`for i := range WordLength`) from the
node reached so far, over the bytes `chars` still to insert. The pointer walk
that mutates the nodes in place is the rebuilding of the path. -/
def insertChars : WordleTreeNode → List Nat → WordleTreeNode
  | node, [] => node
  | .mk options children, char :: rest =>
    match mapGet children char with
    | some child => .mk options (mapSet children char (insertChars child rest))
    | none =>
      .mk (LetterConstraint.Include options char)
        (mapSet children char (insertChars NewWordleTreeNode rest))

/-- The bytes `word[0]`, ..., `word[WordLength-1]`. -/
def wordChars (word : Word) : List Nat :=
  (List.range WordLength).map (fun i => word.getD i 0)

def NewWordleTree (wordles : List Word) (constraint : Constraint) : WordleTree :=
  wordles.foldl
    (fun root word =>
      if !constraint.Matches word then root
      else
        { node := insertChars root.node (wordChars word)
          WordCount := root.WordCount + 1
          Wordles := root.Wordles ++ [word] })
    { node := NewWordleTreeNode, WordCount := 0, Wordles := [] }

/-- The loop of `hasMatches` over the candidate letters, returning at the
first child that has a match; `none` is a `nil` dereference in a child. -/
def anyChild (f : Nat → Option Bool) : List Nat → Option Bool
  | [] => some false
  | char :: rest =>
    match f char with
    | none => none
    | some true => some true
    | some false => anyChild f rest

/-- The loop of `countMatches` over the candidate letters (`matches += ...`). -/
def sumChild (f : Nat → Option Nat) : List Nat → Option Nat
  | [] => some 0
  | char :: rest =>
    match f char with
    | none => none
    | some n =>
      match sumChild f rest with
      | none => none
      | some m => some (n + m)

/-- The body of `hasMatches`, by recursion on the number of levels left below
`depth` (`levels = WordLength - depth` in every call, so the `0` case is never
reached with `depth < WordLength`). -/
def hasMatchesAux : Nat → Option WordleTreeNode → Constraint → Nat → Option Bool
  | levels, node, constraint, depth =>
    if depth ≥ WordLength then
      some (constraint.Counts.all (fun countConstraint => !decide (countConstraint.Count > 0)))
    else
      match levels with
      | 0 => none
      | levels + 1 =>
        match node with
        | none => none
        | some n =>
          anyChild
            (fun char =>
              hasMatchesAux levels (mapGet n.Children char) (constraint.Dec char) (depth + 1))
            (LetterConstraint.ToChars (n.Options &&& constraint.Letters.getD depth 0))

def hasMatches (node : Option WordleTreeNode) (constraint : Constraint) (depth : Nat) :
    Option Bool :=
  hasMatchesAux (WordLength - depth) node constraint depth

/-- The body of `countMatches`, by recursion on the number of levels left. -/
def countMatchesAux : Nat → Option WordleTreeNode → Constraint → Nat → Option Nat
  | levels, node, constraint, depth =>
    if depth ≥ WordLength then
      some (if constraint.Counts.all (fun countConstraint => !decide (countConstraint.Count > 0))
        then 1 else 0)
    else
      match levels with
      | 0 => none
      | levels + 1 =>
        match node with
        | none => none
        | some n =>
          sumChild
            (fun char =>
              countMatchesAux levels (mapGet n.Children char) (constraint.Dec char) (depth + 1))
            (LetterConstraint.ToChars (n.Options &&& constraint.Letters.getD depth 0))

def countMatches (node : Option WordleTreeNode) (constraint : Constraint) (depth : Nat) :
    Option Nat :=
  countMatchesAux (WordLength - depth) node constraint depth

def WordleTree.HasMatches (wt : WordleTree) (constraint : Constraint) : Option Bool :=
  hasMatches (some wt.node) constraint 0

def WordleTree.CountMatches (wt : WordleTree) (constraint : Constraint) : Option Nat :=
  countMatches (some wt.node) constraint 0

/-! ## Patterns and the constraint map (solver.go 45-48, 257-363) -/

def Hints : List Hint := [LetterWrong, LetterCorrect, LetterTransposed]

/-- `int(math.Pow(float64(len(Hints)), WordLength))`: the power `3^5` is exact
in `float64`. -/
def NumPatterns : Nat := Hints.length ^ WordLength

def isValidPattern (word : Word) (pattern : Pattern) : Bool :=
  (List.range WordLength).all (fun i =>
    if pattern.getD i 0 = LetterWrong then
      (List.range' (i + 1) (WordLength - (i + 1))).all (fun j =>
        !(decide (word.getD i 0 = word.getD j 0)
          && decide (pattern.getD j 0 = LetterTransposed)))
    else true)

/-- The order in which a `range` loop visits the pairs of a Go map is not
specified: it is some rearrangement of the pairs. -/
structure RangeOrder where
  iter : List (Nat × Nat) → List (Nat × Nat)
  perm : ∀ m, (iter m).Perm m

/-- The order in which the keys were first written. -/
def RangeOrder.insertion : RangeOrder := ⟨fun m => m, fun m => List.Perm.refl m⟩

/-- Map update `counts[char]++` on a `map[byte]byte` (a missing key reads 0). -/
def incCount (counts : List (Nat × Nat)) (char : Nat) : List (Nat × Nat) :=
  mapSet counts char (((mapGet counts char).getD 0 + 1) % 256)

/-- The loop `for j := range i` computing `hasTransposedDuplicate`. -/
def hasTransposedDuplicate (word : Word) (pattern : Pattern) (i : Nat) : Bool :=
  (List.range i).foldl
    (fun acc j =>
      acc || (decide (word.getD j 0 = word.getD i 0)
        && decide (pattern.getD j 0 = LetterTransposed)))
    false

/-- The loop `for j := range WordLength` of the `LetterWrong` case. -/
def excludeElsewhere (word : Word) (pattern : Pattern) (char : Nat)
    (letters : List LetterConstraint) : List LetterConstraint :=
  (List.range WordLength).foldl
    (fun ls j =>
      if word.getD j 0 ≠ char ∨ pattern.getD j 0 ≠ LetterCorrect then
        ls.set j ((ls.getD j 0).Exclude char)
      else ls)
    letters

/-- One iteration of the first loop of `constraintFromPattern` (the `switch`),
on the pair of `constraint.Letters` and the map `counts`. -/
def patternStep (word : Word) (pattern : Pattern)
    (st : List LetterConstraint × List (Nat × Nat)) (i : Nat) :
    List LetterConstraint × List (Nat × Nat) :=
  let char := word.getD i 0
  if pattern.getD i 0 = LetterCorrect then
    (st.1.set i (NewLetterConstraint char), incCount st.2 char)
  else if pattern.getD i 0 = LetterTransposed then
    (st.1.set i ((st.1.getD i 0).Exclude char), incCount st.2 char)
  else if pattern.getD i 0 = LetterWrong then
    let letters := st.1.set i ((st.1.getD i 0).Exclude char)
    if !hasTransposedDuplicate word pattern i then
      (excludeElsewhere word pattern char letters, st.2)
    else (letters, st.2)
  else st

/-- The second loop of `constraintFromPattern`: `Counts[i] = {char, count}; i++`
over the pairs of the map in the order of the `range`. -/
def fillCounts : List (Nat × Nat) → Nat → List MinCountConstraint → List MinCountConstraint
  | [], _, counts => counts
  | (char, count) :: rest, i, counts => fillCounts rest (i + 1) (counts.set i ⟨char, count⟩)

def constraintFromPattern (ord : RangeOrder) (word : Word) (pattern : Pattern) : Constraint :=
  let st := (List.range WordLength).foldl (patternStep word pattern) (NewConstraint.Letters, [])
  { Letters := st.1
    Counts := fillCounts (ord.iter st.2) 0 NewConstraint.Counts }

/-- The carry of the base-3 counter at digit `j`. -/
def carryDigit (p : Pattern) (j : Nat) : Pattern :=
  if p.getD j 0 > LetterCorrect then
    (p.set j LetterWrong).set (j + 1) ((p.getD (j + 1) 0 + 1) % 256)
  else p

/-- The pattern after `p[0]++` and the carry loop. -/
def nextPattern (p : Pattern) : Pattern :=
  (List.range (WordLength - 1)).foldl carryDigit (p.set 0 ((p.getD 0 0 + 1) % 256))

def generateAllPatterns : List Pattern :=
  ((List.range NumPatterns).foldl
    (fun (acc : List Pattern × Pattern) i => (acc.1.set i acc.2, nextPattern acc.2))
    (List.replicate NumPatterns [0, 0, 0, 0, 0],
      [LetterWrong, LetterWrong, LetterWrong, LetterWrong, LetterWrong])).1

def AllPatterns : List Pattern := generateAllPatterns

/-- Go type `ConstraintMap` is a `map[string][]Constraint`. -/
abbrev ConstraintMap := List (Word × List Constraint)

/-- The loop over `AllPatterns` in `NewConstraintMap` for one word. -/
def wordConstraints (ord : RangeOrder) (worldeTree : WordleTree) (word : Word) :
    List Pattern → Option (List Constraint)
  | [] => some []
  | pattern :: rest =>
    if !isValidPattern word pattern then wordConstraints ord worldeTree word rest
    else
      match worldeTree.HasMatches (constraintFromPattern ord word pattern) with
      | none => none
      | some keep =>
        match wordConstraints ord worldeTree word rest with
        | none => none
        | some constraints =>
          some (if keep then constraintFromPattern ord word pattern :: constraints
            else constraints)

def NewConstraintMap (ord : RangeOrder) (wordles : List Word) (worldeTree : WordleTree) :
    Option ConstraintMap :=
  wordles.foldl
    (fun acc word =>
      match acc with
      | none => none
      | some constraintMap =>
        match wordConstraints ord worldeTree word AllPatterns with
        | none => none
        | some constraints => some (mapSet constraintMap word constraints))
    (some [])

/-! ## GameState (game.go 32-107) -/

structure Guess where
  word : Word
  hints : List Hint
deriving DecidableEq, Repr

structure GameState where
  guesses : List (Option Guess)
  alphabet : List Hint
deriving DecidableEq, Repr

def NewGameState : GameState :=
  { guesses := List.replicate 6 none, alphabet := List.replicate 26 0 }

/-- The rune that a `range` loop over a string reads at the head of `s`, and the
number of bytes it takes (UTF-8 decoding of the Go language: an invalid or
truncated sequence reads as U+FFFD and takes one byte). -/
def decodeRune (s : List Nat) : Nat × Nat :=
  match s with
  | [] => (65533, 0)
  | p0 :: rest =>
    if p0 < 128 then (p0, 1)
    else
      let b1 := rest.getD 0 0
      let b2 := rest.getD 1 0
      let b3 := rest.getD 2 0
      let cont := fun (b : Nat) => decide (128 ≤ b ∧ b ≤ 191)
      if 194 ≤ p0 ∧ p0 ≤ 223 then
        if 1 ≤ rest.length ∧ cont b1 then ((p0 % 32) * 64 + b1 % 64, 2) else (65533, 1)
      else if 224 ≤ p0 ∧ p0 ≤ 239 then
        let lo := if p0 = 224 then 160 else 128
        let hi := if p0 = 237 then 159 else 191
        if 2 ≤ rest.length ∧ lo ≤ b1 ∧ b1 ≤ hi ∧ cont b2 then
          ((p0 % 16) * 4096 + (b1 % 64) * 64 + b2 % 64, 3)
        else (65533, 1)
      else if 240 ≤ p0 ∧ p0 ≤ 244 then
        let lo := if p0 = 240 then 144 else 128
        let hi := if p0 = 244 then 143 else 191
        if 3 ≤ rest.length ∧ lo ≤ b1 ∧ b1 ≤ hi ∧ cont b2 ∧ cont b3 then
          ((p0 % 8) * 262144 + (b1 % 64) * 4096 + (b2 % 64) * 64 + b3 % 64, 4)
        else (65533, 1)
      else (65533, 1)

/-- The runes of `for _, r := range s`, with at most `n` iterations
(`n = len(s)` visits the whole string, each rune taking at least one byte). -/
def runesAux : Nat → List Nat → List Nat
  | 0, _ => []
  | _ + 1, [] => []
  | n + 1, p0 :: rest =>
    (decodeRune (p0 :: rest)).1 :: runesAux n (rest.drop ((decodeRune (p0 :: rest)).2 - 1))

def runes (s : List Nat) : List Nat := runesAux s.length s

def isAscii (s : Word) : Bool :=
  (runes s).all (fun r => !(decide (r < 97) || decide (r > 122))) && decide (s.length > 0)

/-- The word lists `assets.Wordles` and `assets.NonWordles`, read from embedded
files that are not part of the sources: a parameter of the embedding. -/
structure Assets where
  Wordles : List Word
  NonWordles : List Word

/-- The loop `for j, hint := range hints` updating the alphabet. -/
def updateAlphabet (word : Word) (hints : List Hint) (alphabet : List Hint) : List Hint :=
  (List.range hints.length).foldl
    (fun alpha j =>
      let letterIndex := (word.getD j 0 + 256 - 97) % 256
      alpha.set letterIndex (max (hints.getD j 0) (alpha.getD letterIndex 0)))
    alphabet

/-- The loop `for i, guess := range gs.guesses` that fills the first `nil` slot,
over the slots `is` still to visit. -/
def recordGuess (word : Word) (hints : List Hint) : List Nat → GameState → GameState
  | [], gs => gs
  | i :: is, gs =>
    if gs.guesses.getD i none = none then
      { guesses := gs.guesses.set i (some ⟨word, hints⟩)
        alphabet := updateAlphabet word hints gs.alphabet }
    else recordGuess word hints is gs

/-- The receiver after the call, and the returned error (`none` is `nil`). -/
def GameState.AddGuess (assets : Assets) (gs : GameState) (word : Word) (hints : List Hint) :
    GameState × Option String :=
  if gs.guesses.getD (MaxGuesses - 1) none ≠ none then
    (gs, some ("Exceeded maximum number of guesses: " ++ toString MaxGuesses))
  else if word.length ≠ 5 then
    (gs, some ("Invalid word length " ++ toString word.length ++ ", should be "
      ++ toString WordLength))
  else if hints.length ≠ 5 then
    (gs, some ("Invalid hints length " ++ toString hints.length ++ ", should be "
      ++ toString WordLength))
  else if !isAscii word then
    (gs, some ("Exceeded maximum number of guesses: " ++ toString MaxGuesses))
  else if !decide (word ∈ assets.Wordles) && !decide (word ∈ assets.NonWordles) then
    (gs, some "Not a valid word")
  else
    (recordGuess word hints (List.range gs.guesses.length) gs, none)

/-! ## Solver (solver.go 365-466) -/

structure Solver where
  state : GameState
  constraints : Constraint
  solutionTree : WordleTree
  guessTree : WordleTree
  constraintMap : ConstraintMap
  numGuesses : Nat

/-- The result of `Solver.AddGuess`: the receiver after the call, the returned
`bool` and the returned error (`none` is `nil`). -/
structure AddGuessResult where
  solver : Solver
  done : Bool
  err : Option String

/-- The method `Solver.AddGuess`; the result `none` is a `nil` dereference while
the constraint map is rebuilt. -/
def Solver.AddGuess (assets : Assets) (ord : RangeOrder) (s : Solver) (word : Word)
    (hints : List Hint) : Option AddGuessResult :=
  if s.numGuesses ≥ MaxGuesses then some ⟨s, true, none⟩
  else
    let r := s.state.AddGuess assets word hints
    match r.2 with
    | some err =>
      some ⟨{ state := r.1, constraints := s.constraints, solutionTree := s.solutionTree,
              guessTree := s.guessTree, constraintMap := s.constraintMap,
              numGuesses := s.numGuesses }, false, some err⟩
    | none =>
      let allCorrect := hints.foldl (fun acc h => acc && decide (h = LetterCorrect)) true
      if allCorrect then
        some ⟨{ state := r.1, constraints := s.constraints, solutionTree := s.solutionTree,
                guessTree := s.guessTree, constraintMap := s.constraintMap,
                numGuesses := s.numGuesses }, true, none⟩
      else
        let constraints := s.constraints.And (constraintFromPattern ord word hints)
        let solutionTree := NewWordleTree s.solutionTree.Wordles constraints
        let guessTree := NewWordleTree s.guessTree.Wordles constraints
        match NewConstraintMap ord guessTree.Wordles solutionTree with
        | none => none
        | some constraintMap =>
          some ⟨{ state := r.1, constraints := constraints, solutionTree := solutionTree,
                  guessTree := guessTree, constraintMap := constraintMap,
                  numGuesses := s.numGuesses + 1 },
                decide (s.numGuesses + 1 ≥ MaxGuesses), none⟩

/-! ## Notions used in the statements and in the proofs -/

/-- A lowercase ASCII letter. -/
def IsLower (ch : Nat) : Prop := 97 ≤ ch ∧ ch ≤ 122

instance (ch : Nat) : Decidable (IsLower ch) :=
  inferInstanceAs (Decidable (97 ≤ ch ∧ ch ≤ 122))

/-- A word of `WordLength` lowercase letters. -/
def IsWord (w : Word) : Prop := w.length = WordLength ∧ ∀ b ∈ w, IsLower b

instance (w : Word) : Decidable (IsWord w) :=
  inferInstanceAs (Decidable (w.length = WordLength ∧ ∀ b ∈ w, IsLower b))

/-- Letter `ch` is allowed by the letter set `lc`. -/
def allows (lc : LetterConstraint) (ch : Nat) : Bool :=
  LetterConstraint.Includes lc (NewLetterConstraint ch)

/-- The walk of `hasMatches` / `countMatches` along the bytes of one word from
`depth` on: each byte must be allowed at its depth, the count requirements are
decremented byte after byte, and at the end none may be above zero. -/
def pathOK (c : Constraint) (depth : Nat) : List Nat → Bool
  | [] => c.Counts.all (fun countConstraint => !decide (countConstraint.Count > 0))
  | ch :: rest => allows (c.Letters.getD depth 0) ch && pathOK (c.Dec ch) (depth + 1) rest

/-- The byte sequences of length `r` that lead from a node down `r` levels,
following the letters of `Options` and the children they are mapped to. -/
def wordsOf : Nat → Option WordleTreeNode → List (List Nat)
  | 0, _ => [[]]
  | _ + 1, none => []
  | r + 1, some n =>
    (LetterConstraint.ToChars n.Options).flatMap
      (fun ch => (wordsOf r (mapGet n.Children ch)).map (fun v => ch :: v))

/-- A node with `r` levels below it in which, at every level, the letters of
`Options` are exactly the lowercase keys of `Children`. -/
def WellBuilt : Nat → Option WordleTreeNode → Prop
  | 0, _ => True
  | _ + 1, none => False
  | r + 1, some n =>
    ∀ ch, IsLower ch →
      (allows n.Options ch = true ↔ (mapGet n.Children ch).isSome = true)
      ∧ (allows n.Options ch = true → WellBuilt r (mapGet n.Children ch))

/-- The pattern that the base-3 counter of `generateAllPatterns` holds at step
`i`: the base-3 digits of `i`, lowest first, each shifted by one. -/
def patternAt (i : Nat) : List Nat :=
  [i % 3 + 1, i / 3 % 3 + 1, i / 9 % 3 + 1, i / 27 % 3 + 1, i / 81 % 3 + 1]

/-- Well-formed count entries of a `Constraint`: five slots, the slots in use
(`Char ≠ 0`) come before the unused ones, no letter is named by two slots, and
an unused slot has count 0. -/
def PackedCounts (cs : List MinCountConstraint) : Prop :=
  cs.length = WordLength
  ∧ (∀ i, i < WordLength → ∀ j, j < WordLength → i < j →
      (cs.getD i MinCountConstraint.zero).Char = 0 →
      (cs.getD j MinCountConstraint.zero).Char = 0)
  ∧ (∀ i, i < WordLength → ∀ j, j < WordLength → i < j →
      (cs.getD i MinCountConstraint.zero).Char ≠ 0 →
      (cs.getD i MinCountConstraint.zero).Char ≠ (cs.getD j MinCountConstraint.zero).Char)
  ∧ (∀ i, i < WordLength → (cs.getD i MinCountConstraint.zero).Char = 0 →
      (cs.getD i MinCountConstraint.zero).Count = 0)

instance (cs : List MinCountConstraint) : Decidable (PackedCounts cs) :=
  @instDecidableAnd _ _ inferInstance
    (@instDecidableAnd _ _ inferInstance (@instDecidableAnd _ _ inferInstance inferInstance))

/-- The letters named by the count entries in use. -/
def usedLetters (cs : List MinCountConstraint) : List Nat :=
  (cs.map (fun e => e.Char)).filter (fun ch => decide (ch ≠ 0))

/-! ## The standard feedback rule (statement side) -/

/-- The letters of the solution at the positions where the guess has another
letter: the occurrences that are not Correct. -/
def unmatchedLetters (guess solution : Word) : List Nat :=
  ((List.range WordLength).filter (fun i => decide (guess.getD i 0 ≠ solution.getD i 0))).map
    (fun i => solution.getD i 0)

/-- The occurrences of the solution that are neither Correct nor claimed by a
guess letter at a position before `k`. -/
def unclaimed (guess solution : Word) : Nat → List Nat
  | 0 => unmatchedLetters guess solution
  | k + 1 =>
    if guess.getD k 0 ≠ solution.getD k 0 ∧ guess.getD k 0 ∈ unclaimed guess solution k then
      (unclaimed guess solution k).erase (guess.getD k 0)
    else unclaimed guess solution k

/-- The standard duplicate-letter rule at position `i`: Correct when the letters
are equal; otherwise Transposed when the solution still holds an occurrence of
the guess letter that is neither Correct nor already claimed further left, and
Wrong when it does not. -/
def feedbackAt (guess solution : Word) (i : Nat) : Hint :=
  if guess.getD i 0 = solution.getD i 0 then LetterCorrect
  else if guess.getD i 0 ∈ unclaimed guess solution i then LetterTransposed
  else LetterWrong

/-- The feedback pattern of a guess against a solution under the standard
duplicate-letter rule. -/
def standardFeedback (guess solution : Word) : Pattern :=
  (List.range WordLength).map (feedbackAt guess solution)

/-- The number of positions before `k` of the guess that hold `ch` and are
marked Correct or Transposed. -/
def neededUpTo (word : Word) (pattern : Pattern) (k : Nat) (ch : Nat) : Nat :=
  ((List.range k).filter (fun i =>
    decide (word.getD i 0 = ch)
      && (decide (pattern.getD i 0 = LetterCorrect)
        || decide (pattern.getD i 0 = LetterTransposed)))).length

/-- The number of positions of the guess that hold `ch` and are marked Correct
or Transposed: the count that `constraintFromPattern` requires of `ch`. -/
def needed (word : Word) (pattern : Pattern) (ch : Nat) : Nat :=
  neededUpTo word pattern WordLength ch

/-- The pair of letter sets and counts map of `constraintFromPattern` after the
first `k` iterations of its first loop. -/
def stateAfter (word : Word) (pattern : Pattern) (k : Nat) :
    List LetterConstraint × List (Nat × Nat) :=
  (List.range k).foldl (patternStep word pattern) (NewConstraint.Letters, [])

/-- Letter `x` is still allowed at position `j` after the first `k` iterations
of the first loop of `constraintFromPattern`: at a position already marked
Correct only the guess letter is allowed; elsewhere the guess letter of a
position already marked Wrong or Transposed is excluded there, and so is the
letter of every Wrong position `i < k` without an earlier Transposed duplicate,
unless `j` is a Correct occurrence of that letter. -/
def allowedAfter (word : Word) (pattern : Pattern) (k j x : Nat) : Prop :=
  if j < k ∧ pattern.getD j 0 = LetterCorrect then x = word.getD j 0
  else
    ¬ (j < k ∧ (pattern.getD j 0 = LetterWrong ∨ pattern.getD j 0 = LetterTransposed)
        ∧ x = word.getD j 0)
    ∧ ∀ i, i < k → pattern.getD i 0 = LetterWrong →
        hasTransposedDuplicate word pattern i = false → word.getD i 0 = x →
        (word.getD j 0 = x ∧ pattern.getD j 0 = LetterCorrect)

/-- The number of occurrences of `ch` in a list of letters. -/
def occ (ch : Nat) (l : List Nat) : Nat := (l.filter (fun y => decide (y = ch))).length

/-- The number of positions before `k` where guess and solution both hold `ch`. -/
def correctUpTo (guess solution : Word) (k : Nat) (ch : Nat) : Nat :=
  ((List.range k).filter (fun i =>
    decide (solution.getD i 0 = ch) && decide (guess.getD i 0 = solution.getD i 0))).length

/-- The count of one entry after the walk of `hasMatches` along the bytes of a
word: decremented, with the wrap-around of a byte, once per occurrence of the
letter of the entry. -/
def decWalk (e : MinCountConstraint) : List Nat → Nat
  | [] => e.Count
  | ch :: rest =>
    decWalk (if e.Char = ch then ⟨e.Char, (e.Count + 255) % 256⟩ else e) rest

/-- The function `NewSolver`; the package variables `SolutionTree`, `GuessTree`
and `GuessConstraintMap` that it reads are decoded from embedded files that are
not part of the sources, and are parameters here. -/
def NewSolver (solutionTree guessTree : WordleTree) (constraintMap : ConstraintMap) : Solver :=
  { state := NewGameState
    constraints := NewConstraint
    solutionTree := solutionTree
    guessTree := guessTree
    constraintMap := constraintMap
    numGuesses := 0 }

/-- A small vocabulary used to instantiate the theorems. -/
def exampleAssets : Assets :=
  { Wordles := [bytes "crane", bytes "peace"], NonWordles := [bytes "slate"] }

/-- The solver over `exampleAssets`, its trees computed as `cmd/precompute`
computes the embedded ones. -/
def exampleSolver : Solver :=
  NewSolver (NewWordleTree exampleAssets.Wordles NewConstraint)
    (NewWordleTree (exampleAssets.Wordles ++ exampleAssets.NonWordles) NewConstraint)
    ((NewConstraintMap RangeOrder.insertion (exampleAssets.Wordles ++ exampleAssets.NonWordles)
      (NewWordleTree exampleAssets.Wordles NewConstraint)).getD [])

/-- The solver that the narrowing branch of `Solver.AddGuess` leaves behind, from
the game state `state` that `GameState.AddGuess` has left. -/
def narrowedSolver (ord : RangeOrder) (s : Solver) (state : GameState) (word : Word)
    (hints : List Hint) : Solver :=
  { state := state
    constraints := s.constraints.And (constraintFromPattern ord word hints)
    solutionTree := NewWordleTree s.solutionTree.Wordles
      (s.constraints.And (constraintFromPattern ord word hints))
    guessTree := NewWordleTree s.guessTree.Wordles
      (s.constraints.And (constraintFromPattern ord word hints))
    constraintMap :=
      (NewConstraintMap ord
        (NewWordleTree s.guessTree.Wordles
          (s.constraints.And (constraintFromPattern ord word hints))).Wordles
        (NewWordleTree s.solutionTree.Wordles
          (s.constraints.And (constraintFromPattern ord word hints)))).getD []
    numGuesses := s.numGuesses + 1 }

/-! ## Game (game.go 164-215) -/

structure Game where
  word : Word
  state : GameState

def NewGame (word : Word) : Game := { word := word, state := NewGameState }

/-- Library function `slices.Index(s, v)`: the first index of `v` in `s`; `none`
is the result -1. -/
def sliceIndex (s : List Nat) (v : Nat) : Option Nat :=
  match s with
  | [] => none
  | x :: rest => if x = v then some 0 else (sliceIndex rest v).map (fun k => k + 1)

/-- One iteration of the loop `Check correct letter` of `Game.Guess`, on the pair
of `bag` and `hints` (63 is the byte '?'). -/
def markCorrect (word : Word) (st : List Nat × List Hint) (i : Nat) : List Nat × List Hint :=
  if word.getD i 0 = st.1.getD i 0 then (st.1.set i 63, st.2.set i LetterCorrect) else st

/-- One iteration of the loop `Check transposed letters` of `Game.Guess`. -/
def markTransposed (word : Word) (st : List Nat × List Hint) (i : Nat) :
    List Nat × List Hint :=
  match sliceIndex st.1 (word.getD i 0) with
  | some index => (st.1.set index 63, st.2.set i LetterTransposed)
  | none => st

/-- The pair of `bag` and `hints` of `Game.Guess` when its second loop starts:
`hints` set to `LetterWrong` everywhere, `bag` the bytes of the secret, then the
loop `Check correct letter`. -/
def afterCorrect (secret word : Word) : List Nat × List Hint :=
  (List.range WordLength).foldl (markCorrect word)
    (secret,
      (List.range WordLength).foldl (fun hints i => hints.set i LetterWrong)
        [0, 0, 0, 0, 0])

/-- The pair of `bag` and `hints` after the first `k` iterations of the loop
`Check transposed letters`. -/
def afterTransposed (secret word : Word) (k : Nat) : List Nat × List Hint :=
  (List.range k).foldl (markTransposed word) (afterCorrect secret word)

/-- The array `hints` that `Game.Guess` computes for the guess `word` against the
secret (game.go 181-202). -/
def guessHints (secret word : Word) : List Hint :=
  (afterTransposed secret word WordLength).2

/-- The method `Game.Guess`: the receiver after the call, the returned `bool` and
the returned error (`none` is `nil`). -/
def Game.Guess (assets : Assets) (g : Game) (word : Word) : Game × Bool × Option String :=
  if word.length ≠ 5 then
    (g, false, some ("Invalid word length " ++ toString word.length ++ ", should be "
      ++ toString WordLength))
  else
    let hints := guessHints g.word word
    let r := g.state.AddGuess assets word hints
    match r.2 with
    | some err => ({ word := g.word, state := r.1 }, false, some err)
    | none =>
      ({ word := g.word, state := r.1 },
        hints.all (fun hint => !decide (hint ≠ LetterCorrect)), none)

/-! ## Ranking (solver.go 38-41, 242-255, 468-496) -/

/-- The `float64` operations that `utility` uses and the library call
`sort.Slice` of `topNWords`, as parameters of the embedding: floating-point
arithmetic is not modelled, and `sort.Slice` (not a stable sort) returns some
rearrangement of the slice. -/
structure FloatOps where
  F : Type
  zero : F
  ofInt : Nat → F
  div : F → F → F
  mul : F → F → F
  sub : F → F → F
  log2 : F → F
  sortSlice : List (Word × F) → List (Word × F)
  perm : ∀ l, (sortSlice l).Perm l

/-- Go type `WordUtility`: the pair of `Word` and `Utility`. -/
abbrev WordUtility (fl : FloatOps) := Word × fl.F

/-- The method `utility`; `none` is a `nil` dereference in `CountMatches`. -/
def WordleTree.utility (fl : FloatOps) (wt : WordleTree) (constraints : List Constraint) :
    Option fl.F :=
  constraints.foldl
    (fun acc constraint =>
      match acc with
      | none => none
      | some utility =>
        match wt.CountMatches constraint with
        | none => none
        | some matchCount =>
          if matchCount > 0 then
            some (fl.sub utility
              (fl.mul (fl.div (fl.ofInt matchCount) (fl.ofInt wt.WordCount))
                (fl.log2 (fl.div (fl.ofInt matchCount) (fl.ofInt wt.WordCount)))))
          else some utility)
    (some fl.zero)

/-- The slice `utilities` of `topNWords` once all goroutines are done: slot `i`
holds word `i` of the guess list and its utility (a missing key of the
constraint map reads as the empty slice). -/
def guessUtilities (fl : FloatOps) (s : Solver) : List Word → Option (List (WordUtility fl))
  | [] => some []
  | word :: rest =>
    match s.solutionTree.utility fl ((mapGet s.constraintMap word).getD []) with
    | none => none
    | some utility =>
      match guessUtilities fl s rest with
      | none => none
      | some utilities => some ((word, utility) :: utilities)

/-- The method `topNWords`; `none` is a run-time panic (`Wordles[0]` on an empty
list, a `nil` dereference in a tree walk, or the slice bound `utilities[:n]`
with a negative `n`). -/
def Solver.topNWords (fl : FloatOps) (s : Solver) (n : Int) : Option (List (WordUtility fl)) :=
  if s.solutionTree.WordCount = 1 then
    match s.solutionTree.Wordles with
    | [] => none
    | word :: _ => some [(word, fl.zero)]
  else
    match guessUtilities fl s s.guessTree.Wordles with
    | none => none
    | some utilities =>
      if min n (fl.sortSlice utilities).length < 0 then none
      else some ((fl.sortSlice utilities).take (min n (fl.sortSlice utilities).length).toNat)

/-- The game state after the guesses of `gs` are submitted in turn with
`GameState.AddGuess`. -/
def recordAll (assets : Assets) (gs : GameState) : List (Word × List Hint) → GameState
  | [] => gs
  | g :: rest => recordAll assets (gs.AddGuess assets g.1 g.2).1 rest

/-- The game state of `exampleAssets` after six guesses of "slate", each marked
Wrong everywhere. -/
def fullGameState : GameState :=
  recordAll exampleAssets NewGameState
    (List.replicate 6 (bytes "slate", [LetterWrong, LetterWrong, LetterWrong, LetterWrong,
      LetterWrong]))

/-- An instance of the `float64` parameters, used to instantiate the theorems:
exact rational arithmetic, the logarithm rounded down to an integer, and an
insertion sort by decreasing utility. -/
def exampleFloatOps : FloatOps :=
  { F := ℚ
    zero := 0
    ofInt := fun k => (k : ℚ)
    div := fun x y => x / y
    mul := fun x y => x * y
    sub := fun x y => x - y
    log2 := fun x => (Int.log 2 x : ℚ)
    sortSlice := fun l => List.insertionSort (fun a b => decide (a.2 ≥ b.2)) l
    perm := fun l => List.perm_insertionSort _ l }

/-- A solver over `exampleAssets` whose solution tree holds the single word
"crane". -/
def singleSolver : Solver :=
  NewSolver (NewWordleTree [bytes "crane"] NewConstraint)
    (NewWordleTree (exampleAssets.Wordles ++ exampleAssets.NonWordles) NewConstraint)
    ((NewConstraintMap RangeOrder.insertion (exampleAssets.Wordles ++ exampleAssets.NonWordles)
      (NewWordleTree [bytes "crane"] NewConstraint)).getD [])

/-- Count entries that name distinct letters and are packed from slot 0: five
slots, the slots in use (`Char ≠ 0`) come before the unused ones, and no letter
is named by two slots. -/
def PackedLetters (cs : List MinCountConstraint) : Prop :=
  cs.length = WordLength
  ∧ (∀ i, i < WordLength → ∀ j, j < WordLength → i < j →
      (cs.getD i MinCountConstraint.zero).Char = 0 →
      (cs.getD j MinCountConstraint.zero).Char = 0)
  ∧ (∀ i, i < WordLength → ∀ j, j < WordLength → i < j →
      (cs.getD i MinCountConstraint.zero).Char ≠ 0 →
      (cs.getD i MinCountConstraint.zero).Char ≠ (cs.getD j MinCountConstraint.zero).Char)

instance (cs : List MinCountConstraint) : Decidable (PackedLetters cs) :=
  @instDecidableAnd _ _ inferInstance (@instDecidableAnd _ _ inferInstance inferInstance)

/-- The count that the entries `cs` hold for the letter `ch`: the count of the
first entry that names `ch`, and 0 when no entry names it. -/
def entryCount (cs : List MinCountConstraint) (ch : Nat) : Nat :=
  match cs.find? (fun e => decide (e.Char = ch)) with
  | some e => e.Count
  | none => 0

/-- A `Constraint` value whose count entries are not packed: slot 0 is unused
and slot 1 requires one 'a'. -/
def unpackedConstraint : Constraint :=
  { Letters := NewConstraint.Letters
    Counts := [MinCountConstraint.zero, ⟨97, 1⟩, MinCountConstraint.zero,
      MinCountConstraint.zero, MinCountConstraint.zero] }

/-- The solver after the guesses of the list are submitted in turn with
`Solver.AddGuess` (`none` is a `nil` dereference in one of the calls). -/
def addGuesses (assets : Assets) (ord : RangeOrder) (s : Solver) :
    List (Word × List Hint) → Option Solver
  | [] => some s
  | g :: rest =>
    match Solver.AddGuess assets ord s g.1 g.2 with
    | none => none
    | some r => addGuesses assets ord r.solver rest

/-- Solver `t` is what solver `s` becomes after some further calls of
`Solver.AddGuess` that return, each with its own word, hints and order of map
iteration. -/
inductive Later (assets : Assets) : Solver → Solver → Prop
  | refl (s : Solver) : Later assets s s
  | step (s : Solver) (ord : RangeOrder) (word : Word) (hints : List Hint)
      (r : AddGuessResult) (t : Solver) :
      Solver.AddGuess assets ord s word hints = some r → Later assets r.solver t →
      Later assets s t

/-- The vocabulary of the scenario of the specification: three solution words
and no other guess word. -/
def scenarioAssets : Assets :=
  { Wordles := [bytes "abcde", bytes "edcba", bytes "aabbc"], NonWordles := [] }

/-- The solver over `scenarioAssets`, its trees computed as `cmd/precompute`
computes the embedded ones. -/
def scenarioSolver : Solver :=
  NewSolver (NewWordleTree scenarioAssets.Wordles NewConstraint)
    (NewWordleTree (scenarioAssets.Wordles ++ scenarioAssets.NonWordles) NewConstraint)
    ((NewConstraintMap RangeOrder.insertion
      (scenarioAssets.Wordles ++ scenarioAssets.NonWordles)
      (NewWordleTree scenarioAssets.Wordles NewConstraint)).getD [])

/-- The solver after the guesses of the list, when every call of
`Solver.AddGuess` takes the narrowing branch. -/
def narrowAll (assets : Assets) (ord : RangeOrder) (s : Solver) :
    List (Word × List Hint) → Solver
  | [] => s
  | g :: rest =>
    narrowAll assets ord (narrowedSolver ord s (s.state.AddGuess assets g.1 g.2).1 g.1 g.2) rest

/-- No call of `GameState.AddGuess` returns an error when the guesses of the
list are submitted in turn. -/
def recordsAll (assets : Assets) (gs : GameState) : List (Word × List Hint) → Bool
  | [] => true
  | g :: rest =>
    decide ((gs.AddGuess assets g.1 g.2).2 = none)
      && recordsAll assets (gs.AddGuess assets g.1 g.2).1 rest

/-- The scenario after the first round: the guess "abcde" with its feedback
against "edcba". -/
def scenarioRound1 : Solver :=
  narrowAll scenarioAssets RangeOrder.insertion scenarioSolver
    [(bytes "abcde", [LetterTransposed, LetterTransposed, LetterCorrect, LetterTransposed,
      LetterTransposed])]

/-- The scenario after the second round: the guess "aabbc" with its feedback
against "edcba". -/
def scenarioRound2 : Solver :=
  narrowAll scenarioAssets RangeOrder.insertion scenarioRound1
    [(bytes "aabbc", [LetterTransposed, LetterWrong, LetterWrong, LetterCorrect,
      LetterTransposed])]

/-! ## Notions used in the statements about the trie walk -/

/-- The node reached from `node` by following the children named by the bytes
of `path`; `none` when a child on the way is missing. -/
def descend : Option WordleTreeNode → List Nat → Option WordleTreeNode
  | node, [] => node
  | none, _ :: _ => none
  | some n, ch :: rest => descend (mapGet n.Children ch) rest

/-- A node with `r` levels below it in which, at every level, every key of
`Children` is a lowercase letter. -/
def LowerKeys : Nat → Option WordleTreeNode → Prop
  | 0, _ => True
  | _ + 1, none => True
  | r + 1, some n =>
    ∀ ch, (mapGet n.Children ch).isSome = true →
      IsLower ch ∧ LowerKeys r (mapGet n.Children ch)

/-- The calls `countMatches(node, constraint, depth)` that one call of
`countMatches` makes, itself included: the `node` argument (`none` is `nil`) and
the `depth` argument of each. A call with `depth >= WordLength` or with a `nil`
node makes no further call. -/
def countMatchesCalls : Nat → Option WordleTreeNode → Constraint → Nat →
    List (Option WordleTreeNode × Nat)
  | levels, node, constraint, depth =>
    (node, depth) ::
      (if depth ≥ WordLength then []
      else
        match levels with
        | 0 => []
        | levels + 1 =>
          match node with
          | none => []
          | some n =>
            (LetterConstraint.ToChars (n.Options &&& constraint.Letters.getD depth 0)).flatMap
              (fun char =>
                countMatchesCalls levels (mapGet n.Children char) (constraint.Dec char)
                  (depth + 1)))

/-- The calls made by the loop of `hasMatches` over the candidate letters: the
loop ends with the first call that returns true (or dereferences `nil`). -/
def anyCalls (f : Nat → Option Bool) (g : Nat → List (Option WordleTreeNode × Nat)) :
    List Nat → List (Option WordleTreeNode × Nat)
  | [] => []
  | char :: rest =>
    g char ++
      (match f char with
      | some false => anyCalls f g rest
      | _ => [])

/-- The calls `hasMatches(node, constraint, depth)` that one call of `hasMatches`
makes, itself included. -/
def hasMatchesCalls : Nat → Option WordleTreeNode → Constraint → Nat →
    List (Option WordleTreeNode × Nat)
  | levels, node, constraint, depth =>
    (node, depth) ::
      (if depth ≥ WordLength then []
      else
        match levels with
        | 0 => []
        | levels + 1 =>
          match node with
          | none => []
          | some n =>
            anyCalls
              (fun char =>
                hasMatchesAux levels (mapGet n.Children char) (constraint.Dec char) (depth + 1))
              (fun char =>
                hasMatchesCalls levels (mapGet n.Children char) (constraint.Dec char)
                  (depth + 1))
              (LetterConstraint.ToChars (n.Options &&& constraint.Letters.getD depth 0)))

/-! # Lemmas and theorems -/

/-! ## Letter sets -/

theorem NewLetterConstraint_lower {ch : Nat} (h : IsLower ch) :
    NewLetterConstraint ch = 2 ^ (ch - 97) := by
  obtain ⟨h1, h2⟩ := h
  have e : (ch + 256 - 97) % 256 = ch - 97 := by omega
  unfold NewLetterConstraint
  rw [e, Nat.one_shiftLeft]
  apply Nat.mod_eq_of_lt
  calc 2 ^ (ch - 97) ≤ 2 ^ 25 := Nat.pow_le_pow_right (by norm_num) (by omega)
    _ < 4294967296 := by norm_num

theorem two_pow_and_pos (k lc : Nat) : (2 ^ k &&& lc > 0) ↔ lc.testBit k = true := by
  constructor
  · intro h
    by_contra hb
    have hz : 2 ^ k &&& lc = 0 := by
      apply Nat.eq_of_testBit_eq
      intro i
      rw [Nat.testBit_and, Nat.zero_testBit, Nat.testBit_two_pow]
      by_cases hik : k = i
      · subst hik; simp [hb]
      · simp [hik]
    omega
  · intro h
    have hb : (2 ^ k &&& lc).testBit k = true := by
      rw [Nat.testBit_and, Nat.testBit_two_pow_self, h]; rfl
    by_contra hz
    have hz0 : 2 ^ k &&& lc = 0 := by omega
    rw [hz0, Nat.zero_testBit] at hb
    exact Bool.false_ne_true hb

theorem allows_iff {lc ch : Nat} (h : IsLower ch) :
    allows lc ch = true ↔ lc.testBit (ch - 97) = true := by
  unfold allows LetterConstraint.Includes
  rw [NewLetterConstraint_lower h, decide_eq_true_iff, two_pow_and_pos]

theorem allows_and {a b ch : Nat} (h : IsLower ch) :
    allows (a &&& b) ch = (allows a ch && allows b ch) := by
  rw [Bool.eq_iff_iff, Bool.and_eq_true, allows_iff h, allows_iff h, allows_iff h,
    Nat.testBit_and, Bool.and_eq_true]

theorem allows_new {c ch : Nat} (hc : IsLower c) (h : IsLower ch) :
    allows (NewLetterConstraint c) ch = decide (ch = c) := by
  rw [Bool.eq_iff_iff, allows_iff h, NewLetterConstraint_lower hc, Nat.testBit_two_pow]
  simp only [decide_eq_true_eq]
  obtain ⟨h1, h2⟩ := h
  obtain ⟨h3, h4⟩ := hc
  omega

theorem allows_exclude {lc c ch : Nat} (hc : IsLower c) (h : IsLower ch) :
    allows (LetterConstraint.Exclude lc c) ch = (allows lc ch && !decide (ch = c)) := by
  have e : (4294967295 : Nat) = 2 ^ 32 - 1 := by norm_num
  rw [Bool.eq_iff_iff, Bool.and_eq_true, allows_iff h, allows_iff h]
  unfold LetterConstraint.Exclude
  rw [NewLetterConstraint_lower hc, Nat.testBit_and, Nat.testBit_xor, e,
    Nat.testBit_two_pow_sub_one, Nat.testBit_two_pow, Bool.and_eq_true]
  obtain ⟨h1, h2⟩ := h
  obtain ⟨h3, h4⟩ := hc
  have hlt : ch - 97 < 32 := by omega
  by_cases hcc : ch = c
  · subst hcc; simp [hlt]
  · have : ¬ (c - 97 = ch - 97) := by omega
    simp [hlt, hcc, this]

theorem allows_include {lc c ch : Nat} (hc : IsLower c) (h : IsLower ch) :
    allows (LetterConstraint.Include lc c) ch = (allows lc ch || decide (ch = c)) := by
  rw [Bool.eq_iff_iff, Bool.or_eq_true, allows_iff h, allows_iff h]
  unfold LetterConstraint.Include
  rw [NewLetterConstraint_lower hc, Nat.testBit_or, Nat.testBit_two_pow, Bool.or_eq_true]
  simp only [decide_eq_true_eq]
  obtain ⟨h1, h2⟩ := h
  obtain ⟨h3, h4⟩ := hc
  have : c - 97 = ch - 97 ↔ ch = c := by omega
  rw [this]

theorem allows_full {ch : Nat} (h : IsLower ch) : allows 4294967295 ch = true := by
  have e : (4294967295 : Nat) = 2 ^ 32 - 1 := by norm_num
  rw [allows_iff h, e, Nat.testBit_two_pow_sub_one, decide_eq_true_iff]
  obtain ⟨h1, h2⟩ := h
  omega

theorem allows_zero (ch : Nat) : allows 0 ch = false := by
  simp [allows, LetterConstraint.Includes]

theorem mem_ToChars {lc ch : Nat} :
    ch ∈ LetterConstraint.ToChars lc ↔ IsLower ch ∧ allows lc ch = true := by
  unfold LetterConstraint.ToChars allows LetterConstraint.Includes IsLower
  rw [List.mem_filter, List.mem_map, Nat.land_comm]
  constructor
  · rintro ⟨⟨k, hk, rfl⟩, h⟩
    rw [List.mem_range] at hk
    exact ⟨⟨by omega, by omega⟩, h⟩
  · rintro ⟨⟨h1, h2⟩, h⟩
    exact ⟨⟨ch - 97, by rw [List.mem_range]; omega, by omega⟩, h⟩

theorem nodup_ToChars (lc : Nat) : (LetterConstraint.ToChars lc).Nodup := by
  unfold LetterConstraint.ToChars
  apply List.Nodup.filter
  apply List.Nodup.map
  · intro a b h; simpa using h
  · exact List.nodup_range 26

/-! ## NewWordleTree: the stored word list -/

/-- One iteration of the loop of `NewWordleTree`. -/
theorem NewWordleTree_fold (c : Constraint) (ws : List Word) (root : WordleTree) :
    (ws.foldl
      (fun root word =>
        if !c.Matches word then root
        else
          { node := insertChars root.node (wordChars word)
            WordCount := root.WordCount + 1
            Wordles := root.Wordles ++ [word] })
      root).Wordles = root.Wordles ++ ws.filter (fun w => c.Matches w)
    ∧ (ws.foldl
      (fun root word =>
        if !c.Matches word then root
        else
          { node := insertChars root.node (wordChars word)
            WordCount := root.WordCount + 1
            Wordles := root.Wordles ++ [word] })
      root).WordCount = root.WordCount + (ws.filter (fun w => c.Matches w)).length := by
  induction ws generalizing root with
  | nil => simp
  | cons w ws ih =>
    rw [List.foldl_cons]
    by_cases hm : c.Matches w = true
    · have := ih { node := insertChars root.node (wordChars w)
                   WordCount := root.WordCount + 1
                   Wordles := root.Wordles ++ [w] }
      simp only [hm, Bool.not_true, Bool.false_eq_true, if_false, List.filter_cons_of_pos,
        List.length_cons] at this ⊢
      refine ⟨by rw [this.1]; simp, by rw [this.2]; omega⟩
    · have hf : c.Matches w = false := by simpa using hm
      have := ih root
      simp only [hf, Bool.not_false, if_true] at this ⊢
      rw [List.filter_cons_of_neg (by simp [hf])]
      exact this

theorem NewWordleTree_Wordles (ws : List Word) (c : Constraint) :
    (NewWordleTree ws c).Wordles = ws.filter (fun w => c.Matches w) := by
  have := (NewWordleTree_fold c ws { node := NewWordleTreeNode, WordCount := 0, Wordles := [] }).1
  simpa [NewWordleTree] using this

theorem NewWordleTree_WordCount (ws : List Word) (c : Constraint) :
    (NewWordleTree ws c).WordCount = (NewWordleTree ws c).Wordles.length := by
  have := (NewWordleTree_fold c ws { node := NewWordleTreeNode, WordCount := 0, Wordles := [] }).2
  rw [NewWordleTree_Wordles]
  simpa [NewWordleTree] using this
/-! ## The trie walk -/

theorem hasMatches_eq (node : Option WordleTreeNode) (c : Constraint) (depth : Nat) :
    hasMatches node c depth =
      if depth ≥ WordLength then
        some (c.Counts.all (fun countConstraint => !decide (countConstraint.Count > 0)))
      else
        match node with
        | none => none
        | some n =>
          anyChild
            (fun char => hasMatches (mapGet n.Children char) (c.Dec char) (depth + 1))
            (LetterConstraint.ToChars (n.Options &&& c.Letters.getD depth 0)) := by
  unfold hasMatches
  by_cases h : depth ≥ WordLength
  · rw [hasMatchesAux.eq_def]; simp [h]
  · obtain ⟨k, hk⟩ : ∃ k, WordLength - depth = k + 1 := ⟨WordLength - depth - 1, by omega⟩
    have hk2 : WordLength - (depth + 1) = k := by omega
    rw [hk, hasMatchesAux.eq_def, hk2]

theorem countMatches_eq (node : Option WordleTreeNode) (c : Constraint) (depth : Nat) :
    countMatches node c depth =
      if depth ≥ WordLength then
        some (if c.Counts.all (fun countConstraint => !decide (countConstraint.Count > 0))
          then 1 else 0)
      else
        match node with
        | none => none
        | some n =>
          sumChild
            (fun char => countMatches (mapGet n.Children char) (c.Dec char) (depth + 1))
            (LetterConstraint.ToChars (n.Options &&& c.Letters.getD depth 0)) := by
  unfold countMatches
  by_cases h : depth ≥ WordLength
  · rw [countMatchesAux.eq_def]; simp [h]
  · obtain ⟨k, hk⟩ : ∃ k, WordLength - depth = k + 1 := ⟨WordLength - depth - 1, by omega⟩
    have hk2 : WordLength - (depth + 1) = k := by omega
    rw [hk, countMatchesAux.eq_def, hk2]

theorem ToChars_and (a b : Nat) :
    LetterConstraint.ToChars (a &&& b)
      = (LetterConstraint.ToChars a).filter (fun ch => allows b ch) := by
  unfold LetterConstraint.ToChars
  rw [List.filter_filter]
  apply List.filter_congr
  intro ch hch
  rw [List.mem_map] at hch
  obtain ⟨k, hk, rfl⟩ := hch
  rw [List.mem_range] at hk
  have hl : IsLower (k + 97) := ⟨by omega, by omega⟩
  have key : ∀ x : Nat, decide (x &&& NewLetterConstraint (k + 97) > 0) = allows x (k + 97) := by
    intro x
    unfold allows LetterConstraint.Includes
    rw [Nat.land_comm]
  rw [key, key, allows_and hl, Bool.and_comm]

theorem sumChild_some (f : Nat → Option Nat) (g : Nat → Nat) (l : List Nat)
    (h : ∀ ch ∈ l, f ch = some (g ch)) : sumChild f l = some ((l.map g).sum) := by
  induction l with
  | nil => rfl
  | cons a l ih =>
    have ha := h a (List.mem_cons_self a l)
    have hl := ih (fun ch hch => h ch (List.mem_cons_of_mem a hch))
    simp [sumChild, ha, hl]

theorem anyChild_some (f : Nat → Option Bool) (g : Nat → Bool) (l : List Nat)
    (h : ∀ ch ∈ l, f ch = some (g ch)) : anyChild f l = some (l.any g) := by
  induction l with
  | nil => rfl
  | cons a l ih =>
    have ha := h a (List.mem_cons_self a l)
    have hl := ih (fun ch hch => h ch (List.mem_cons_of_mem a hch))
    cases hg : g a <;> simp [anyChild, ha, hl, hg]

theorem WellBuilt_child {r : Nat} {n : WordleTreeNode} (h : WellBuilt (r + 1) (some n))
    {ch : Nat} (hch : ch ∈ LetterConstraint.ToChars n.Options) :
    WellBuilt r (mapGet n.Children ch) := by
  rw [mem_ToChars] at hch
  exact (h ch hch.1).2 hch.2

theorem countP_flatMap_cons (p : List Nat → Bool) (l : List Nat) (F : Nat → List (List Nat)) :
    (l.flatMap (fun ch => (F ch).map (fun v => ch :: v))).countP p
      = (l.map (fun ch => (F ch).countP (fun v => p (ch :: v)))).sum := by
  induction l with
  | nil => rfl
  | cons a l ih =>
    rw [List.flatMap_cons, List.countP_append, ih, List.map_cons, List.sum_cons,
      List.countP_map]
    rfl

theorem any_flatMap_cons (p : List Nat → Bool) (l : List Nat) (F : Nat → List (List Nat)) :
    (l.flatMap (fun ch => (F ch).map (fun v => ch :: v))).any p
      = l.any (fun ch => (F ch).any (fun v => p (ch :: v))) := by
  induction l with
  | nil => rfl
  | cons a l ih =>
    rw [List.flatMap_cons, List.any_append, ih, List.any_cons, List.any_map]
    rfl

theorem sum_map_filter (l : List Nat) (q : Nat → Bool) (g : Nat → Nat) :
    ((l.filter q).map g).sum = (l.map (fun ch => if q ch then g ch else 0)).sum := by
  induction l with
  | nil => rfl
  | cons a l ih =>
    by_cases hq : q a = true
    · rw [List.filter_cons_of_pos hq]; simp [hq, ih]
    · rw [List.filter_cons_of_neg hq]; simp [hq, ih]

theorem any_filter_eq (l : List Nat) (q : Nat → Bool) (g : Nat → Bool) :
    (l.filter q).any g = l.any (fun ch => q ch && g ch) := by
  induction l with
  | nil => rfl
  | cons a l ih =>
    by_cases hq : q a = true
    · rw [List.filter_cons_of_pos hq]; simp [hq, ih]
    · rw [List.filter_cons_of_neg hq]; simp [hq, ih]

theorem any_congr_mem (l : List Nat) (f g : Nat → Bool) (h : ∀ x ∈ l, f x = g x) :
    l.any f = l.any g := by
  induction l with
  | nil => rfl
  | cons a l ih =>
    rw [List.any_cons, List.any_cons, h a (List.mem_cons_self a l),
      ih (fun x hx => h x (List.mem_cons_of_mem a hx))]

/-- On a well-built node `countMatches` returns, and counts the paths below the
node that pass the walk. -/
theorem countMatches_wordsOf (r : Nat) :
    ∀ (node : Option WordleTreeNode) (c : Constraint) (depth : Nat),
      depth + r = WordLength → WellBuilt r node →
      countMatches node c depth = some ((wordsOf r node).countP (pathOK c depth)) := by
  induction r with
  | zero =>
    intro node c depth hd _
    rw [countMatches_eq, if_pos (by omega)]
    simp only [wordsOf, List.countP_cons, List.countP_nil, pathOK]
    simp
  | succ r ih =>
    intro node c depth hd hwb
    rw [countMatches_eq, if_neg (by omega)]
    cases node with
    | none => exact absurd hwb (by simp [WellBuilt])
    | some n =>
      simp only
      rw [sumChild_some _
        (fun ch => (wordsOf r (mapGet n.Children ch)).countP (pathOK (c.Dec ch) (depth + 1)))]
      · congr 1
        rw [ToChars_and, sum_map_filter]
        simp only [wordsOf]
        rw [countP_flatMap_cons]
        congr 1
        apply List.map_congr_left
        intro ch _
        have hfun : (fun v => pathOK c depth (ch :: v))
            = fun v => (allows (c.Letters.getD depth 0) ch
                && pathOK (c.Dec ch) (depth + 1) v) := rfl
        rw [hfun]
        cases ha : allows (c.Letters.getD depth 0) ch
        · simp
        · simp
      · intro ch hch
        rw [ToChars_and, List.mem_filter] at hch
        exact ih _ _ _ (by omega) (WellBuilt_child hwb hch.1)

/-- On a well-built node `hasMatches` returns, and tells whether some path below
the node passes the walk. -/
theorem hasMatches_wordsOf (r : Nat) :
    ∀ (node : Option WordleTreeNode) (c : Constraint) (depth : Nat),
      depth + r = WordLength → WellBuilt r node →
      hasMatches node c depth = some ((wordsOf r node).any (pathOK c depth)) := by
  induction r with
  | zero =>
    intro node c depth hd _
    rw [hasMatches_eq, if_pos (by omega)]
    simp [wordsOf, pathOK]
  | succ r ih =>
    intro node c depth hd hwb
    rw [hasMatches_eq, if_neg (by omega)]
    cases node with
    | none => exact absurd hwb (by simp [WellBuilt])
    | some n =>
      simp only
      rw [anyChild_some _
        (fun ch => (wordsOf r (mapGet n.Children ch)).any (pathOK (c.Dec ch) (depth + 1)))]
      · congr 1
        rw [ToChars_and, any_filter_eq]
        simp only [wordsOf]
        rw [any_flatMap_cons]
        apply any_congr_mem
        intro ch _
        have hfun : (fun v => pathOK c depth (ch :: v))
            = fun v => (allows (c.Letters.getD depth 0) ch
                && pathOK (c.Dec ch) (depth + 1) v) := rfl
        rw [hfun]
        cases ha : allows (c.Letters.getD depth 0) ch
        · simp
        · simp
      · intro ch hch
        rw [ToChars_and, List.mem_filter] at hch
        exact ih _ _ _ (by omega) (WellBuilt_child hwb hch.1)
/-! ## Insertion into the trie -/

theorem mapGet_mapSet {κ β : Type} [DecidableEq κ] (m : List (κ × β)) (k : κ) (v : β) (x : κ) :
    mapGet (mapSet m k v) x = if x = k then some v else mapGet m x := by
  induction m with
  | nil =>
    by_cases h : x = k
    · simp [mapSet, mapGet, h]
    · have h2 : ¬ k = x := fun e => h e.symm
      simp [mapSet, mapGet, h, h2]
  | cons p m ih =>
    obtain ⟨k0, w⟩ := p
    by_cases h0 : k0 = k
    · by_cases h : x = k
      · simp [mapSet, mapGet, h0, h]
      · have h2 : ¬ k = x := fun e => h e.symm
        simp [mapSet, mapGet, h0, h, h2]
    · by_cases h : x = k
      · subst h
        simp only [if_true] at ih
        simp [mapSet, mapGet, h0, ih]
      · by_cases h4 : k0 = x
        · simp [mapSet, mapGet, h0, h4, h]
        · simp [mapSet, mapGet, h0, h4, ih, h]

theorem WellBuilt_new (r : Nat) : WellBuilt r (some NewWordleTreeNode) := by
  cases r with
  | zero => simp [WellBuilt]
  | succ r =>
    intro ch _
    simp [NewWordleTreeNode, WordleTreeNode.Options, WordleTreeNode.Children, mapGet,
      allows_zero]

theorem wordsOf_new (r : Nat) : wordsOf (r + 1) (some NewWordleTreeNode) = [] := by
  simp [wordsOf, NewWordleTreeNode, WordleTreeNode.Options, LetterConstraint.ToChars,
    allows_zero]

theorem mem_wordsOf_succ (r : Nat) (n : WordleTreeNode) (u : List Nat) :
    u ∈ wordsOf (r + 1) (some n) ↔
      ∃ ch v, u = ch :: v ∧ IsLower ch ∧ allows n.Options ch = true
        ∧ v ∈ wordsOf r (mapGet n.Children ch) := by
  simp only [wordsOf, List.mem_flatMap, List.mem_map, mem_ToChars]
  constructor
  · rintro ⟨ch, ⟨hl, ha⟩, v, hv, rfl⟩
    exact ⟨ch, v, rfl, hl, ha, hv⟩
  · rintro ⟨ch, v, rfl, hl, ha, hv⟩
    exact ⟨ch, ⟨hl, ha⟩, v, hv, rfl⟩

theorem mem_wordsOf_new (r : Nat) (rest v : List Nat) (hr : rest.length = r)
    (hv : v ∈ wordsOf r (some NewWordleTreeNode)) : v = rest := by
  cases r with
  | zero =>
    have : rest = [] := List.length_eq_zero.mp hr
    subst this
    simpa [wordsOf] using hv
  | succ r =>
    rw [wordsOf_new] at hv
    exact absurd hv (List.not_mem_nil v)

theorem nodup_wordsOf (r : Nat) : ∀ node : Option WordleTreeNode, (wordsOf r node).Nodup := by
  induction r with
  | zero => intro node; simp [wordsOf]
  | succ r ih =>
    intro node
    cases node with
    | none => simp [wordsOf]
    | some n =>
      simp only [wordsOf]
      rw [List.nodup_flatMap]
      refine ⟨fun ch _ => (ih _).map (fun a b h => by simpa using h), ?_⟩
      apply List.Pairwise.imp_of_mem _ (nodup_ToChars n.Options)
      intro a b _ _ hab
      show List.Disjoint _ _
      intro u hu1 hu2
      rw [List.mem_map] at hu1 hu2
      obtain ⟨v1, _, rfl⟩ := hu1
      obtain ⟨v2, _, h2⟩ := hu2
      exact hab (by injection h2 with h _; exact h.symm)

/-- Inserting the bytes of a word below a well-built node keeps it well built
and adds exactly that byte sequence to its paths. -/
theorem insertChars_spec (r : Nat) :
    ∀ (node : WordleTreeNode) (chars : List Nat), chars.length = r →
      (∀ b ∈ chars, IsLower b) → WellBuilt r (some node) →
      WellBuilt r (some (insertChars node chars))
        ∧ ∀ u, u ∈ wordsOf r (some (insertChars node chars))
            ↔ u = chars ∨ u ∈ wordsOf r (some node) := by
  induction r with
  | zero =>
    intro node chars hlen _ _
    have : chars = [] := List.length_eq_zero.mp hlen
    subst this
    refine ⟨by simp [WellBuilt], fun u => ?_⟩
    simp [wordsOf]
  | succ r ih =>
    intro node chars hlen hlow hwb
    obtain ⟨O, C⟩ := node
    cases chars with
    | nil => simp at hlen
    | cons ch rest =>
      have hrest : rest.length = r := by simpa using hlen
      have hch : IsLower ch := hlow ch (List.mem_cons_self ch rest)
      have hlowr : ∀ b ∈ rest, IsLower b := fun b hb => hlow b (List.mem_cons_of_mem ch hb)
      have hwbch := hwb ch hch
      simp only [WordleTreeNode.Options, WordleTreeNode.Children] at hwbch
      cases hg : mapGet C ch with
      | some child =>
        have hallow : allows O ch = true := hwbch.1.mpr (by simp [hg])
        have hchild : WellBuilt r (some child) := by
          have := hwbch.2 hallow
          rwa [hg] at this
        obtain ⟨ihwb, ihw⟩ := ih child rest hrest hlowr hchild
        simp only [insertChars, hg]
        constructor
        · intro x hx
          simp only [WordleTreeNode.Options, WordleTreeNode.Children, mapGet_mapSet]
          by_cases hxc : x = ch
          · subst hxc
            simp [hallow, ihwb]
          · simp only [hxc, if_false]
            exact hwb x hx
        · intro u
          rw [mem_wordsOf_succ, mem_wordsOf_succ]
          simp only [WordleTreeNode.Options, WordleTreeNode.Children, mapGet_mapSet]
          constructor
          · rintro ⟨x, v, rfl, hx, hax, hv⟩
            by_cases hxc : x = ch
            · subst hxc
              simp only [if_true] at hv
              rcases (ihw v).mp hv with rfl | hv2
              · exact Or.inl rfl
              · exact Or.inr ⟨x, v, rfl, hx, hax, by rw [hg]; exact hv2⟩
            · simp only [hxc, if_false] at hv
              exact Or.inr ⟨x, v, rfl, hx, hax, hv⟩
          · rintro (rfl | ⟨x, v, rfl, hx, hax, hv⟩)
            · exact ⟨ch, rest, rfl, hch, hallow, by simp [(ihw rest).mpr (Or.inl rfl)]⟩
            · refine ⟨x, v, rfl, hx, hax, ?_⟩
              by_cases hxc : x = ch
              · subst hxc
                simp only [if_true]
                rw [hg] at hv
                exact (ihw v).mpr (Or.inr hv)
              · simp only [hxc, if_false]
                exact hv
      | none =>
        have hallow : allows O ch = false := by
          cases ha : allows O ch
          · rfl
          · have := hwbch.1.mp ha
            simp [hg] at this
        obtain ⟨ihwb, ihw⟩ := ih NewWordleTreeNode rest hrest hlowr (WellBuilt_new r)
        simp only [insertChars, hg]
        constructor
        · intro x hx
          simp only [WordleTreeNode.Options, WordleTreeNode.Children, mapGet_mapSet,
            allows_include hch hx]
          by_cases hxc : x = ch
          · subst hxc
            simp [ihwb]
          · simp only [hxc, if_false, decide_False, Bool.or_false]
            exact hwb x hx
        · intro u
          rw [mem_wordsOf_succ, mem_wordsOf_succ]
          simp only [WordleTreeNode.Options, WordleTreeNode.Children, mapGet_mapSet]
          constructor
          · rintro ⟨x, v, rfl, hx, hax, hv⟩
            by_cases hxc : x = ch
            · subst hxc
              simp only [if_true] at hv
              rcases (ihw v).mp hv with rfl | hv2
              · exact Or.inl rfl
              · exact Or.inl (by rw [mem_wordsOf_new r rest v hrest hv2])
            · simp only [hxc, if_false] at hv
              rw [allows_include hch hx] at hax
              simp only [hxc, decide_False, Bool.or_false] at hax
              exact Or.inr ⟨x, v, rfl, hx, hax, hv⟩
          · rintro (rfl | ⟨x, v, rfl, hx, hax, hv⟩)
            · refine ⟨ch, rest, rfl, hch, ?_, by simp [(ihw rest).mpr (Or.inl rfl)]⟩
              rw [allows_include hch hch]
              simp
            · have hxc : x ≠ ch := by
                rintro rfl
                rw [hallow] at hax
                exact Bool.false_ne_true hax
              refine ⟨x, v, rfl, hx, ?_, ?_⟩
              · rw [allows_include hch hx, hax]; rfl
              · simp only [hxc, if_false]
                exact hv
/-! ## The tree built by NewWordleTree -/

theorem length_five {w : List Nat} (h : w.length = 5) : ∃ a b c d e, w = [a, b, c, d, e] := by
  match w, h with
  | [a, b, c, d, e], _ => exact ⟨a, b, c, d, e, rfl⟩

theorem wordChars_eq {w : Word} (h : w.length = WordLength) : wordChars w = w := by
  obtain ⟨a, b, c, d, e, rfl⟩ := length_five h
  rfl

theorem NewWordleTree_inv (c : Constraint) (ws : List Word) (hws : ∀ w ∈ ws, IsWord w)
    (root : WordleTree)
    (hroot : WellBuilt WordLength (some root.node)
      ∧ ∀ u, u ∈ wordsOf WordLength (some root.node) ↔ u ∈ root.Wordles) :
    WellBuilt WordLength (some (ws.foldl
      (fun root word =>
        if !c.Matches word then root
        else
          { node := insertChars root.node (wordChars word)
            WordCount := root.WordCount + 1
            Wordles := root.Wordles ++ [word] })
      root).node)
    ∧ ∀ u, u ∈ wordsOf WordLength (some (ws.foldl
      (fun root word =>
        if !c.Matches word then root
        else
          { node := insertChars root.node (wordChars word)
            WordCount := root.WordCount + 1
            Wordles := root.Wordles ++ [word] })
      root).node) ↔ u ∈ (ws.foldl
      (fun root word =>
        if !c.Matches word then root
        else
          { node := insertChars root.node (wordChars word)
            WordCount := root.WordCount + 1
            Wordles := root.Wordles ++ [word] })
      root).Wordles := by
  induction ws generalizing root with
  | nil => exact hroot
  | cons w ws ih =>
    rw [List.foldl_cons]
    have hw : IsWord w := hws w (List.mem_cons_self w ws)
    apply ih (fun x hx => hws x (List.mem_cons_of_mem w hx))
    by_cases hm : c.Matches w = true
    · simp only [hm, Bool.not_true, Bool.false_eq_true, if_false]
      rw [wordChars_eq hw.1]
      obtain ⟨h1, h2⟩ := insertChars_spec WordLength root.node w hw.1 hw.2 hroot.1
      refine ⟨h1, fun u => ?_⟩
      rw [h2, hroot.2, List.mem_append, List.mem_singleton]
      exact or_comm
    · have hf : c.Matches w = false := by simpa using hm
      simp only [hf, Bool.not_false, if_true]
      exact hroot

theorem NewWordleTree_node (ws : List Word) (c : Constraint) (hws : ∀ w ∈ ws, IsWord w) :
    WellBuilt WordLength (some (NewWordleTree ws c).node)
      ∧ ∀ u, u ∈ wordsOf WordLength (some (NewWordleTree ws c).node)
          ↔ u ∈ (NewWordleTree ws c).Wordles := by
  apply NewWordleTree_inv c ws hws
  refine ⟨WellBuilt_new _, fun u => ?_⟩
  show u ∈ wordsOf (4 + 1) (some NewWordleTreeNode) ↔ u ∈ []
  rw [wordsOf_new]

/-- What `HasMatches` computes on a built tree: whether some stored word passes
the walk of the trie. -/
theorem HasMatches_built (ws : List Word) (c0 c : Constraint) (hws : ∀ w ∈ ws, IsWord w) :
    (NewWordleTree ws c0).HasMatches c
      = some ((NewWordleTree ws c0).Wordles.any (pathOK c 0)) := by
  obtain ⟨hwb, hmem⟩ := NewWordleTree_node ws c0 hws
  unfold WordleTree.HasMatches
  rw [hasMatches_wordsOf WordLength _ c 0 (by simp) hwb]
  congr 1
  rw [Bool.eq_iff_iff, List.any_eq_true, List.any_eq_true]
  constructor
  · rintro ⟨u, hu, hp⟩; exact ⟨u, (hmem u).mp hu, hp⟩
  · rintro ⟨u, hu, hp⟩; exact ⟨u, (hmem u).mpr hu, hp⟩

/-- What `CountMatches` computes on a tree built from distinct words: the
number of stored words that pass the walk of the trie. -/
theorem CountMatches_built (ws : List Word) (c0 c : Constraint) (hws : ∀ w ∈ ws, IsWord w)
    (hnd : ws.Nodup) :
    (NewWordleTree ws c0).CountMatches c
      = some ((NewWordleTree ws c0).Wordles.countP (pathOK c 0)) := by
  obtain ⟨hwb, hmem⟩ := NewWordleTree_node ws c0 hws
  unfold WordleTree.CountMatches
  rw [countMatches_wordsOf WordLength _ c 0 (by simp) hwb]
  congr 1
  apply List.Perm.countP_eq
  rw [List.perm_ext_iff_of_nodup (nodup_wordsOf _ _)]
  · exact hmem
  · rw [NewWordleTree_Wordles]
    exact hnd.filter _

/-! ## C1, C4: the two queries of the trie -/

theorem any_eq_countP_pos {α : Type} (p : α → Bool) (l : List α) :
    l.any p = decide (l.countP p > 0) := by
  induction l with
  | nil => rfl
  | cons a l ih =>
    rw [List.any_cons, List.countP_cons, ih]
    cases hp : p a <;> simp

/-- C1 (evaluation at the failing input): on the tree built from the single word
"peace", the query constraint that requires at least one 'e' and restricts no
position is matched by the stored word according to `Matches`, yet
`CountMatches` returns 0, because the second 'e' on the path wraps the
decremented count from 0 to 255. -/
theorem C1_CountMatches_misses_word :
    (NewWordleTree [bytes "peace"] NewConstraint).Wordles = [bytes "peace"]
    ∧ (⟨NewConstraint.Letters,
        [⟨101, 1⟩, MinCountConstraint.zero, MinCountConstraint.zero,
          MinCountConstraint.zero, MinCountConstraint.zero]⟩ : Constraint).Matches
        (bytes "peace") = true
    ∧ (NewWordleTree [bytes "peace"] NewConstraint).CountMatches
        ⟨NewConstraint.Letters,
          [⟨101, 1⟩, MinCountConstraint.zero, MinCountConstraint.zero,
            MinCountConstraint.zero, MinCountConstraint.zero]⟩ = some 0 := by
  decide

/-- C4: on every tree built by `NewWordleTree` from 5-letter lowercase words,
and for every constraint, `HasMatches` and `CountMatches` both return, and
`HasMatches` is true exactly when `CountMatches` is greater than 0. -/
theorem C4_HasMatches_iff_CountMatches_pos (ws : List Word) (c0 c : Constraint)
    (hws : ∀ w ∈ ws, IsWord w) :
    ∃ b n, (NewWordleTree ws c0).HasMatches c = some b
      ∧ (NewWordleTree ws c0).CountMatches c = some n
      ∧ (b = true ↔ n > 0) := by
  obtain ⟨hwb, _⟩ := NewWordleTree_node ws c0 hws
  refine ⟨_, _, hasMatches_wordsOf WordLength _ c 0 (by simp) hwb,
    countMatches_wordsOf WordLength _ c 0 (by simp) hwb, ?_⟩
  rw [any_eq_countP_pos, decide_eq_true_iff]

theorem C4_HasMatches_iff_CountMatches_pos_witness :
    (∀ w ∈ [bytes "crane", bytes "peace"], IsWord w)
    ∧ ∃ b n, (NewWordleTree [bytes "crane", bytes "peace"] NewConstraint).HasMatches
          NewConstraint = some b
        ∧ (NewWordleTree [bytes "crane", bytes "peace"] NewConstraint).CountMatches
          NewConstraint = some n
        ∧ (b = true ↔ n > 0) :=
  ⟨by decide, C4_HasMatches_iff_CountMatches_pos _ _ _ (by decide)⟩

/-! ## C7: the word list of a built tree -/

/-- C7: for every list `ws` of words of `WordLength` bytes and every constraint
`c`, the `Wordles` of `NewWordleTree ws c` is the sublist of `ws`, in the
original order, of the words that `c` matches, and `WordCount` is its length. -/
theorem C7_NewWordleTree_Wordles_WordCount (ws : List Word) (c : Constraint)
    (_hws : ∀ w ∈ ws, w.length = WordLength) :
    (NewWordleTree ws c).Wordles = ws.filter (fun w => c.Matches w)
      ∧ (NewWordleTree ws c).WordCount = (ws.filter (fun w => c.Matches w)).length := by
  refine ⟨NewWordleTree_Wordles ws c, ?_⟩
  rw [NewWordleTree_WordCount, NewWordleTree_Wordles]

theorem C7_NewWordleTree_Wordles_WordCount_witness :
    (∀ w ∈ [bytes "crane", bytes "slate", bytes "peace"], w.length = WordLength)
    ∧ (NewWordleTree [bytes "crane", bytes "slate", bytes "peace"]
          (NewConstraint.And ⟨[4294967295, 4294967295, 1, 4294967295, 16], NewConstraint.Counts⟩)).Wordles
        = [bytes "crane", bytes "slate", bytes "peace"].filter
            (fun w => (NewConstraint.And
              ⟨[4294967295, 4294967295, 1, 4294967295, 16], NewConstraint.Counts⟩).Matches w)
    ∧ (NewWordleTree [bytes "crane", bytes "slate", bytes "peace"]
          (NewConstraint.And ⟨[4294967295, 4294967295, 1, 4294967295, 16], NewConstraint.Counts⟩)).WordCount
        = ([bytes "crane", bytes "slate", bytes "peace"].filter
            (fun w => (NewConstraint.And
              ⟨[4294967295, 4294967295, 1, 4294967295, 16], NewConstraint.Counts⟩).Matches w)).length :=
  ⟨by decide, C7_NewWordleTree_Wordles_WordCount _ _ (by decide)⟩

/-! ## C6: the enumeration of the patterns -/

set_option maxRecDepth 100000 in
theorem generateAllPatterns_eq : generateAllPatterns = (List.range 243).map patternAt := by
  rfl

theorem patternAt_injOn {i j : Nat} (hi : i < 243) (hj : j < 243)
    (h : patternAt i = patternAt j) : i = j := by
  unfold patternAt at h
  simp only [List.cons.injEq, and_true] at h
  omega

theorem patternAt_hints (i : Nat) : ∀ h ∈ patternAt i, h = 1 ∨ h = 3 ∨ h = 2 := by
  intro h hh
  unfold patternAt at hh
  simp only [List.mem_cons, List.mem_singleton, List.not_mem_nil, or_false] at hh
  omega

theorem patternAt_digits (a b c d e : Nat)
    (ha : a = 1 ∨ a = 3 ∨ a = 2) (hb : b = 1 ∨ b = 3 ∨ b = 2) (hc : c = 1 ∨ c = 3 ∨ c = 2)
    (hd : d = 1 ∨ d = 3 ∨ d = 2) (he : e = 1 ∨ e = 3 ∨ e = 2) :
    patternAt ((a - 1) + 3 * (b - 1) + 9 * (c - 1) + 27 * (d - 1) + 81 * (e - 1))
      = [a, b, c, d, e] := by
  obtain ⟨x, rfl, hx⟩ : ∃ x, a = x + 1 ∧ x < 3 := ⟨a - 1, by omega, by omega⟩
  obtain ⟨y, rfl, hy⟩ : ∃ y, b = y + 1 ∧ y < 3 := ⟨b - 1, by omega, by omega⟩
  obtain ⟨z, rfl, hz⟩ : ∃ z, c = z + 1 ∧ z < 3 := ⟨c - 1, by omega, by omega⟩
  obtain ⟨u, rfl, hu⟩ : ∃ u, d = u + 1 ∧ u < 3 := ⟨d - 1, by omega, by omega⟩
  obtain ⟨v, rfl, hv⟩ : ∃ v, e = v + 1 ∧ v < 3 := ⟨e - 1, by omega, by omega⟩
  simp only [Nat.add_sub_cancel]
  generalize hn : x + 3 * y + 9 * z + 27 * u + 81 * v = n
  unfold patternAt
  simp only [List.cons.injEq, and_true, Nat.add_right_cancel_iff]
  refine ⟨?_, ?_, ?_, ?_, ?_⟩ <;> omega

theorem mem_generateAllPatterns (p : List Nat) (hlen : p.length = 5)
    (hp : ∀ h ∈ p, h = 1 ∨ h = 3 ∨ h = 2) : p ∈ generateAllPatterns := by
  obtain ⟨a, b, c, d, e, rfl⟩ := length_five hlen
  have ha := hp a (by simp)
  have hb := hp b (by simp)
  have hc := hp c (by simp)
  have hd := hp d (by simp)
  have he := hp e (by simp)
  rw [generateAllPatterns_eq, List.mem_map]
  refine ⟨(a - 1) + 3 * (b - 1) + 9 * (c - 1) + 27 * (d - 1) + 81 * (e - 1), ?_,
    patternAt_digits a b c d e ha hb hc hd he⟩
  rw [List.mem_range]; omega

theorem nodup_generateAllPatterns : generateAllPatterns.Nodup := by
  rw [generateAllPatterns_eq]
  apply List.Nodup.map_on _ (List.nodup_range 243)
  intro i hi j hj h
  rw [List.mem_range] at hi hj
  exact patternAt_injOn hi hj h

theorem generateAllPatterns_hints (p : List Nat) (hp : p ∈ generateAllPatterns) :
    p.length = 5 ∧ ∀ h ∈ p, h = 1 ∨ h = 3 ∨ h = 2 := by
  rw [generateAllPatterns_eq, List.mem_map] at hp
  obtain ⟨i, _, rfl⟩ := hp
  exact ⟨rfl, patternAt_hints i⟩

theorem count_eq_one_of_nodup (l : List (List Nat)) (p : List Nat) (hn : l.Nodup)
    (hp : p ∈ l) : l.countP (fun q => decide (q = p)) = 1 :=
  List.count_eq_one_of_mem hn hp

theorem count_generateAllPatterns (p : List Nat) (hp : p ∈ generateAllPatterns) :
    generateAllPatterns.countP (fun q => decide (q = p)) = 1 :=
  count_eq_one_of_nodup _ p nodup_generateAllPatterns hp

/-- C6: `generateAllPatterns` returns exactly 243 patterns, pairwise distinct,
each of length 5 with entries among `LetterWrong`, `LetterCorrect` and
`LetterTransposed`; every such sequence occurs exactly once, and neither
`LetterPossible` nor a value above `LetterCorrect` occurs in any pattern. -/
theorem C6_generateAllPatterns_enumerates :
    generateAllPatterns.length = 243
    ∧ NumPatterns = 243
    ∧ generateAllPatterns.Nodup
    ∧ (∀ p ∈ generateAllPatterns, p.length = 5
        ∧ ∀ h ∈ p, h = LetterWrong ∨ h = LetterCorrect ∨ h = LetterTransposed)
    ∧ (∀ p : Pattern, p.length = 5
        → (∀ h ∈ p, h = LetterWrong ∨ h = LetterCorrect ∨ h = LetterTransposed)
        → generateAllPatterns.countP (fun q => decide (q = p)) = 1)
    ∧ (∀ p ∈ generateAllPatterns, ∀ h ∈ p, h ≠ LetterPossible ∧ h ≤ LetterCorrect) := by
  refine ⟨?_, by norm_num [NumPatterns, Hints, WordLength], nodup_generateAllPatterns, ?_, ?_, ?_⟩
  · rw [generateAllPatterns_eq, List.length_map, List.length_range]
  · intro p hp
    exact generateAllPatterns_hints p hp
  · intro p hlen hp
    exact count_generateAllPatterns p (mem_generateAllPatterns p hlen hp)
  · intro p hp h hh
    have h3 : h = 1 ∨ h = 3 ∨ h = 2 := (generateAllPatterns_hints p hp).2 h hh
    have h4 : h ≠ 0 ∧ h ≤ 3 := by
      rcases h3 with rfl | rfl | rfl <;> decide
    exact h4

/-! ## Matches and And -/

theorem Matches_iff (c : Constraint) (w : Word) :
    c.Matches w = true ↔
      (∀ i, i < WordLength → allows (c.Letters.getD i 0) (w.getD i 0) = true)
        ∧ ∀ e ∈ c.Counts, e.Count ≤ countChar w e.Char := by
  unfold Constraint.Matches allows
  rw [Bool.and_eq_true, List.all_eq_true, List.all_eq_true]
  constructor
  · rintro ⟨h1, h2⟩
    refine ⟨fun i hi => h1 i (List.mem_range.mpr hi), fun e he => ?_⟩
    have := h2 e he
    simpa using this
  · rintro ⟨h1, h2⟩
    refine ⟨fun i hi => h1 i (List.mem_range.mp hi), fun e he => ?_⟩
    have := h2 e he
    simpa using this

theorem getD_of_isWord {w : Word} (hw : IsWord w) {i : Nat} (hi : i < WordLength) :
    IsLower (w.getD i 0) := by
  have hlen : i < w.length := by rw [hw.1]; exact hi
  rw [List.getD_eq_getElem w 0 hlen]
  exact hw.2 _ (List.getElem_mem hlen)

theorem And_Letters_getD (c other : Constraint) {i : Nat} (hi : i < WordLength) :
    (c.And other).Letters.getD i 0 = c.Letters.getD i 0 &&& other.Letters.getD i 0 := by
  unfold WordLength at hi
  unfold Constraint.And
  match i, hi with
  | 0, _ => rfl
  | 1, _ => rfl
  | 2, _ => rfl
  | 3, _ => rfl
  | 4, _ => rfl

/-- The three outcomes of the inner loop of `And` for one entry: no slot takes
it, or the first slot that stops the scan holds the same letter (the counts are
merged by `max`), or that slot is unused (the entry is stored there). -/
theorem mergeCount_cases (x : MinCountConstraint) (is : List Nat)
    (comb : List MinCountConstraint) :
    (mergeCount x is comb = comb
      ∧ ∀ i ∈ is, (comb.getD i MinCountConstraint.zero).Char ≠ x.Char
          ∧ (comb.getD i MinCountConstraint.zero).Char ≠ 0)
    ∨ ∃ pre i post, is = pre ++ i :: post
        ∧ (∀ j ∈ pre, (comb.getD j MinCountConstraint.zero).Char ≠ x.Char
            ∧ (comb.getD j MinCountConstraint.zero).Char ≠ 0)
        ∧ (((comb.getD i MinCountConstraint.zero).Char = x.Char
              ∧ mergeCount x is comb = comb.set i
                  ⟨(comb.getD i MinCountConstraint.zero).Char,
                    max (comb.getD i MinCountConstraint.zero).Count x.Count⟩)
            ∨ ((comb.getD i MinCountConstraint.zero).Char ≠ x.Char
              ∧ (comb.getD i MinCountConstraint.zero).Char = 0
              ∧ mergeCount x is comb = comb.set i x)) := by
  induction is with
  | nil => exact Or.inl ⟨rfl, fun i hi => absurd hi (List.not_mem_nil i)⟩
  | cons i is ih =>
    by_cases h1 : x.Char = (comb.getD i MinCountConstraint.zero).Char
    · refine Or.inr ⟨[], i, is, rfl, fun j hj => absurd hj (List.not_mem_nil j),
        Or.inl ⟨h1.symm, ?_⟩⟩
      rw [mergeCount, if_pos h1]
    · by_cases h2 : (comb.getD i MinCountConstraint.zero).Char = 0
      · refine Or.inr ⟨[], i, is, rfl, fun j hj => absurd hj (List.not_mem_nil j),
          Or.inr ⟨fun e => h1 e.symm, h2, ?_⟩⟩
        rw [mergeCount, if_neg h1, if_pos h2]
      · have hstep : mergeCount x (i :: is) comb = mergeCount x is comb := by
          rw [mergeCount, if_neg h1, if_neg h2]
        rcases ih with ⟨he, hall⟩ | ⟨pre, k, post, hsplit, hpre, hk⟩
        · refine Or.inl ⟨by rw [hstep, he], fun j hj => ?_⟩
          rcases List.mem_cons.mp hj with rfl | hj
          · exact ⟨fun e => h1 e.symm, h2⟩
          · exact hall j hj
        · refine Or.inr ⟨i :: pre, k, post, by rw [hsplit]; rfl, fun j hj => ?_, ?_⟩
          · rcases List.mem_cons.mp hj with rfl | hj
            · exact ⟨fun e => h1 e.symm, h2⟩
            · exact hpre j hj
          · rw [hstep]; exact hk

theorem getD_set {α : Type} (l : List α) (i j : Nat) (v d : α) :
    (l.set i v).getD j d = if j = i ∧ i < l.length then v else l.getD j d := by
  rw [List.getD_eq_getElem?_getD, List.getD_eq_getElem?_getD, List.getElem?_set]
  by_cases hij : i = j
  · subst hij
    by_cases hlt : i < l.length
    · simp [hlt]
    · have hle : l.length ≤ i := by omega
      simp [hlt, List.getElem?_eq_none hle]
  · have hji : ¬ j = i := fun e => hij e.symm
    simp [hij, hji]

theorem range_split {n : Nat} {pre post : List Nat} {i : Nat}
    (h : List.range n = pre ++ i :: post) : i < n ∧ ∀ j, j < i → j ∈ pre := by
  have hlen : pre.length < n := by
    have := congrArg List.length h
    simp at this
    omega
  have hi : i = pre.length := by
    have h1 : (List.range n)[pre.length]? = some pre.length := by
      rw [List.getElem?_eq_getElem (by simpa using hlen), List.getElem_range]
    have h3 : (pre ++ i :: post)[pre.length]? = some i := by
      rw [List.getElem?_append_right (le_refl _)]
      simp
    rw [h, h3] at h1
    exact Option.some.inj h1
  have hpre : pre = List.range pre.length := by
    have h2 := congrArg (List.take pre.length) h
    rw [List.take_range, List.take_left' rfl, Nat.min_eq_left (le_of_lt hlen)] at h2
    exact h2.symm
  refine ⟨by omega, fun j hj => ?_⟩
  rw [hpre, List.mem_range]
  omega

/-- The inner loop of `And` over the slots `0..4`, by slot index. -/
theorem mergeCount_range (x : MinCountConstraint) (comb : List MinCountConstraint) :
    (mergeCount x (List.range WordLength) comb = comb
      ∧ ∀ i, i < WordLength → (comb.getD i MinCountConstraint.zero).Char ≠ x.Char
          ∧ (comb.getD i MinCountConstraint.zero).Char ≠ 0)
    ∨ ∃ i, i < WordLength
        ∧ (∀ j, j < i → (comb.getD j MinCountConstraint.zero).Char ≠ x.Char
            ∧ (comb.getD j MinCountConstraint.zero).Char ≠ 0)
        ∧ (((comb.getD i MinCountConstraint.zero).Char = x.Char
              ∧ mergeCount x (List.range WordLength) comb = comb.set i
                  ⟨(comb.getD i MinCountConstraint.zero).Char,
                    max (comb.getD i MinCountConstraint.zero).Count x.Count⟩)
            ∨ ((comb.getD i MinCountConstraint.zero).Char ≠ x.Char
              ∧ (comb.getD i MinCountConstraint.zero).Char = 0
              ∧ mergeCount x (List.range WordLength) comb = comb.set i x)) := by
  rcases mergeCount_cases x (List.range WordLength) comb with
    ⟨he, hall⟩ | ⟨pre, i, post, hsplit, hpre, hk⟩
  · exact Or.inl ⟨he, fun i hi => hall i (List.mem_range.mpr hi)⟩
  · obtain ⟨hi, hlt⟩ := range_split hsplit
    exact Or.inr ⟨i, hi, fun j hj => hpre j (hlt j hj), hk⟩

theorem mergeCount_step (N : Nat → Nat) (U : List Nat) (hUl : U.length ≤ WordLength)
    (comb : List MinCountConstraint) (hp : PackedCounts comb)
    (hsub : ∀ i, i < WordLength → (comb.getD i MinCountConstraint.zero).Char ≠ 0 →
      (comb.getD i MinCountConstraint.zero).Char ∈ U)
    (x : MinCountConstraint) (hx0 : x.Char = 0 → x.Count = 0) (hxU : x.Char ≠ 0 → x.Char ∈ U) :
    PackedCounts (mergeCount x (List.range WordLength) comb)
    ∧ (∀ i, i < WordLength →
        ((mergeCount x (List.range WordLength) comb).getD i MinCountConstraint.zero).Char ≠ 0 →
        ((mergeCount x (List.range WordLength) comb).getD i MinCountConstraint.zero).Char ∈ U)
    ∧ ((∀ i, i < WordLength →
          ((mergeCount x (List.range WordLength) comb).getD i MinCountConstraint.zero).Count
            ≤ N ((mergeCount x (List.range WordLength) comb).getD i MinCountConstraint.zero).Char)
        ↔ (∀ i, i < WordLength → (comb.getD i MinCountConstraint.zero).Count
              ≤ N (comb.getD i MinCountConstraint.zero).Char)
          ∧ x.Count ≤ N x.Char) := by
  obtain ⟨hlen, hpack, hdist, hzero⟩ := hp
  rcases mergeCount_range x comb with ⟨he, hall⟩ | ⟨i, hi, hpre, hA | hB⟩
  · -- no slot takes the entry
    rw [he]
    refine ⟨⟨hlen, hpack, hdist, hzero⟩, hsub, ?_⟩
    constructor
    · intro hs
      refine ⟨hs, ?_⟩
      by_cases hx : x.Char = 0
      · rw [hx0 hx]; exact Nat.zero_le _
      · exfalso
        have hnd : (x.Char :: (List.range WordLength).map
            (fun i => (comb.getD i MinCountConstraint.zero).Char)).Nodup := by
          rw [List.nodup_cons]
          constructor
          · intro hm
            rw [List.mem_map] at hm
            obtain ⟨k, hk, hke⟩ := hm
            exact (hall k (List.mem_range.mp hk)).1 hke
          · apply List.Nodup.map_on _ (List.nodup_range _)
            intro a ha b hb hab
            rw [List.mem_range] at ha hb
            by_contra hne
            rcases Nat.lt_or_gt_of_ne hne with hlt | hgt
            · exact hdist a ha b hb hlt (hall a ha).2 hab
            · exact hdist b hb a ha hgt (hall b hb).2 hab.symm
        have hss : (x.Char :: (List.range WordLength).map
            (fun i => (comb.getD i MinCountConstraint.zero).Char)) ⊆ U := by
          intro ch hch
          rcases List.mem_cons.mp hch with rfl | hch
          · exact hxU hx
          · rw [List.mem_map] at hch
            obtain ⟨k, hk, rfl⟩ := hch
            rw [List.mem_range] at hk
            exact hsub k hk (hall k hk).2
        have hle := (List.subperm_of_subset hnd hss).length_le
        simp [WordLength] at hle hUl
        omega
    · rintro ⟨hs, _⟩
      exact hs
  · -- a slot with the same letter: the counts are merged
    obtain ⟨hsame, hres⟩ := hA
    rw [hres]
    have hil : i < comb.length := by rw [hlen]; exact hi
    have hchar : ∀ j, ((comb.set i ⟨(comb.getD i MinCountConstraint.zero).Char,
        max (comb.getD i MinCountConstraint.zero).Count x.Count⟩).getD j
          MinCountConstraint.zero).Char = (comb.getD j MinCountConstraint.zero).Char := by
      intro j
      rw [getD_set]
      by_cases hj : j = i
      · subst hj; simp [hil]
      · simp [hj]
    refine ⟨⟨by rw [List.length_set]; exact hlen, ?_, ?_, ?_⟩, ?_, ?_⟩
    · intro a ha b hb hab
      rw [hchar, hchar]
      exact hpack a ha b hb hab
    · intro a ha b hb hab
      rw [hchar, hchar]
      exact hdist a ha b hb hab
    · intro a ha
      rw [hchar]
      intro h0
      rw [getD_set]
      by_cases hj : a = i
      · subst hj
        have hc0 := hzero a ha h0
        have hx00 := hx0 (by rw [← hsame]; exact h0)
        simp only [hil, and_self, if_true]
        show max _ _ = 0
        rw [hc0, hx00]
        rfl
      · simp only [hj, false_and, if_false]
        exact hzero a ha h0
    · intro a ha
      rw [hchar]
      exact hsub a ha
    · constructor
      · intro hs
        refine ⟨fun a ha => ?_, ?_⟩
        · have := hs a ha
          rw [hchar, getD_set] at this
          by_cases hj : a = i
          · subst hj
            simp only [hil, and_self, if_true] at this
            exact le_trans (le_max_left _ _) this
          · simp only [hj, false_and, if_false] at this
            exact this
        · have := hs i hi
          rw [hchar, getD_set] at this
          simp only [hil, and_self, if_true] at this
          rw [← hsame]
          exact le_trans (le_max_right _ _) this
      · rintro ⟨hs, hxs⟩ a ha
        rw [hchar, getD_set]
        by_cases hj : a = i
        · subst hj
          simp only [hil, and_self, if_true]
          rw [← hsame] at hxs
          exact max_le (hs a ha) hxs
        · simp only [hj, false_and, if_false]
          exact hs a ha
  · -- an unused slot: the entry is stored
    obtain ⟨hne, hz, hres⟩ := hB
    rw [hres]
    have hil : i < comb.length := by rw [hlen]; exact hi
    have hxne : x.Char ≠ 0 := fun e => hne (by rw [hz, e])
    have hafter : ∀ j, j < WordLength → i < j →
        (comb.getD j MinCountConstraint.zero).Char = 0 := fun j hj hij => hpack i hi j hj hij hz
    have hget : ∀ j, (comb.set i x).getD j MinCountConstraint.zero
        = if j = i then x else comb.getD j MinCountConstraint.zero := by
      intro j
      rw [getD_set]
      by_cases hj : j = i
      · simp [hj, hil]
      · simp [hj]
    refine ⟨⟨by rw [List.length_set]; exact hlen, ?_, ?_, ?_⟩, ?_, ?_⟩
    · intro a ha b hb hab
      rw [hget, hget]
      by_cases hai : a = i
      · subst hai
        simp only [if_true]
        intro h; exact absurd h hxne
      · simp only [hai, if_false]
        intro h0
        have hgt : i < a := by
          by_contra hcon
          have : a < i := by omega
          exact (hpre a this).2 h0
        have hbi : ¬ b = i := by omega
        simp only [hbi, if_false]
        exact hafter b hb (by omega)
    · intro a ha b hb hab
      rw [hget, hget]
      by_cases hai : a = i
      · subst hai
        have hbi : ¬ b = a := by omega
        simp only [if_true, hbi, if_false]
        intro _
        rw [hafter b hb hab]
        exact hxne
      · simp only [hai, if_false]
        by_cases hbi : b = i
        · subst hbi
          simp only [if_true]
          intro _
          exact (hpre a hab).1
        · simp only [hbi, if_false]
          exact hdist a ha b hb hab
    · intro a ha
      rw [hget]
      by_cases hai : a = i
      · subst hai
        simp only [if_true]
        intro h; exact absurd h hxne
      · simp only [hai, if_false]
        exact hzero a ha
    · intro a ha
      rw [hget]
      by_cases hai : a = i
      · subst hai
        simp only [if_true]
        intro _; exact hxU hxne
      · simp only [hai, if_false]
        exact hsub a ha
    · constructor
      · intro hs
        refine ⟨fun a ha => ?_, ?_⟩
        · by_cases hai : a = i
          · subst hai
            rw [hzero a ha hz]
            exact Nat.zero_le _
          · have := hs a ha
            rw [hget] at this
            simp only [hai, if_false] at this
            exact this
        · have := hs i hi
          rw [hget] at this
          simp only [if_true] at this
          exact this
      · rintro ⟨hs, hxs⟩ a ha
        rw [hget]
        by_cases hai : a = i
        · subst hai
          simp only [if_true]
          exact hxs
        · simp only [hai, if_false]
          exact hs a ha

theorem forall_mem_iff_getD (cs : List MinCountConstraint) (hlen : cs.length = WordLength)
    (P : MinCountConstraint → Prop) :
    (∀ e ∈ cs, P e) ↔ ∀ i, i < WordLength → P (cs.getD i MinCountConstraint.zero) := by
  constructor
  · intro h i hi
    have hil : i < cs.length := by rw [hlen]; exact hi
    rw [List.getD_eq_getElem cs _ hil]
    exact h _ (List.getElem_mem hil)
  · intro h e he
    obtain ⟨i, hil, rfl⟩ := List.mem_iff_getElem.mp he
    have := h i (by rw [← hlen]; exact hil)
    rwa [List.getD_eq_getElem cs _ hil] at this

/-- The outer loop of `And` over the entries `xs` of the other operand, when
the letters of both operands fit in the five slots: the merged entries are well
formed, and they are all satisfied by the occurrence counts `N` exactly when
the entries of both operands are. -/
theorem mergeCount_foldl (N : Nat → Nat) (U : List Nat) (hUl : U.length ≤ WordLength)
    (xs : List MinCountConstraint) (hxs0 : ∀ x ∈ xs, x.Char = 0 → x.Count = 0)
    (hxsU : ∀ x ∈ xs, x.Char ≠ 0 → x.Char ∈ U) :
    ∀ comb : List MinCountConstraint, PackedCounts comb →
      (∀ i, i < WordLength → (comb.getD i MinCountConstraint.zero).Char ≠ 0 →
        (comb.getD i MinCountConstraint.zero).Char ∈ U) →
      PackedCounts (xs.foldl (fun cc x => mergeCount x (List.range WordLength) cc) comb)
      ∧ ((∀ e ∈ xs.foldl (fun cc x => mergeCount x (List.range WordLength) cc) comb,
            e.Count ≤ N e.Char)
          ↔ (∀ e ∈ comb, e.Count ≤ N e.Char) ∧ ∀ x ∈ xs, x.Count ≤ N x.Char) := by
  induction xs with
  | nil =>
    intro comb hp _
    exact ⟨hp, by simp⟩
  | cons x xs ih =>
    intro comb hp hsub
    obtain ⟨hp1, hsub1, hsat1⟩ := mergeCount_step N U hUl comb hp hsub x
      (hxs0 x (List.mem_cons_self x xs)) (hxsU x (List.mem_cons_self x xs))
    obtain ⟨hp2, hsat2⟩ := ih (fun y hy => hxs0 y (List.mem_cons_of_mem x hy))
      (fun y hy => hxsU y (List.mem_cons_of_mem x hy)) _ hp1 hsub1
    rw [List.foldl_cons]
    refine ⟨hp2, ?_⟩
    rw [hsat2, forall_mem_iff_getD _ hp1.1 (fun e => e.Count ≤ N e.Char), hsat1,
      ← forall_mem_iff_getD _ hp.1 (fun e => e.Count ≤ N e.Char), List.forall_mem_cons]
    tauto

theorem mem_usedLetters_of_getD (cs : List MinCountConstraint) (hlen : cs.length = WordLength)
    {i : Nat} (hi : i < WordLength) (h : (cs.getD i MinCountConstraint.zero).Char ≠ 0) :
    (cs.getD i MinCountConstraint.zero).Char ∈ usedLetters cs := by
  have hil : i < cs.length := by rw [hlen]; exact hi
  unfold usedLetters
  rw [List.mem_filter, List.mem_map]
  refine ⟨⟨cs.getD i MinCountConstraint.zero, ?_, rfl⟩, by simpa using h⟩
  rw [List.getD_eq_getElem cs _ hil]
  exact List.getElem_mem hil

/-- The count entries of `And` on well-formed operands that name at most five
letters together. -/
theorem And_Counts_spec (c1 c2 : Constraint) (N : Nat → Nat)
    (h1 : PackedCounts c1.Counts) (h2 : PackedCounts c2.Counts)
    (hcap : ((usedLetters c1.Counts ++ usedLetters c2.Counts).dedup).length ≤ WordLength) :
    PackedCounts (c1.And c2).Counts
    ∧ ((∀ e ∈ (c1.And c2).Counts, e.Count ≤ N e.Char)
        ↔ (∀ e ∈ c1.Counts, e.Count ≤ N e.Char) ∧ ∀ e ∈ c2.Counts, e.Count ≤ N e.Char) := by
  unfold Constraint.And
  apply mergeCount_foldl N _ hcap c2.Counts
  · exact (forall_mem_iff_getD _ h2.1 (fun e => e.Char = 0 → e.Count = 0)).mpr h2.2.2.2
  · intro x hx hx0
    rw [List.mem_dedup, List.mem_append]
    right
    unfold usedLetters
    rw [List.mem_filter, List.mem_map]
    exact ⟨⟨x, hx, rfl⟩, by simpa using hx0⟩
  · exact h1
  · intro i hi hne
    rw [List.mem_dedup, List.mem_append]
    exact Or.inl (mem_usedLetters_of_getD _ h1.1 hi hne)

/-- C2 (counterexample): with `c1` requiring one each of a, b, c, d, e and `c2`
requiring one f, the word "abcde" matches `c1.And(c2)` (the sixth letter finds no
slot and is dropped) although it does not match `c2`. -/
theorem C2_And_Matches_counterexample :
    ¬ (((⟨NewConstraint.Letters, [⟨97, 1⟩, ⟨98, 1⟩, ⟨99, 1⟩, ⟨100, 1⟩, ⟨101, 1⟩]⟩ :
            Constraint).And
          ⟨NewConstraint.Letters,
            [⟨102, 1⟩, MinCountConstraint.zero, MinCountConstraint.zero,
              MinCountConstraint.zero, MinCountConstraint.zero]⟩).Matches (bytes "abcde") = true
      ↔ ((⟨NewConstraint.Letters, [⟨97, 1⟩, ⟨98, 1⟩, ⟨99, 1⟩, ⟨100, 1⟩, ⟨101, 1⟩]⟩ :
            Constraint).Matches (bytes "abcde") = true
        ∧ (⟨NewConstraint.Letters,
            [⟨102, 1⟩, MinCountConstraint.zero, MinCountConstraint.zero,
              MinCountConstraint.zero, MinCountConstraint.zero]⟩ :
            Constraint).Matches (bytes "abcde") = true)) := by
  decide

/-- C2 (amended): for constraints `c1` and `c2` with well-formed count entries
(packed from slot 0, one entry per letter, unused entries zero) that together
name at most five distinct letters, and every 5-letter lowercase word `w`,
`c1.And(c2).Matches(w)` is true exactly when `c1.Matches(w)` and
`c2.Matches(w)` are both true. -/
theorem C2_And_Matches_iff (c1 c2 : Constraint) (w : Word) (hw : IsWord w)
    (h1 : PackedCounts c1.Counts) (h2 : PackedCounts c2.Counts)
    (hcap : ((usedLetters c1.Counts ++ usedLetters c2.Counts).dedup).length ≤ WordLength) :
    (c1.And c2).Matches w = true ↔ (c1.Matches w = true ∧ c2.Matches w = true) := by
  rw [Matches_iff, Matches_iff, Matches_iff,
    (And_Counts_spec c1 c2 (countChar w) h1 h2 hcap).2]
  have hl : (∀ i, i < WordLength → allows ((c1.And c2).Letters.getD i 0) (w.getD i 0) = true)
      ↔ (∀ i, i < WordLength → allows (c1.Letters.getD i 0) (w.getD i 0) = true)
        ∧ (∀ i, i < WordLength → allows (c2.Letters.getD i 0) (w.getD i 0) = true) := by
    constructor
    · intro h
      constructor
      · intro i hi
        have := h i hi
        rw [And_Letters_getD c1 c2 hi, allows_and (getD_of_isWord hw hi),
          Bool.and_eq_true] at this
        exact this.1
      · intro i hi
        have := h i hi
        rw [And_Letters_getD c1 c2 hi, allows_and (getD_of_isWord hw hi),
          Bool.and_eq_true] at this
        exact this.2
    · rintro ⟨ha, hb⟩ i hi
      rw [And_Letters_getD c1 c2 hi, allows_and (getD_of_isWord hw hi), Bool.and_eq_true]
      exact ⟨ha i hi, hb i hi⟩
  rw [hl]
  tauto

theorem C2_And_Matches_iff_witness :
    IsWord (bytes "crane")
    ∧ PackedCounts [⟨97, 1⟩, ⟨101, 1⟩, MinCountConstraint.zero, MinCountConstraint.zero,
        MinCountConstraint.zero]
    ∧ PackedCounts [⟨114, 1⟩, ⟨97, 1⟩, ⟨110, 1⟩, MinCountConstraint.zero,
        MinCountConstraint.zero]
    ∧ (((⟨[4294178815, 4294178815, 1, 4294178815, 16],
          [⟨97, 1⟩, ⟨101, 1⟩, MinCountConstraint.zero, MinCountConstraint.zero,
            MinCountConstraint.zero]⟩ : Constraint).And
        ⟨NewConstraint.Letters,
          [⟨114, 1⟩, ⟨97, 1⟩, ⟨110, 1⟩, MinCountConstraint.zero,
            MinCountConstraint.zero]⟩).Matches (bytes "crane") = true
      ↔ ((⟨[4294178815, 4294178815, 1, 4294178815, 16],
            [⟨97, 1⟩, ⟨101, 1⟩, MinCountConstraint.zero, MinCountConstraint.zero,
              MinCountConstraint.zero]⟩ : Constraint).Matches (bytes "crane") = true
        ∧ (⟨NewConstraint.Letters,
            [⟨114, 1⟩, ⟨97, 1⟩, ⟨110, 1⟩, MinCountConstraint.zero,
              MinCountConstraint.zero]⟩ : Constraint).Matches (bytes "crane") = true)) :=
  ⟨by decide, by decide, by decide,
    C2_And_Matches_iff _ _ _ (by decide) (by decide) (by decide) (by decide)⟩

/-! ## constraintFromPattern: the letter sets -/

theorem hasTransposedDuplicate_iff (word : Word) (pattern : Pattern) (i : Nat) :
    hasTransposedDuplicate word pattern i = true
      ↔ ∃ j, j < i ∧ word.getD j 0 = word.getD i 0 ∧ pattern.getD j 0 = LetterTransposed := by
  unfold hasTransposedDuplicate
  generalize word.getD i 0 = ch
  induction i with
  | zero => simp
  | succ k ih =>
    rw [List.range_succ, List.foldl_append, List.foldl_cons, List.foldl_nil, Bool.or_eq_true, ih,
      Bool.and_eq_true, decide_eq_true_iff, decide_eq_true_iff]
    constructor
    · rintro (⟨j, hj, h⟩ | h)
      · exact ⟨j, by omega, h⟩
      · exact ⟨k, by omega, h⟩
    · rintro ⟨j, hj, h⟩
      by_cases hjk : j = k
      · subst hjk; exact Or.inr h
      · exact Or.inl ⟨j, by omega, h⟩

/-- A loop that rewrites the slots selected by `cond`, each slot at most once. -/
theorem foldl_set_getD (cond : Nat → Prop) [DecidablePred cond] (f : Nat → Nat) (is : List Nat)
    (hnd : is.Nodup) :
    ∀ (ls : List Nat) (j : Nat), (∀ i ∈ is, i < ls.length) →
      ((is.foldl (fun ls j => if cond j then ls.set j (f (ls.getD j 0)) else ls) ls).getD j 0
        = if j ∈ is ∧ cond j then f (ls.getD j 0) else ls.getD j 0)
      ∧ (is.foldl (fun ls j => if cond j then ls.set j (f (ls.getD j 0)) else ls) ls).length
        = ls.length := by
  induction is with
  | nil => intro ls j _; simp
  | cons i is ih =>
    intro ls j hlt
    rw [List.nodup_cons] at hnd
    rw [List.foldl_cons]
    have hi : i < ls.length := hlt i (List.mem_cons_self i is)
    by_cases hc : cond i
    · simp only [hc, if_true]
      have hlt2 : ∀ k ∈ is, k < (ls.set i (f (ls.getD i 0))).length := by
        intro k hk
        rw [List.length_set]
        exact hlt k (List.mem_cons_of_mem i hk)
      obtain ⟨h1, h2⟩ := ih hnd.2 (ls.set i (f (ls.getD i 0))) j hlt2
      refine ⟨?_, by rw [h2, List.length_set]⟩
      rw [h1, getD_set]
      by_cases hji : j = i
      · subst hji
        simp [hnd.1, hc, hi]
      · simp [hji]
    · simp only [hc, if_false]
      obtain ⟨h1, h2⟩ := ih hnd.2 ls j (fun k hk => hlt k (List.mem_cons_of_mem i hk))
      refine ⟨?_, h2⟩
      rw [h1]
      by_cases hji : j = i
      · subst hji
        simp [hnd.1, hc]
      · simp [hji]

theorem excludeElsewhere_getD (word : Word) (pattern : Pattern) (char : Nat)
    (letters : List LetterConstraint) (hlen : letters.length = WordLength) (j : Nat) :
    (excludeElsewhere word pattern char letters).getD j 0
        = (if j < WordLength ∧ (word.getD j 0 ≠ char ∨ pattern.getD j 0 ≠ LetterCorrect)
            then (letters.getD j 0).Exclude char else letters.getD j 0)
      ∧ (excludeElsewhere word pattern char letters).length = WordLength := by
  have h := foldl_set_getD
    (fun j => word.getD j 0 ≠ char ∨ pattern.getD j 0 ≠ LetterCorrect)
    (fun lc => LetterConstraint.Exclude lc char) (List.range WordLength)
    (List.nodup_range _) letters j
    (fun i hi => by rw [hlen]; exact List.mem_range.mp hi)
  unfold excludeElsewhere
  refine ⟨?_, by rw [h.2, hlen]⟩
  rw [h.1]
  simp only [List.mem_range]

theorem stateAfter_succ (word : Word) (pattern : Pattern) (k : Nat) :
    stateAfter word pattern (k + 1) = patternStep word pattern (stateAfter word pattern k) k := by
  unfold stateAfter
  rw [List.range_succ, List.foldl_append, List.foldl_cons, List.foldl_nil]

theorem stateAfter_length (word : Word) (pattern : Pattern) (k : Nat) :
    (stateAfter word pattern k).1.length = WordLength := by
  induction k with
  | zero => rfl
  | succ k ih =>
    rw [stateAfter_succ]
    unfold patternStep
    simp only
    split_ifs
    · rw [List.length_set]; exact ih
    · rw [List.length_set]; exact ih
    · exact (excludeElsewhere_getD word pattern _ _ (by rw [List.length_set]; exact ih) 0).2
    · rw [List.length_set]; exact ih
    · exact ih

theorem constraintFromPattern_Letters (ord : RangeOrder) (word : Word) (pattern : Pattern) :
    (constraintFromPattern ord word pattern).Letters = (stateAfter word pattern WordLength).1 :=
  rfl

/-- The letter sets after `k` iterations of the first loop. -/
theorem allows_stateAfter (word : Word) (pattern : Pattern) (hw : IsWord word) (k : Nat)
    (hk : k ≤ WordLength) :
    ∀ j x, j < WordLength → IsLower x →
      (allows ((stateAfter word pattern k).1.getD j 0) x = true
        ↔ allowedAfter word pattern k j x) := by
  induction k with
  | zero =>
    intro j x hj hx
    have hfull : (stateAfter word pattern 0).1.getD j 0 = 4294967295 := by
      unfold WordLength at hj
      match j, hj with
      | 0, _ => rfl
      | 1, _ => rfl
      | 2, _ => rfl
      | 3, _ => rfl
      | 4, _ => rfl
    rw [hfull, allows_full hx]
    simp [allowedAfter]
  | succ k ih =>
    intro j x hj hx
    have hk5 : k < WordLength := by omega
    have ih' := ih (by omega)
    have hch : IsLower (word.getD k 0) := getD_of_isWord hw hk5
    have hlen := stateAfter_length word pattern k
    have hkl : k < (stateAfter word pattern k).1.length := by rw [hlen]; exact hk5
    rw [stateAfter_succ]
    unfold patternStep
    simp only
    by_cases hC : pattern.getD k 0 = LetterCorrect
    · -- Correct at k
      rw [if_pos hC]
      simp only
      rw [getD_set]
      have hnW : pattern.getD k 0 ≠ LetterWrong := by rw [hC]; decide
      by_cases hjk : j = k
      · subst hjk
        simp only [hkl, and_self, if_true]
        rw [allows_new hch hx, decide_eq_true_iff]
        unfold allowedAfter
        rw [if_pos ⟨by omega, hC⟩]
      · simp only [hjk, false_and, if_false]
        rw [ih' j x hj hx]
        unfold allowedAfter
        have e1 : (j < k + 1 ∧ pattern.getD j 0 = LetterCorrect)
            ↔ (j < k ∧ pattern.getD j 0 = LetterCorrect) := by
          constructor <;> rintro ⟨a, b⟩ <;> exact ⟨by omega, b⟩
        by_cases hc : j < k ∧ pattern.getD j 0 = LetterCorrect
        · rw [if_pos hc, if_pos (e1.mpr hc)]
        · rw [if_neg hc, if_neg (fun h => hc (e1.mp h))]
          constructor
          · rintro ⟨h1, h2⟩
            refine ⟨fun ⟨a, b⟩ => h1 ⟨by omega, b⟩, fun i hi hW hT hx => ?_⟩
            by_cases hik : i = k
            · subst hik; exact absurd hW hnW
            · exact h2 i (by omega) hW hT hx
          · rintro ⟨h1, h2⟩
            exact ⟨fun ⟨a, b⟩ => h1 ⟨by omega, b⟩, fun i hi hW hT hx => h2 i (by omega) hW hT hx⟩
    · rw [if_neg hC]
      by_cases hT : pattern.getD k 0 = LetterTransposed
      · -- Transposed at k
        rw [if_pos hT]
        simp only
        rw [getD_set]
        have hnW : pattern.getD k 0 ≠ LetterWrong := by rw [hT]; decide
        by_cases hjk : j = k
        · subst hjk
          simp only [hkl, and_self, if_true]
          rw [allows_exclude hch hx, Bool.and_eq_true, ih' j x hj hx]
          unfold allowedAfter
          rw [if_neg (fun h => hC h.2), if_neg (fun h => hC h.2)]
          simp only [Bool.not_eq_true', decide_eq_false_iff_not]
          constructor
          · rintro ⟨⟨_, h2⟩, hne⟩
            refine ⟨fun ⟨_, _, b⟩ => hne b, fun i hi hW hTD hx => ?_⟩
            by_cases hik : i = j
            · subst hik; exact absurd hW hnW
            · exact h2 i (by omega) hW hTD hx
          · rintro ⟨h1, h2⟩
            exact ⟨⟨fun ⟨a, _⟩ => by omega, fun i hi hW hTD hx => h2 i (by omega) hW hTD hx⟩,
              fun e => h1 ⟨by omega, Or.inr hT, e⟩⟩
        · simp only [hjk, false_and, if_false]
          rw [ih' j x hj hx]
          unfold allowedAfter
          have e1 : (j < k + 1 ∧ pattern.getD j 0 = LetterCorrect)
              ↔ (j < k ∧ pattern.getD j 0 = LetterCorrect) := by
            constructor <;> rintro ⟨a, b⟩ <;> exact ⟨by omega, b⟩
          by_cases hc : j < k ∧ pattern.getD j 0 = LetterCorrect
          · rw [if_pos hc, if_pos (e1.mpr hc)]
          · rw [if_neg hc, if_neg (fun h => hc (e1.mp h))]
            constructor
            · rintro ⟨h1, h2⟩
              refine ⟨fun ⟨a, b⟩ => h1 ⟨by omega, b⟩, fun i hi hW hTD hx => ?_⟩
              by_cases hik : i = k
              · subst hik; exact absurd hW hnW
              · exact h2 i (by omega) hW hTD hx
            · rintro ⟨h1, h2⟩
              exact ⟨fun ⟨a, b⟩ => h1 ⟨by omega, b⟩,
                fun i hi hW hTD hx => h2 i (by omega) hW hTD hx⟩
      · rw [if_neg hT]
        by_cases hW : pattern.getD k 0 = LetterWrong
        · -- Wrong at k
          rw [if_pos hW]
          have hlen1 : ((stateAfter word pattern k).1.set k
              (((stateAfter word pattern k).1.getD k 0).Exclude (word.getD k 0))).length
                = WordLength := by rw [List.length_set]; exact hlen
          have e1 : (j < k + 1 ∧ pattern.getD j 0 = LetterCorrect)
              ↔ (j < k ∧ pattern.getD j 0 = LetterCorrect) := by
            constructor
            · rintro ⟨a, b⟩
              refine ⟨?_, b⟩
              by_contra hcon
              have : j = k := by omega
              subst this
              exact hC b
            · rintro ⟨a, b⟩; exact ⟨by omega, b⟩
          by_cases hTD : hasTransposedDuplicate word pattern k = true
          · -- an earlier Transposed duplicate: only position k loses the letter
            simp only [hTD, Bool.not_true, Bool.false_eq_true, if_false]
            rw [getD_set]
            by_cases hjk : j = k
            · subst hjk
              simp only [hkl, and_self, if_true]
              rw [allows_exclude hch hx, Bool.and_eq_true, ih' j x hj hx]
              unfold allowedAfter
              rw [if_neg (fun h => hC h.2), if_neg (fun h => hC h.2)]
              simp only [Bool.not_eq_true', decide_eq_false_iff_not]
              constructor
              · rintro ⟨⟨_, h2⟩, hne⟩
                refine ⟨fun ⟨_, _, b⟩ => hne b, fun i hi hW' hTD' hx' => ?_⟩
                by_cases hik : i = j
                · subst hik; rw [hTD] at hTD'; exact absurd hTD' (by decide)
                · exact h2 i (by omega) hW' hTD' hx'
              · rintro ⟨h1, h2⟩
                exact ⟨⟨fun ⟨a, _⟩ => by omega,
                  fun i hi hW' hTD' hx' => h2 i (by omega) hW' hTD' hx'⟩,
                  fun e => h1 ⟨by omega, Or.inl hW, e⟩⟩
            · simp only [hjk, false_and, if_false]
              rw [ih' j x hj hx]
              unfold allowedAfter
              by_cases hc : j < k ∧ pattern.getD j 0 = LetterCorrect
              · rw [if_pos hc, if_pos (e1.mpr hc)]
              · rw [if_neg hc, if_neg (fun h => hc (e1.mp h))]
                constructor
                · rintro ⟨h1, h2⟩
                  refine ⟨fun ⟨a, b⟩ => h1 ⟨by omega, b⟩, fun i hi hW' hTD' hx' => ?_⟩
                  by_cases hik : i = k
                  · subst hik; rw [hTD] at hTD'; exact absurd hTD' (by decide)
                  · exact h2 i (by omega) hW' hTD' hx'
                · rintro ⟨h1, h2⟩
                  exact ⟨fun ⟨a, b⟩ => h1 ⟨by omega, b⟩,
                    fun i hi hW' hTD' hx' => h2 i (by omega) hW' hTD' hx'⟩
          · -- no earlier Transposed duplicate: the letter is excluded elsewhere too
            have hTDf : hasTransposedDuplicate word pattern k = false := by
              simpa using hTD
            simp only [hTDf, Bool.not_false, if_true]
            rw [(excludeElsewhere_getD word pattern _ _ hlen1 j).1, getD_set]
            by_cases hjk : j = k
            · subst hjk
              have hcond : j < WordLength
                  ∧ (word.getD j 0 ≠ word.getD j 0 ∨ pattern.getD j 0 ≠ LetterCorrect) :=
                ⟨hj, Or.inr hC⟩
              rw [if_pos hcond]
              simp only [hkl, and_self, if_true]
              rw [allows_exclude hch hx, allows_exclude hch hx, Bool.and_eq_true,
                Bool.and_eq_true, ih' j x hj hx]
              unfold allowedAfter
              rw [if_neg (fun h => hC h.2), if_neg (fun h => hC h.2)]
              simp only [Bool.not_eq_true', decide_eq_false_iff_not]
              constructor
              · rintro ⟨⟨⟨_, h2⟩, hne⟩, _⟩
                refine ⟨fun ⟨_, _, b⟩ => hne b, fun i hi hW' hTD' hx' => ?_⟩
                by_cases hik : i = j
                · subst hik; exact absurd hx'.symm hne
                · exact h2 i (by omega) hW' hTD' hx'
              · rintro ⟨h1, h2⟩
                have hne : ¬ x = word.getD j 0 := fun e => h1 ⟨by omega, Or.inl hW, e⟩
                exact ⟨⟨⟨fun ⟨a, _⟩ => by omega,
                  fun i hi hW' hTD' hx' => h2 i (by omega) hW' hTD' hx'⟩, hne⟩, hne⟩
            · simp only [hjk, false_and, if_false]
              by_cases hex : word.getD j 0 ≠ word.getD k 0 ∨ pattern.getD j 0 ≠ LetterCorrect
              · rw [if_pos ⟨hj, hex⟩, allows_exclude hch hx, Bool.and_eq_true, ih' j x hj hx]
                simp only [Bool.not_eq_true', decide_eq_false_iff_not]
                unfold allowedAfter
                by_cases hc : j < k ∧ pattern.getD j 0 = LetterCorrect
                · rw [if_pos hc, if_pos (e1.mpr hc)]
                  constructor
                  · exact fun h => h.1
                  · intro h
                    refine ⟨h, fun e => ?_⟩
                    rcases hex with h1 | h1
                    · exact h1 (by rw [← h, e])
                    · exact h1 hc.2
                · rw [if_neg hc, if_neg (fun h => hc (e1.mp h))]
                  constructor
                  · rintro ⟨⟨h1, h2⟩, hne⟩
                    refine ⟨fun ⟨a, b⟩ => h1 ⟨by omega, b⟩, fun i hi hW' hTD' hx' => ?_⟩
                    by_cases hik : i = k
                    · subst hik; exact absurd hx'.symm hne
                    · exact h2 i (by omega) hW' hTD' hx'
                  · rintro ⟨h1, h2⟩
                    refine ⟨⟨fun ⟨a, b⟩ => h1 ⟨by omega, b⟩,
                      fun i hi hW' hTD' hx' => h2 i (by omega) hW' hTD' hx'⟩, fun e => ?_⟩
                    have := h2 k (by omega) hW hTDf e.symm
                    rcases hex with h3 | h3
                    · exact h3 (by rw [this.1, e])
                    · exact h3 this.2
              · have hex' : word.getD j 0 = word.getD k 0 ∧ pattern.getD j 0 = LetterCorrect := by
                  constructor
                  · by_contra h; exact hex (Or.inl h)
                  · by_contra h; exact hex (Or.inr h)
                rw [if_neg (fun h => hex h.2), ih' j x hj hx]
                unfold allowedAfter
                by_cases hc : j < k ∧ pattern.getD j 0 = LetterCorrect
                · rw [if_pos hc, if_pos (e1.mpr hc)]
                · rw [if_neg hc, if_neg (fun h => hc (e1.mp h))]
                  constructor
                  · rintro ⟨h1, h2⟩
                    refine ⟨fun ⟨a, b⟩ => h1 ⟨by omega, b⟩, fun i hi hW' hTD' hx' => ?_⟩
                    by_cases hik : i = k
                    · subst hik; exact ⟨by rw [hex'.1]; exact hx', hex'.2⟩
                    · exact h2 i (by omega) hW' hTD' hx'
                  · rintro ⟨h1, h2⟩
                    exact ⟨fun ⟨a, b⟩ => h1 ⟨by omega, b⟩,
                      fun i hi hW' hTD' hx' => h2 i (by omega) hW' hTD' hx'⟩
        · -- no case of the switch
          rw [if_neg hW, ih' j x hj hx]
          unfold allowedAfter
          have e1 : (j < k + 1 ∧ pattern.getD j 0 = LetterCorrect)
              ↔ (j < k ∧ pattern.getD j 0 = LetterCorrect) := by
            constructor
            · rintro ⟨a, b⟩
              refine ⟨?_, b⟩
              by_contra hcon
              have : j = k := by omega
              subst this
              exact hC b
            · rintro ⟨a, b⟩; exact ⟨by omega, b⟩
          by_cases hc : j < k ∧ pattern.getD j 0 = LetterCorrect
          · rw [if_pos hc, if_pos (e1.mpr hc)]
          · rw [if_neg hc, if_neg (fun h => hc (e1.mp h))]
            constructor
            · rintro ⟨h1, h2⟩
              refine ⟨fun ⟨a, b, c⟩ => ?_, fun i hi hW' hTD' hx' => ?_⟩
              · by_cases hjk : j = k
                · subst hjk
                  rcases b with b | b
                  · exact hW b
                  · exact hT b
                · exact h1 ⟨by omega, b, c⟩
              · by_cases hik : i = k
                · subst hik; exact absurd hW' hW
                · exact h2 i (by omega) hW' hTD' hx'
            · rintro ⟨h1, h2⟩
              exact ⟨fun ⟨a, b⟩ => h1 ⟨by omega, b⟩,
                fun i hi hW' hTD' hx' => h2 i (by omega) hW' hTD' hx'⟩

/-! ## constraintFromPattern: the count entries -/

theorem mapSet_keys {β : Type} (m : List (Nat × β)) (k : Nat) (v : β) :
    (mapSet m k v).map Prod.fst
      = if k ∈ m.map Prod.fst then m.map Prod.fst else m.map Prod.fst ++ [k] := by
  induction m with
  | nil => simp [mapSet]
  | cons p m ih =>
    obtain ⟨k0, w⟩ := p
    by_cases h0 : k0 = k
    · subst h0
      simp [mapSet]
    · have h1 : ¬ k = k0 := fun e => h0 e.symm
      simp only [mapSet, h0, if_false, List.map_cons, ih, List.mem_cons, h1, false_or]
      split_ifs <;> simp

theorem mapGet_of_mem {β : Type} (m : List (Nat × β)) (hnd : (m.map Prod.fst).Nodup)
    {k : Nat} {v : β} (h : (k, v) ∈ m) : mapGet m k = some v := by
  induction m with
  | nil => exact absurd h (List.not_mem_nil _)
  | cons p m ih =>
    obtain ⟨k0, w⟩ := p
    rw [List.map_cons, List.nodup_cons] at hnd
    rcases List.mem_cons.mp h with heq | hm
    · injection heq with h1 h2
      subst h1; subst h2
      simp [mapGet]
    · have hne : ¬ k0 = k := by
        rintro rfl
        exact hnd.1 (List.mem_map.mpr ⟨(k0, v), hm, rfl⟩)
      simp only [mapGet, hne, if_false]
      exact ih hnd.2 hm

theorem mem_of_mapGet {β : Type} (m : List (Nat × β)) {k : Nat} {v : β}
    (h : mapGet m k = some v) : (k, v) ∈ m := by
  induction m with
  | nil => simp [mapGet] at h
  | cons p m ih =>
    obtain ⟨k0, w⟩ := p
    by_cases h0 : k0 = k
    · subst h0
      simp only [mapGet, if_true, Option.some.injEq] at h
      subst h
      exact List.mem_cons_self _ _
    · simp only [mapGet, h0, if_false] at h
      exact List.mem_cons_of_mem _ (ih h)

theorem neededUpTo_succ (word : Word) (pattern : Pattern) (k ch : Nat) :
    neededUpTo word pattern (k + 1) ch
      = neededUpTo word pattern k ch
        + (if word.getD k 0 = ch ∧ (pattern.getD k 0 = LetterCorrect
            ∨ pattern.getD k 0 = LetterTransposed) then 1 else 0) := by
  unfold neededUpTo
  rw [List.range_succ, List.filter_append, List.length_append]
  congr 1
  by_cases h : word.getD k 0 = ch ∧ (pattern.getD k 0 = LetterCorrect
      ∨ pattern.getD k 0 = LetterTransposed)
  · rw [if_pos h, List.filter_cons_of_pos (by simpa using h)]
    rfl
  · rw [if_neg h, List.filter_cons_of_neg (by simpa using h)]
    rfl

theorem neededUpTo_le (word : Word) (pattern : Pattern) (k ch : Nat) :
    neededUpTo word pattern k ch ≤ k := by
  unfold neededUpTo
  calc ((List.range k).filter _).length ≤ (List.range k).length := List.length_filter_le _ _
    _ = k := List.length_range k

/-- The counts map after `k` iterations of the first loop: one pair per letter
marked Correct or Transposed so far, holding the number of such marks. -/
theorem counts_stateAfter (word : Word) (pattern : Pattern) (k : Nat) (hk : k ≤ WordLength) :
    ((stateAfter word pattern k).2.map Prod.fst).Nodup
    ∧ (stateAfter word pattern k).2.length ≤ k
    ∧ ∀ ch, mapGet (stateAfter word pattern k).2 ch
        = if neededUpTo word pattern k ch = 0 then none
          else some (neededUpTo word pattern k ch) := by
  induction k with
  | zero =>
    refine ⟨by simp [stateAfter], by simp [stateAfter], fun ch => ?_⟩
    simp [stateAfter, neededUpTo, mapGet]
  | succ k ih =>
    obtain ⟨hnd, hlen, hget⟩ := ih (by omega)
    have hinc : ((incCount (stateAfter word pattern k).2 (word.getD k 0)).map Prod.fst).Nodup
        ∧ (incCount (stateAfter word pattern k).2 (word.getD k 0)).length ≤ k + 1
        ∧ ∀ ch, mapGet (incCount (stateAfter word pattern k).2 (word.getD k 0)) ch
            = if ch = word.getD k 0 then some (neededUpTo word pattern k ch + 1)
              else mapGet (stateAfter word pattern k).2 ch := by
      unfold incCount
      refine ⟨?_, ?_, fun ch => ?_⟩
      · rw [mapSet_keys]
        split_ifs with hmem
        · exact hnd
        · rw [List.nodup_append]
          refine ⟨hnd, List.nodup_singleton _, ?_⟩
          intro a ha hb
          rw [List.mem_singleton] at hb
          subst hb
          exact hmem ha
      · have := congrArg List.length (mapSet_keys (stateAfter word pattern k).2 (word.getD k 0)
          (((mapGet (stateAfter word pattern k).2 (word.getD k 0)).getD 0 + 1) % 256))
        rw [List.length_map] at this
        rw [this]
        split_ifs
        · rw [List.length_map]; omega
        · rw [List.length_append, List.length_map, List.length_singleton]; omega
      · rw [mapGet_mapSet]
        by_cases hc : ch = word.getD k 0
        · subst hc
          rw [if_pos rfl, if_pos rfl, hget]
          have hle := neededUpTo_le word pattern k (word.getD k 0)
          have hk5 : k ≤ 5 := by unfold WordLength at hk; omega
          congr 1
          split_ifs with h0
          · rw [h0]; rfl
          · simp only [Option.getD_some]
            omega
        · rw [if_neg hc, if_neg hc]
    rw [stateAfter_succ]
    unfold patternStep
    simp only
    by_cases hC : pattern.getD k 0 = LetterCorrect
    · rw [if_pos hC]
      refine ⟨hinc.1, hinc.2.1, fun ch => ?_⟩
      rw [hinc.2.2, neededUpTo_succ]
      by_cases hc : ch = word.getD k 0
      · subst hc
        have e : (if word.getD k 0 = word.getD k 0 ∧ (pattern.getD k 0 = LetterCorrect
            ∨ pattern.getD k 0 = LetterTransposed) then 1 else 0) = 1 :=
          if_pos ⟨rfl, Or.inl hC⟩
        rw [e, if_pos rfl, if_neg (Nat.succ_ne_zero _)]
      · have hc' : ¬ word.getD k 0 = ch := fun e => hc e.symm
        simp only [hc, hc', false_and, if_false, Nat.add_zero]
        exact hget ch
    · rw [if_neg hC]
      by_cases hT : pattern.getD k 0 = LetterTransposed
      · rw [if_pos hT]
        refine ⟨hinc.1, hinc.2.1, fun ch => ?_⟩
        rw [hinc.2.2, neededUpTo_succ]
        by_cases hc : ch = word.getD k 0
        · subst hc
          have e : (if word.getD k 0 = word.getD k 0 ∧ (pattern.getD k 0 = LetterCorrect
              ∨ pattern.getD k 0 = LetterTransposed) then 1 else 0) = 1 :=
            if_pos ⟨rfl, Or.inr hT⟩
          rw [e, if_pos rfl, if_neg (Nat.succ_ne_zero _)]
        · have hc' : ¬ word.getD k 0 = ch := fun e => hc e.symm
          simp only [hc, hc', false_and, if_false, Nat.add_zero]
          exact hget ch
      · rw [if_neg hT]
        have hsame : ∀ ch, neededUpTo word pattern (k + 1) ch = neededUpTo word pattern k ch := by
          intro ch
          rw [neededUpTo_succ, if_neg (fun h => by rcases h.2 with h | h; exact hC h; exact hT h)]
          rfl
        have hrest : ((stateAfter word pattern k).2.map Prod.fst).Nodup
            ∧ (stateAfter word pattern k).2.length ≤ k + 1
            ∧ ∀ ch, mapGet (stateAfter word pattern k).2 ch
                = if neededUpTo word pattern (k + 1) ch = 0 then none
                  else some (neededUpTo word pattern (k + 1) ch) :=
          ⟨hnd, by omega, fun ch => by rw [hsame]; exact hget ch⟩
        split_ifs <;> exact hrest

theorem fillCounts_eq (l : List (Nat × Nat)) (h : l.length ≤ WordLength) :
    fillCounts l 0 NewConstraint.Counts
      = l.map (fun p => (⟨p.1, p.2⟩ : MinCountConstraint))
        ++ List.replicate (WordLength - l.length) MinCountConstraint.zero := by
  match l, h with
  | [], _ => rfl
  | [(_, _)], _ => rfl
  | [(_, _), (_, _)], _ => rfl
  | [(_, _), (_, _), (_, _)], _ => rfl
  | [(_, _), (_, _), (_, _), (_, _)], _ => rfl
  | [(_, _), (_, _), (_, _), (_, _), (_, _)], _ => rfl
  | _ :: _ :: _ :: _ :: _ :: _ :: _, h => simp [WordLength] at h

/-- The count entries of `constraintFromPattern`, whatever the order of the
`range` over the map: they are all satisfied by occurrence counts `N` exactly
when every letter occurs at least as often as it is marked Correct or
Transposed. -/
theorem constraintFromPattern_Counts (ord : RangeOrder) (word : Word) (pattern : Pattern)
    (N : Nat → Nat) :
    (∀ e ∈ (constraintFromPattern ord word pattern).Counts, e.Count ≤ N e.Char)
      ↔ ∀ ch, needed word pattern ch ≤ N ch := by
  obtain ⟨hnd, hlen, hget⟩ := counts_stateAfter word pattern WordLength (le_refl _)
  have hperm := ord.perm (stateAfter word pattern WordLength).2
  have hlen' : (ord.iter (stateAfter word pattern WordLength).2).length ≤ WordLength := by
    rw [hperm.length_eq]; exact hlen
  have hC : (constraintFromPattern ord word pattern).Counts
      = fillCounts (ord.iter (stateAfter word pattern WordLength).2) 0 NewConstraint.Counts := rfl
  rw [hC, fillCounts_eq _ hlen']
  constructor
  · intro h ch
    by_cases h0 : needed word pattern ch = 0
    · rw [h0]; exact Nat.zero_le _
    · have hg := hget ch
      have h0' : ¬ neededUpTo word pattern WordLength ch = 0 := h0
      rw [if_neg h0'] at hg
      have hm := hperm.mem_iff.mpr (mem_of_mapGet _ hg)
      exact h ⟨ch, needed word pattern ch⟩
        (List.mem_append_left _ (List.mem_map.mpr ⟨(ch, _), hm, rfl⟩))
  · intro h e he
    rcases List.mem_append.mp he with hm | hz
    · rw [List.mem_map] at hm
      obtain ⟨⟨ch, n⟩, hp, rfl⟩ := hm
      have hg := mapGet_of_mem _ hnd (hperm.mem_iff.mp hp)
      rw [hget ch] at hg
      by_cases h0 : neededUpTo word pattern WordLength ch = 0
      · rw [if_pos h0] at hg; exact absurd hg (by simp)
      · rw [if_neg h0] at hg
        have : n = needed word pattern ch := (Option.some.inj hg).symm
        show n ≤ N ch
        rw [this]
        exact h ch
    · rw [List.eq_of_mem_replicate hz]
      exact Nat.zero_le _

/-- What `constraintFromPattern(word, pattern)` matches: the words whose letter
at every position is allowed there, and that hold every letter at least as often
as the guess marks it Correct or Transposed. -/
theorem constraintFromPattern_Matches (ord : RangeOrder) (word : Word) (pattern : Pattern)
    (w : Word) (hword : IsWord word) (hw : IsWord w) :
    (constraintFromPattern ord word pattern).Matches w = true
      ↔ (∀ j, j < WordLength → allowedAfter word pattern WordLength j (w.getD j 0))
        ∧ ∀ ch, needed word pattern ch ≤ countChar w ch := by
  rw [Matches_iff, constraintFromPattern_Counts ord word pattern (countChar w),
    constraintFromPattern_Letters]
  constructor
  · rintro ⟨h1, h2⟩
    exact ⟨fun j hj => (allows_stateAfter word pattern hword WordLength (le_refl _) j _ hj
      (getD_of_isWord hw hj)).mp (h1 j hj), h2⟩
  · rintro ⟨h1, h2⟩
    exact ⟨fun j hj => (allows_stateAfter word pattern hword WordLength (le_refl _) j _ hj
      (getD_of_isWord hw hj)).mpr (h1 j hj), h2⟩

/-! ## The standard feedback rule -/

theorem standardFeedback_getD (guess solution : Word) {i : Nat} (hi : i < WordLength) :
    (standardFeedback guess solution).getD i 0 = feedbackAt guess solution i := by
  unfold WordLength at hi
  match i, hi with
  | 0, _ => rfl
  | 1, _ => rfl
  | 2, _ => rfl
  | 3, _ => rfl
  | 4, _ => rfl

theorem feedbackAt_correct (guess solution : Word) (i : Nat) :
    feedbackAt guess solution i = LetterCorrect ↔ guess.getD i 0 = solution.getD i 0 := by
  unfold feedbackAt
  split_ifs <;> simp_all [LetterCorrect, LetterTransposed, LetterWrong]

theorem feedbackAt_transposed (guess solution : Word) (i : Nat) :
    feedbackAt guess solution i = LetterTransposed
      ↔ guess.getD i 0 ≠ solution.getD i 0 ∧ guess.getD i 0 ∈ unclaimed guess solution i := by
  unfold feedbackAt
  split_ifs <;> simp_all [LetterCorrect, LetterTransposed, LetterWrong]

theorem feedbackAt_wrong (guess solution : Word) (i : Nat) :
    feedbackAt guess solution i = LetterWrong
      ↔ guess.getD i 0 ≠ solution.getD i 0 ∧ guess.getD i 0 ∉ unclaimed guess solution i := by
  unfold feedbackAt
  split_ifs <;> simp_all [LetterCorrect, LetterTransposed, LetterWrong]

theorem unclaimed_succ (guess solution : Word) (k : Nat) :
    unclaimed guess solution (k + 1)
      = if feedbackAt guess solution k = LetterTransposed then
          (unclaimed guess solution k).erase (guess.getD k 0)
        else unclaimed guess solution k := by
  rw [unclaimed]
  by_cases h : guess.getD k 0 ≠ solution.getD k 0 ∧ guess.getD k 0 ∈ unclaimed guess solution k
  · rw [if_pos h, if_pos ((feedbackAt_transposed guess solution k).mpr h)]
  · rw [if_neg h, if_neg (fun e => h ((feedbackAt_transposed guess solution k).mp e))]

/-- A letter that is unclaimed at the start and never claimed by a Transposed
guess letter before position `i` is still unclaimed at `i`. -/
theorem not_mem_unclaimed_zero (guess solution : Word) (ch : Nat) (i : Nat)
    (hno : ∀ j, j < i → ¬ (guess.getD j 0 = ch ∧ feedbackAt guess solution j = LetterTransposed))
    (hi : ch ∉ unclaimed guess solution i) : ch ∉ unclaimed guess solution 0 := by
  induction i with
  | zero => exact hi
  | succ k ih =>
    apply ih (fun j hj => hno j (by omega))
    rw [unclaimed_succ] at hi
    by_cases hT : feedbackAt guess solution k = LetterTransposed
    · rw [if_pos hT] at hi
      have hne : ch ≠ guess.getD k 0 := fun e => hno k (by omega) ⟨e.symm, hT⟩
      intro hm
      exact hi ((List.mem_erase_of_ne hne).mpr hm)
    · rw [if_neg hT] at hi
      exact hi

theorem mem_unmatchedLetters (guess solution : Word) {j : Nat} (hj : j < WordLength)
    (hne : guess.getD j 0 ≠ solution.getD j 0) :
    solution.getD j 0 ∈ unclaimed guess solution 0 := by
  show solution.getD j 0 ∈ unmatchedLetters guess solution
  unfold unmatchedLetters
  rw [List.mem_map]
  exact ⟨j, List.mem_filter.mpr ⟨List.mem_range.mpr hj, by simpa using hne⟩, rfl⟩

theorem occ_erase (l : List Nat) (b ch : Nat) (hb : b ∈ l) :
    occ ch (l.erase b) + (if b = ch then 1 else 0) = occ ch l := by
  induction l with
  | nil => exact absurd hb (List.not_mem_nil b)
  | cons a l ih =>
    by_cases hab : a = b
    · subst hab
      rw [List.erase_cons_head]
      unfold occ
      by_cases hc : a = ch
      · rw [if_pos hc, List.filter_cons_of_pos (by simpa using hc)]
        rfl
      · rw [if_neg hc, List.filter_cons_of_neg (by simpa using hc)]
        rfl
    · have hb' : b ∈ l := by
        rcases List.mem_cons.mp hb with h | h
        · exact absurd h.symm hab
        · exact h
      rw [List.erase_cons_tail (by simpa using hab)]
      have := ih hb'
      unfold occ at this ⊢
      by_cases hc : a = ch
      · rw [List.filter_cons_of_pos (by simpa using hc), List.filter_cons_of_pos (by simpa using hc),
          List.length_cons, List.length_cons]
        omega
      · rw [List.filter_cons_of_neg (by simpa using hc), List.filter_cons_of_neg (by simpa using hc)]
        exact this

theorem correctUpTo_succ (guess solution : Word) (k ch : Nat) :
    correctUpTo guess solution (k + 1) ch
      = correctUpTo guess solution k ch
        + (if solution.getD k 0 = ch ∧ guess.getD k 0 = solution.getD k 0 then 1 else 0) := by
  unfold correctUpTo
  rw [List.range_succ, List.filter_append, List.length_append]
  congr 1
  by_cases h : solution.getD k 0 = ch ∧ guess.getD k 0 = solution.getD k 0
  · rw [if_pos h, List.filter_cons_of_pos (by simpa using h)]
    rfl
  · rw [if_neg h, List.filter_cons_of_neg (by simpa using h)]
    rfl

/-- Every guess letter marked Correct or Transposed before position `k` is
matched by its own occurrence of the solution: a Correct one at the same
position, a Transposed one among the unmatched letters. -/
theorem needed_balance (guess solution : Word) (ch : Nat) (k : Nat) (hk : k ≤ WordLength) :
    neededUpTo guess (standardFeedback guess solution) k ch
        + occ ch (unclaimed guess solution k)
      = correctUpTo guess solution k ch + occ ch (unclaimed guess solution 0) := by
  induction k with
  | zero => simp [neededUpTo, correctUpTo]
  | succ k ih =>
    have ih' := ih (by omega)
    have hk5 : k < WordLength := by omega
    rw [neededUpTo_succ, correctUpTo_succ, unclaimed_succ, standardFeedback_getD _ _ hk5]
    by_cases hC : feedbackAt guess solution k = LetterCorrect
    · have hgs := (feedbackAt_correct guess solution k).mp hC
      have hnT : ¬ feedbackAt guess solution k = LetterTransposed := by rw [hC]; decide
      have e3 : (if feedbackAt guess solution k = LetterTransposed then
            (unclaimed guess solution k).erase (guess.getD k 0)
          else unclaimed guess solution k) = unclaimed guess solution k := if_neg hnT
      rw [e3]
      by_cases hc : guess.getD k 0 = ch
      · have e1 : (if guess.getD k 0 = ch ∧ (feedbackAt guess solution k = LetterCorrect
            ∨ feedbackAt guess solution k = LetterTransposed) then 1 else 0) = 1 :=
          if_pos ⟨hc, Or.inl hC⟩
        have e2 : (if solution.getD k 0 = ch ∧ guess.getD k 0 = solution.getD k 0
            then 1 else 0) = 1 := if_pos ⟨by rw [← hgs]; exact hc, hgs⟩
        rw [e1, e2]
        omega
      · have e1 : (if guess.getD k 0 = ch ∧ (feedbackAt guess solution k = LetterCorrect
            ∨ feedbackAt guess solution k = LetterTransposed) then 1 else 0) = 0 :=
          if_neg (fun h => hc h.1)
        have e2 : (if solution.getD k 0 = ch ∧ guess.getD k 0 = solution.getD k 0
            then 1 else 0) = 0 := if_neg (fun h => hc (by rw [hgs]; exact h.1))
        rw [e1, e2]
        omega
    · have hgs : ¬ guess.getD k 0 = solution.getD k 0 :=
        fun e => hC ((feedbackAt_correct guess solution k).mpr e)
      have e2 : (if solution.getD k 0 = ch ∧ guess.getD k 0 = solution.getD k 0
          then 1 else 0) = 0 := if_neg (fun h => hgs h.2)
      rw [e2]
      by_cases hT : feedbackAt guess solution k = LetterTransposed
      · have e3 : (if feedbackAt guess solution k = LetterTransposed then
              (unclaimed guess solution k).erase (guess.getD k 0)
            else unclaimed guess solution k)
            = (unclaimed guess solution k).erase (guess.getD k 0) := if_pos hT
        rw [e3]
        have hmem := ((feedbackAt_transposed guess solution k).mp hT).2
        have he := occ_erase _ _ ch hmem
        by_cases hc : guess.getD k 0 = ch
        · have e1 : (if guess.getD k 0 = ch ∧ (feedbackAt guess solution k = LetterCorrect
              ∨ feedbackAt guess solution k = LetterTransposed) then 1 else 0) = 1 :=
            if_pos ⟨hc, Or.inr hT⟩
          rw [e1]
          rw [if_pos hc] at he
          omega
        · have e1 : (if guess.getD k 0 = ch ∧ (feedbackAt guess solution k = LetterCorrect
              ∨ feedbackAt guess solution k = LetterTransposed) then 1 else 0) = 0 :=
            if_neg (fun h => hc h.1)
          rw [e1]
          rw [if_neg hc] at he
          omega
      · have e3 : (if feedbackAt guess solution k = LetterTransposed then
              (unclaimed guess solution k).erase (guess.getD k 0)
            else unclaimed guess solution k) = unclaimed guess solution k := if_neg hT
        have e1 : (if guess.getD k 0 = ch ∧ (feedbackAt guess solution k = LetterCorrect
            ∨ feedbackAt guess solution k = LetterTransposed) then 1 else 0) = 0 :=
          if_neg (fun h => by rcases h.2 with h | h; exact hC h; exact hT h)
        rw [e3, e1]
        omega

theorem countChar_split (guess solution : Word) (ch : Nat) :
    countChar solution ch
      = correctUpTo guess solution WordLength ch + occ ch (unclaimed guess solution 0) := by
  show countChar solution ch
      = correctUpTo guess solution WordLength ch + occ ch (unmatchedLetters guess solution)
  unfold countChar correctUpTo occ unmatchedLetters
  generalize List.range WordLength = l
  induction l with
  | nil => rfl
  | cons i l ih =>
    by_cases h1 : solution.getD i 0 = ch
    · by_cases h2 : guess.getD i 0 = solution.getD i 0
      · rw [List.filter_cons_of_pos (by simpa using h1),
          List.filter_cons_of_pos (by simpa using And.intro h1 h2),
          List.filter_cons_of_neg (by simpa using h2), List.length_cons, List.length_cons, ih]
        omega
      · rw [List.filter_cons_of_pos (by simpa using h1),
          List.filter_cons_of_neg (by simp [-List.getD_eq_getElem?_getD, h2]),
          List.filter_cons_of_pos (by simpa using h2), List.map_cons,
          List.filter_cons_of_pos (by simpa using h1), List.length_cons, List.length_cons, ih]
        omega
    · by_cases h2 : guess.getD i 0 = solution.getD i 0
      · rw [List.filter_cons_of_neg (by simpa using h1),
          List.filter_cons_of_neg (by simp [-List.getD_eq_getElem?_getD, h1]),
          List.filter_cons_of_neg (by simpa using h2), ih]
      · rw [List.filter_cons_of_neg (by simpa using h1),
          List.filter_cons_of_neg (by simp [-List.getD_eq_getElem?_getD, h1]),
          List.filter_cons_of_pos (by simpa using h2), List.map_cons,
          List.filter_cons_of_neg (by simpa using h1), ih]

/-! ## C3: the constraint of a truthful feedback admits the solution -/

/-- Under the standard rule every letter of the solution is still allowed at
its position by the letter sets derived from the feedback. -/
theorem feedback_allowedAfter (guess solution : Word) {j : Nat} (hj : j < WordLength) :
    allowedAfter guess (standardFeedback guess solution) WordLength j (solution.getD j 0) := by
  have hpj := standardFeedback_getD guess solution hj
  unfold allowedAfter
  by_cases hc : j < WordLength ∧ (standardFeedback guess solution).getD j 0 = LetterCorrect
  · rw [if_pos hc]
    rw [hpj] at hc
    exact ((feedbackAt_correct guess solution j).mp hc.2).symm
  · rw [if_neg hc]
    have hne : guess.getD j 0 ≠ solution.getD j 0 := by
      intro e
      apply hc
      refine ⟨hj, ?_⟩
      rw [hpj]
      exact (feedbackAt_correct guess solution j).mpr e
    refine ⟨fun h => hne h.2.2.symm, fun i hi hW hTD hx => ?_⟩
    exfalso
    rw [standardFeedback_getD guess solution hi] at hW
    have hni := ((feedbackAt_wrong guess solution i).mp hW).2
    have hno : ∀ j', j' < i → ¬ (guess.getD j' 0 = guess.getD i 0
        ∧ feedbackAt guess solution j' = LetterTransposed) := by
      intro j' hj' h
      have hex : hasTransposedDuplicate guess (standardFeedback guess solution) i = true := by
        rw [hasTransposedDuplicate_iff]
        refine ⟨j', hj', h.1, ?_⟩
        rw [standardFeedback_getD guess solution (by omega)]
        exact h.2
      rw [hTD] at hex
      exact Bool.false_ne_true hex
    have h0 := not_mem_unclaimed_zero guess solution _ i hno hni
    apply h0
    rw [hx]
    exact mem_unmatchedLetters guess solution hj hne

/-- Under the standard rule the solution holds every letter at least as often
as the guess marks it Correct or Transposed. -/
theorem feedback_needed_le (guess solution : Word) (ch : Nat) :
    needed guess (standardFeedback guess solution) ch ≤ countChar solution ch := by
  have h1 := needed_balance guess solution ch WordLength (le_refl _)
  have h2 := countChar_split guess solution ch
  unfold needed
  omega

/-- C3: for every pair of 5-letter lowercase words `guess` and `solution`, and
whatever the order in which the counts map is ranged over, the constraint that
`constraintFromPattern` derives from the standard-rule feedback of `guess`
against `solution` matches `solution`. -/
theorem C3_feedback_constraint_matches_solution (ord : RangeOrder) (guess solution : Word)
    (hg : IsWord guess) (hs : IsWord solution) :
    (constraintFromPattern ord guess (standardFeedback guess solution)).Matches solution
      = true := by
  rw [constraintFromPattern_Matches ord guess _ solution hg hs]
  exact ⟨fun j hj => feedback_allowedAfter guess solution hj,
    fun ch => feedback_needed_le guess solution ch⟩

theorem C3_feedback_constraint_matches_solution_witness :
    IsWord (bytes "slate") ∧ IsWord (bytes "crane")
    ∧ (constraintFromPattern RangeOrder.insertion (bytes "slate")
        (standardFeedback (bytes "slate") (bytes "crane"))).Matches (bytes "crane") = true :=
  ⟨by decide, by decide,
    C3_feedback_constraint_matches_solution _ _ _ (by decide) (by decide)⟩

/-! ## C5: the constraint map -/

theorem pathOK_counts (w : List Nat) :
    ∀ (c : Constraint) (depth : Nat), pathOK c depth w = true →
      ∀ e ∈ c.Counts, decWalk e w = 0 := by
  induction w with
  | nil =>
    intro c depth h e he
    unfold pathOK at h
    rw [List.all_eq_true] at h
    have := h e he
    simpa [decWalk] using this
  | cons ch rest ih =>
    intro c depth h e he
    unfold pathOK at h
    rw [Bool.and_eq_true] at h
    have := ih (c.Dec ch) (depth + 1) h.2
      (if e.Char = ch then ⟨e.Char, (e.Count + 255) % 256⟩ else e)
      (by
        unfold Constraint.Dec
        exact List.mem_map.mpr ⟨e, he, rfl⟩)
    rw [decWalk]
    exact this

/-- The constraints that `NewConstraintMap` keeps for one word, on a tree on
which `HasMatches` always returns: those of the valid patterns for which
`HasMatches` is true, in the order of the patterns. -/
theorem wordConstraints_eq (ord : RangeOrder) (tree : WordleTree) (word : Word)
    (hsome : ∀ c, ∃ b, tree.HasMatches c = some b) (ps : List Pattern) :
    wordConstraints ord tree word ps
      = some (((ps.filter (fun p => isValidPattern word p)).map
          (fun p => constraintFromPattern ord word p)).filter
            (fun c => decide (tree.HasMatches c = some true))) := by
  induction ps with
  | nil => rfl
  | cons p ps ih =>
    rw [wordConstraints]
    by_cases hv : isValidPattern word p = true
    · rw [List.filter_cons_of_pos hv, List.map_cons]
      simp only [hv, Bool.not_true, Bool.false_eq_true, if_false]
      obtain ⟨b, hb⟩ := hsome (constraintFromPattern ord word p)
      rw [hb, ih]
      cases b
      · rw [List.filter_cons_of_neg (by simp [hb])]
        rfl
      · rw [List.filter_cons_of_pos (by simp [hb])]
        rfl
    · have hf : isValidPattern word p = false := by simpa using hv
      rw [List.filter_cons_of_neg hv]
      simp only [hf, Bool.not_false, if_true]
      exact ih

/-- The constraint map of a single guess word. -/
theorem NewConstraintMap_single (ord : RangeOrder) (tree : WordleTree) (word : Word)
    (entry : List Constraint)
    (h : wordConstraints ord tree word AllPatterns = some entry) :
    NewConstraintMap ord [word] tree = some [(word, entry)] := by
  unfold NewConstraintMap
  rw [List.foldl_cons, List.foldl_nil]
  simp only
  rw [h]
  rfl

/-- C5 (evaluation at the failing input): with the guess list ["slate"] and the
solution tree built from ["peace"], the standard-rule feedback of "slate"
against the stored word "peace" gives a constraint that matches "peace", yet
this constraint is not in the map entry of "slate", whatever the order of the
`range` over the counts map: `HasMatches` is false for it, because the second
'e' of "peace" wraps the decremented count of 'e' from 0 to 255. -/
theorem C5_achievable_constraint_discarded (ord : RangeOrder) :
    standardFeedback (bytes "slate") (bytes "peace")
      = [LetterWrong, LetterWrong, LetterCorrect, LetterWrong, LetterCorrect]
    ∧ bytes "peace" ∈ (NewWordleTree [bytes "peace"] NewConstraint).Wordles
    ∧ (constraintFromPattern ord (bytes "slate")
        (standardFeedback (bytes "slate") (bytes "peace"))).Matches (bytes "peace") = true
    ∧ ∃ entry, NewConstraintMap ord [bytes "slate"] (NewWordleTree [bytes "peace"] NewConstraint)
          = some [(bytes "slate", entry)]
        ∧ constraintFromPattern ord (bytes "slate")
            (standardFeedback (bytes "slate") (bytes "peace")) ∉ entry := by
  have hws : ∀ w ∈ [bytes "peace"], IsWord w := by decide
  have hsome : ∀ c, ∃ b, (NewWordleTree [bytes "peace"] NewConstraint).HasMatches c = some b :=
    fun c => ⟨_, HasMatches_built _ _ c hws⟩
  refine ⟨by decide, by decide,
    (constraintFromPattern_Matches ord _ _ _ (by decide) (by decide)).mpr
      ⟨fun j hj => feedback_allowedAfter _ _ hj, fun ch => feedback_needed_le _ _ ch⟩,
    _, NewConstraintMap_single ord _ _ _ (wordConstraints_eq ord _ _ hsome AllPatterns), ?_⟩
  intro hmem
  have hT := (List.mem_filter.mp hmem).2
  rw [decide_eq_true_iff, HasMatches_built _ _ _ hws] at hT
  have hW : (NewWordleTree [bytes "peace"] NewConstraint).Wordles = [bytes "peace"] := by
    decide
  rw [hW, List.any_cons, List.any_nil, Bool.or_false] at hT
  have hp := Option.some.inj hT
  have hperm := ord.perm
    (stateAfter (bytes "slate") (standardFeedback (bytes "slate") (bytes "peace")) WordLength).2
  have hm : (stateAfter (bytes "slate") (standardFeedback (bytes "slate") (bytes "peace"))
      WordLength).2 = [(97, 1), (101, 1)] := by decide
  rw [hm] at hperm
  have hC : (constraintFromPattern ord (bytes "slate")
      (standardFeedback (bytes "slate") (bytes "peace"))).Counts
      = fillCounts (ord.iter (stateAfter (bytes "slate")
          (standardFeedback (bytes "slate") (bytes "peace")) WordLength).2) 0
          NewConstraint.Counts := rfl
  have hin : (⟨101, 1⟩ : MinCountConstraint) ∈ (constraintFromPattern ord (bytes "slate")
      (standardFeedback (bytes "slate") (bytes "peace"))).Counts := by
    rw [hC, hm, fillCounts_eq _ (by rw [hperm.length_eq]; decide)]
    apply List.mem_append_left
    exact List.mem_map.mpr ⟨(101, 1), hperm.mem_iff.mpr (by simp), rfl⟩
  have := pathOK_counts _ _ _ hp _ hin
  revert this
  decide

/-! ## The solver rounds -/

theorem decodeRune_high (p0 : Nat) (rest : List Nat) (h : 128 ≤ p0) :
    128 ≤ (decodeRune (p0 :: rest)).1 := by
  unfold decodeRune
  simp only [decide_eq_true_eq]
  rw [if_neg (by omega)]
  split_ifs <;> simp only <;> omega

theorem decodeRune_low (p0 : Nat) (rest : List Nat) (h : p0 < 128) :
    decodeRune (p0 :: rest) = (p0, 1) := by
  unfold decodeRune
  simp only [h, if_true]

theorem runesAux_all (n : Nat) :
    ∀ s : List Nat, s.length ≤ n →
      ((runesAux n s).all (fun r => !(decide (r < 97) || decide (r > 122))) = true
        ↔ ∀ b ∈ s, IsLower b) := by
  induction n with
  | zero =>
    intro s hs
    have : s = [] := List.length_eq_zero.mp (by omega)
    subst this
    simp [runesAux]
  | succ n ih =>
    intro s hs
    cases s with
    | nil => simp [runesAux]
    | cons p0 rest =>
      rw [runesAux, List.all_cons, Bool.and_eq_true]
      by_cases hp : p0 < 128
      · rw [decodeRune_low p0 rest hp]
        simp only [Nat.sub_self, List.drop_zero]
        rw [ih rest (by simpa using hs), List.forall_mem_cons]
        unfold IsLower
        simp only [Bool.not_eq_true', Bool.or_eq_false_iff, decide_eq_false_iff_not]
        constructor
        · rintro ⟨⟨h1, h2⟩, h3⟩; exact ⟨⟨by omega, by omega⟩, h3⟩
        · rintro ⟨⟨h1, h2⟩, h3⟩; exact ⟨⟨by omega, by omega⟩, h3⟩
      · have hr := decodeRune_high p0 rest (by omega)
        constructor
        · rintro ⟨h1, _⟩
          simp only [Bool.not_eq_true', Bool.or_eq_false_iff, decide_eq_false_iff_not] at h1
          omega
        · intro h
          have := (h p0 (List.mem_cons_self p0 rest)).2
          omega

/-- The rune loop of `isAscii` accepts exactly the non-empty strings whose bytes
are all lowercase letters. -/
theorem isAscii_iff (s : Word) :
    isAscii s = true ↔ s.length > 0 ∧ ∀ b ∈ s, IsLower b := by
  unfold isAscii runes
  rw [Bool.and_eq_true, runesAux_all _ s (le_refl _), decide_eq_true_iff]
  exact and_comm

theorem GameState_AddGuess_unchanged (assets : Assets) (gs : GameState) (word : Word)
    (hints : List Hint) (h : (gs.AddGuess assets word hints).2 ≠ none) :
    (gs.AddGuess assets word hints).1 = gs := by
  unfold GameState.AddGuess at h ⊢
  split_ifs at h ⊢ <;> first | rfl | exact absurd rfl h

theorem GameState_AddGuess_err_iff (assets : Assets) (gs : GameState) (word : Word)
    (hints : List Hint) (hfree : gs.guesses.getD (MaxGuesses - 1) none = none)
    (hh : hints.length = 5) :
    (gs.AddGuess assets word hints).2 ≠ none
      ↔ (word.length ≠ 5 ∨ (∃ b ∈ word, ¬ IsLower b)
          ∨ (word ∉ assets.Wordles ∧ word ∉ assets.NonWordles)) := by
  unfold GameState.AddGuess
  rw [if_neg (by simpa using hfree)]
  by_cases hl : word.length ≠ 5
  · rw [if_pos hl]
    simp [hl]
  · rw [if_neg hl, if_neg (by simpa using hh)]
    have hl5 : word.length = 5 := by simpa using hl
    by_cases ha : isAscii word = true
    · have hlow := ((isAscii_iff word).mp ha).2
      have hnot : ¬ (!isAscii word) = true := by simp [ha]
      rw [if_neg hnot]
      by_cases hv : (!decide (word ∈ assets.Wordles) && !decide (word ∈ assets.NonWordles))
          = true
      · rw [if_pos hv]
        simp only [Bool.and_eq_true, Bool.not_eq_true', decide_eq_false_iff_not] at hv
        simp [hv]
      · rw [if_neg hv]
        simp only [Bool.and_eq_true, Bool.not_eq_true', decide_eq_false_iff_not, not_and,
          not_not] at hv
        simp only [ne_eq, not_true_eq_false, false_iff, not_or, not_exists, not_and, not_not]
        exact ⟨hl5, fun b hb => hlow b hb, hv⟩
    · have hf : (!isAscii word) = true := by simpa using ha
      rw [if_pos hf]
      have hex : ∃ b ∈ word, ¬ IsLower b := by
        by_contra hcon
        apply ha
        rw [isAscii_iff]
        refine ⟨by omega, fun b hb => ?_⟩
        by_contra hb2
        exact hcon ⟨b, hb, hb2⟩
      simp [hex]

theorem Solver_AddGuess_cases (assets : Assets) (ord : RangeOrder) (s : Solver) (word : Word)
    (hints : List Hint) (r : AddGuessResult)
    (h : Solver.AddGuess assets ord s word hints = some r) :
    (MaxGuesses ≤ s.numGuesses ∧ r = ⟨s, true, none⟩)
    ∨ (s.numGuesses < MaxGuesses ∧ (s.state.AddGuess assets word hints).2 ≠ none
        ∧ r.err = (s.state.AddGuess assets word hints).2 ∧ r.done = false
        ∧ r.solver = { state := (s.state.AddGuess assets word hints).1,
                       constraints := s.constraints, solutionTree := s.solutionTree,
                       guessTree := s.guessTree, constraintMap := s.constraintMap,
                       numGuesses := s.numGuesses })
    ∨ (s.numGuesses < MaxGuesses ∧ (s.state.AddGuess assets word hints).2 = none
        ∧ hints.foldl (fun acc h => acc && decide (h = LetterCorrect)) true = true
        ∧ r.err = none ∧ r.done = true
        ∧ r.solver = { state := (s.state.AddGuess assets word hints).1,
                       constraints := s.constraints, solutionTree := s.solutionTree,
                       guessTree := s.guessTree, constraintMap := s.constraintMap,
                       numGuesses := s.numGuesses })
    ∨ (s.numGuesses < MaxGuesses ∧ (s.state.AddGuess assets word hints).2 = none
        ∧ hints.foldl (fun acc h => acc && decide (h = LetterCorrect)) true = false
        ∧ r.err = none
        ∧ r.done = decide (s.numGuesses + 1 ≥ MaxGuesses)
        ∧ r.solver.state = (s.state.AddGuess assets word hints).1
        ∧ r.solver.constraints = s.constraints.And (constraintFromPattern ord word hints)
        ∧ r.solver.solutionTree = NewWordleTree s.solutionTree.Wordles
            (s.constraints.And (constraintFromPattern ord word hints))
        ∧ r.solver.guessTree = NewWordleTree s.guessTree.Wordles
            (s.constraints.And (constraintFromPattern ord word hints))
        ∧ NewConstraintMap ord r.solver.guessTree.Wordles r.solver.solutionTree
            = some r.solver.constraintMap
        ∧ r.solver.numGuesses = s.numGuesses + 1) := by
  unfold Solver.AddGuess at h
  by_cases hn : s.numGuesses ≥ MaxGuesses
  · rw [if_pos hn] at h
    exact Or.inl ⟨hn, (Option.some.inj h).symm⟩
  · rw [if_neg hn] at h
    have hlt : s.numGuesses < MaxGuesses := by omega
    simp only at h
    cases he : (s.state.AddGuess assets word hints).2 with
    | some err =>
      rw [he] at h
      simp only at h
      have hr := (Option.some.inj h).symm
      subst hr
      exact Or.inr (Or.inl ⟨hlt, by simp, rfl, rfl, rfl⟩)
    | none =>
      rw [he] at h
      simp only at h
      by_cases hall : hints.foldl (fun acc h => acc && decide (h = LetterCorrect)) true = true
      · rw [if_pos hall] at h
        have hr := (Option.some.inj h).symm
        subst hr
        exact Or.inr (Or.inr (Or.inl ⟨hlt, rfl, hall, rfl, rfl, rfl⟩))
      · rw [if_neg hall] at h
        have hallf : hints.foldl (fun acc h => acc && decide (h = LetterCorrect)) true = false := by
          simpa using hall
        cases hm : NewConstraintMap ord
            (NewWordleTree s.guessTree.Wordles
              (s.constraints.And (constraintFromPattern ord word hints))).Wordles
            (NewWordleTree s.solutionTree.Wordles
              (s.constraints.And (constraintFromPattern ord word hints))) with
        | none =>
          rw [hm] at h
          exact absurd h (by simp)
        | some cm =>
          rw [hm] at h
          simp only at h
          have hr := (Option.some.inj h).symm
          subst hr
          exact Or.inr (Or.inr (Or.inr
            ⟨hlt, rfl, hallf, rfl, rfl, rfl, rfl, rfl, rfl, hm, rfl⟩))

/-- The error path of `Solver.AddGuess`. -/
theorem Solver_AddGuess_of_error (assets : Assets) (ord : RangeOrder) (s : Solver) (word : Word)
    (hints : List Hint) (err : String) (hn : s.numGuesses < MaxGuesses)
    (he : s.state.AddGuess assets word hints = (s.state, some err)) :
    Solver.AddGuess assets ord s word hints = some ⟨s, false, some err⟩ := by
  unfold Solver.AddGuess
  rw [if_neg (by omega)]
  simp only [he]

/-- C8: whenever `Solver.AddGuess` returns an error, the solver after the call
is the solver before the call: the running constraint, the solution tree, the
guess tree, the constraint map, the round counter and the game state with its
guess history are all unchanged. -/
theorem C8_AddGuess_error_leaves_solver_unchanged (assets : Assets) (ord : RangeOrder)
    (s : Solver) (word : Word) (hints : List Hint) (r : AddGuessResult)
    (h : Solver.AddGuess assets ord s word hints = some r) (herr : r.err ≠ none) :
    r.solver = s
    ∧ r.solver.constraints = s.constraints
    ∧ r.solver.solutionTree = s.solutionTree
    ∧ r.solver.guessTree = s.guessTree
    ∧ r.solver.constraintMap = s.constraintMap
    ∧ r.solver.numGuesses = s.numGuesses
    ∧ r.solver.state.guesses = s.state.guesses := by
  have key : r.solver = s := by
    rcases Solver_AddGuess_cases assets ord s word hints r h with
      ⟨_, hr⟩ | ⟨_, he, _, _, hs⟩ | ⟨_, _, _, hn, _⟩ | ⟨_, _, _, hn, _⟩
    · subst hr; exact absurd rfl herr
    · rw [hs, GameState_AddGuess_unchanged assets s.state word hints he]
    · exact absurd hn herr
    · exact absurd hn herr
  rw [key]
  exact ⟨rfl, rfl, rfl, rfl, rfl, rfl, rfl⟩

theorem C8_AddGuess_error_leaves_solver_unchanged_witness :
    Solver.AddGuess exampleAssets RangeOrder.insertion exampleSolver (bytes "abc")
        [LetterWrong, LetterWrong, LetterWrong, LetterWrong, LetterWrong]
      = some ⟨exampleSolver, false, some "Invalid word length 3, should be 5"⟩
    ∧ (⟨exampleSolver, false, some "Invalid word length 3, should be 5"⟩ :
        AddGuessResult).err ≠ none
    ∧ (⟨exampleSolver, false, some "Invalid word length 3, should be 5"⟩ :
        AddGuessResult).solver = exampleSolver :=
  ⟨Solver_AddGuess_of_error _ _ _ _ _ _ (by decide) (by decide), by decide,
    (C8_AddGuess_error_leaves_solver_unchanged exampleAssets RangeOrder.insertion exampleSolver
      (bytes "abc") [LetterWrong, LetterWrong, LetterWrong, LetterWrong, LetterWrong]
      ⟨exampleSolver, false, some "Invalid word length 3, should be 5"⟩
      (Solver_AddGuess_of_error _ _ _ _ _ _ (by decide) (by decide)) (by decide)).1⟩

/-- C9: for a solver with fewer than `MaxGuesses` rounds consumed and a free
slot in its guess history, `Solver.AddGuess(word, hints)` returns an error if
and only if the word is not 5 bytes long, or holds a byte that is not a
lowercase letter, or is in neither vocabulary list. -/
theorem C9_AddGuess_error_iff (assets : Assets) (ord : RangeOrder) (s : Solver) (word : Word)
    (hints : List Hint) (hn : s.numGuesses < MaxGuesses)
    (hfree : s.state.guesses.getD (MaxGuesses - 1) none = none) (hh : hints.length = 5) :
    (∃ r, Solver.AddGuess assets ord s word hints = some r ∧ r.err ≠ none)
      ↔ (word.length ≠ 5 ∨ (∃ b ∈ word, ¬ IsLower b)
          ∨ (word ∉ assets.Wordles ∧ word ∉ assets.NonWordles)) := by
  rw [← GameState_AddGuess_err_iff assets s.state word hints hfree hh]
  constructor
  · rintro ⟨r, h, herr⟩
    rcases Solver_AddGuess_cases assets ord s word hints r h with
      ⟨hge, _⟩ | ⟨_, he, _⟩ | ⟨_, _, _, hnone, _⟩ | ⟨_, _, _, hnone, _⟩
    · omega
    · exact he
    · exact absurd hnone herr
    · exact absurd hnone herr
  · intro he
    cases hv : (s.state.AddGuess assets word hints).2 with
    | none => exact absurd hv he
    | some err =>
      refine ⟨⟨s, false, some err⟩, Solver_AddGuess_of_error assets ord s word hints err hn ?_,
        by simp⟩
      have h1 := GameState_AddGuess_unchanged assets s.state word hints he
      exact Prod.ext h1 hv

theorem C9_AddGuess_error_iff_witness :
    exampleSolver.numGuesses < MaxGuesses
    ∧ exampleSolver.state.guesses.getD (MaxGuesses - 1) none = none
    ∧ [LetterWrong, LetterWrong, LetterCorrect, LetterWrong, LetterCorrect].length = 5
    ∧ ((∃ r, Solver.AddGuess exampleAssets RangeOrder.insertion exampleSolver (bytes "sl4te")
            [LetterWrong, LetterWrong, LetterCorrect, LetterWrong, LetterCorrect] = some r
          ∧ r.err ≠ none)
      ↔ ((bytes "sl4te").length ≠ 5 ∨ (∃ b ∈ bytes "sl4te", ¬ IsLower b)
          ∨ (bytes "sl4te" ∉ exampleAssets.Wordles
            ∧ bytes "sl4te" ∉ exampleAssets.NonWordles))) :=
  ⟨by decide, by decide, by decide,
    C9_AddGuess_error_iff exampleAssets RangeOrder.insertion exampleSolver (bytes "sl4te")
      [LetterWrong, LetterWrong, LetterCorrect, LetterWrong, LetterCorrect]
      (by decide) (by decide) (by decide)⟩

theorem NewConstraintMap_isSome (ord : RangeOrder) (tree : WordleTree)
    (hsome : ∀ c, ∃ b, tree.HasMatches c = some b) (wordles : List Word) :
    ∃ m, NewConstraintMap ord wordles tree = some m := by
  unfold NewConstraintMap
  generalize ([] : ConstraintMap) = acc
  induction wordles generalizing acc with
  | nil => exact ⟨acc, rfl⟩
  | cons w ws ih =>
    rw [List.foldl_cons]
    simp only
    rw [wordConstraints_eq ord tree w hsome]
    exact ih _

/-- The narrowing path of `Solver.AddGuess`, on a solver whose solution words
are 5-letter lowercase words. -/
theorem Solver_AddGuess_of_narrow (assets : Assets) (ord : RangeOrder) (s : Solver)
    (word : Word) (hints : List Hint) (hn : s.numGuesses < MaxGuesses)
    (he : (s.state.AddGuess assets word hints).2 = none)
    (hall : hints.foldl (fun acc h => acc && decide (h = LetterCorrect)) true = false)
    (hws : ∀ w ∈ s.solutionTree.Wordles, IsWord w) :
    Solver.AddGuess assets ord s word hints
      = some ⟨narrowedSolver ord s (s.state.AddGuess assets word hints).1 word hints,
          decide (s.numGuesses + 1 ≥ MaxGuesses), none⟩ := by
  obtain ⟨m, hm⟩ := NewConstraintMap_isSome ord
    (NewWordleTree s.solutionTree.Wordles
      (s.constraints.And (constraintFromPattern ord word hints)))
    (fun c => ⟨_, HasMatches_built _ _ c hws⟩)
    (NewWordleTree s.guessTree.Wordles
      (s.constraints.And (constraintFromPattern ord word hints))).Wordles
  unfold Solver.AddGuess narrowedSolver
  rw [if_neg (by omega)]
  simp only [he, hall, hm, Bool.false_eq_true, if_false, Option.getD_some]

/-- C10: after every `Solver.AddGuess` call that succeeds with hints that are
not all Correct, on a solver whose solution tree holds 5-byte words and has
`WordCount` equal to the length of its word list (as every tree built by
`NewWordleTree` has), the number of remaining solutions is at most what it was
before the call, and the new solution list is a sublist of the old one. -/
theorem C10_AddGuess_never_grows_solutions (assets : Assets) (ord : RangeOrder) (s : Solver)
    (word : Word) (hints : List Hint) (r : AddGuessResult)
    (h : Solver.AddGuess assets ord s word hints = some r) (herr : r.err = none)
    (hall : hints.foldl (fun acc h => acc && decide (h = LetterCorrect)) true = false)
    (hcount : s.solutionTree.WordCount = s.solutionTree.Wordles.length)
    (_hwords : ∀ w ∈ s.solutionTree.Wordles, w.length = WordLength) :
    r.solver.solutionTree.WordCount ≤ s.solutionTree.WordCount
      ∧ List.Sublist r.solver.solutionTree.Wordles s.solutionTree.Wordles := by
  rcases Solver_AddGuess_cases assets ord s word hints r h with
    ⟨_, hr⟩ | ⟨_, he, hre, _⟩ | ⟨_, _, htrue, _⟩ | ⟨_, _, _, _, _, _, _, hst, _⟩
  · subst hr
    exact ⟨le_refl _, List.Sublist.refl _⟩
  · rw [herr] at hre
    exact absurd hre.symm he
  · rw [hall] at htrue
    exact absurd htrue (by decide)
  · rw [hst, NewWordleTree_WordCount, NewWordleTree_Wordles, hcount]
    exact ⟨List.length_filter_le _ _, List.filter_sublist _⟩

theorem C10_AddGuess_never_grows_solutions_witness :
    Solver.AddGuess exampleAssets RangeOrder.insertion exampleSolver (bytes "slate")
        [LetterWrong, LetterWrong, LetterCorrect, LetterWrong, LetterCorrect]
      = some ⟨narrowedSolver RangeOrder.insertion exampleSolver
          (exampleSolver.state.AddGuess exampleAssets (bytes "slate")
            [LetterWrong, LetterWrong, LetterCorrect, LetterWrong, LetterCorrect]).1
          (bytes "slate") [LetterWrong, LetterWrong, LetterCorrect, LetterWrong, LetterCorrect],
          decide (exampleSolver.numGuesses + 1 ≥ MaxGuesses), none⟩
    ∧ [LetterWrong, LetterWrong, LetterCorrect, LetterWrong, LetterCorrect].foldl
        (fun acc h => acc && decide (h = LetterCorrect)) true = false
    ∧ exampleSolver.solutionTree.WordCount = exampleSolver.solutionTree.Wordles.length
    ∧ (∀ w ∈ exampleSolver.solutionTree.Wordles, w.length = WordLength)
    ∧ (narrowedSolver RangeOrder.insertion exampleSolver
          (exampleSolver.state.AddGuess exampleAssets (bytes "slate")
            [LetterWrong, LetterWrong, LetterCorrect, LetterWrong, LetterCorrect]).1
          (bytes "slate")
          [LetterWrong, LetterWrong, LetterCorrect, LetterWrong, LetterCorrect]).solutionTree.WordCount
        ≤ exampleSolver.solutionTree.WordCount
    ∧ List.Sublist
        (narrowedSolver RangeOrder.insertion exampleSolver
          (exampleSolver.state.AddGuess exampleAssets (bytes "slate")
            [LetterWrong, LetterWrong, LetterCorrect, LetterWrong, LetterCorrect]).1
          (bytes "slate")
          [LetterWrong, LetterWrong, LetterCorrect, LetterWrong, LetterCorrect]).solutionTree.Wordles
        exampleSolver.solutionTree.Wordles :=
  ⟨Solver_AddGuess_of_narrow _ _ _ _ _ (by decide) (by decide) (by decide) (by decide),
    by decide, by decide, by decide,
    C10_AddGuess_never_grows_solutions exampleAssets RangeOrder.insertion exampleSolver
      (bytes "slate") [LetterWrong, LetterWrong, LetterCorrect, LetterWrong, LetterCorrect] _
      (Solver_AddGuess_of_narrow _ _ _ _ _ (by decide) (by decide) (by decide) (by decide))
      rfl (by decide) (by decide) (by decide)⟩

/-! ## C11: ranking when one solution remains -/

/-- C11: for every solver whose solution tree holds exactly one word `w`
(`WordCount` is 1 and `Wordles` is that word) and for every `n`, zero and
negative values included, `topNWords(n)` returns the list of exactly one entry:
`w` with utility 0. -/
theorem C11_topNWords_single_solution (fl : FloatOps) (s : Solver) (w : Word) (n : Int)
    (hcount : s.solutionTree.WordCount = 1) (hwords : s.solutionTree.Wordles = [w]) :
    s.topNWords fl n = some [(w, fl.zero)] := by
  unfold Solver.topNWords
  rw [if_pos hcount, hwords]

theorem C11_topNWords_single_solution_witness :
    singleSolver.solutionTree.WordCount = 1
    ∧ singleSolver.solutionTree.Wordles = [bytes "crane"]
    ∧ singleSolver.topNWords exampleFloatOps 0 = some [(bytes "crane", exampleFloatOps.zero)] :=
  ⟨by decide, by decide,
    C11_topNWords_single_solution exampleFloatOps singleSolver (bytes "crane") 0
      (by decide) (by decide)⟩

/-! ## C15: the positional component of `And` -/

/-- C15: for all Constraints `a`, `b` and `c`, the positional component
(`Letters`) of `a.And(b)` equals that of `b.And(a)`, and the positional
component of `a.And(b).And(c)` equals that of `a.And(b.And(c))`. -/
theorem C15_And_Letters_comm_assoc (a b c : Constraint) :
    (a.And b).Letters = (b.And a).Letters
    ∧ ((a.And b).And c).Letters = (a.And (b.And c)).Letters := by
  constructor
  · unfold Constraint.And
    simp only [Nat.land_comm]
  · unfold Constraint.And
    simp only [List.getD_cons_zero, List.getD_cons_succ, Nat.land_assoc]

/-! ## C17: what a match says about Correct and Transposed positions -/

theorem needed_pos (word : Word) (pattern : Pattern) {i : Nat} (hi : i < WordLength)
    (hp : pattern.getD i 0 = LetterCorrect ∨ pattern.getD i 0 = LetterTransposed) :
    1 ≤ needed word pattern (word.getD i 0) := by
  unfold needed neededUpTo
  apply List.length_pos_of_mem (a := i)
  rw [List.mem_filter]
  refine ⟨List.mem_range.mpr hi, ?_⟩
  rcases hp with hp | hp
  · simp [-List.getD_eq_getElem?_getD, hp]
  · simp [-List.getD_eq_getElem?_getD, hp]

theorem countChar_pos (w : Word) (ch : Nat) (h : 1 ≤ countChar w ch) :
    ∃ j, j < WordLength ∧ w.getD j 0 = ch := by
  unfold countChar at h
  obtain ⟨j, hj⟩ := List.exists_mem_of_length_pos h
  rw [List.mem_filter] at hj
  exact ⟨j, List.mem_range.mp hj.1, by simpa using hj.2⟩

/-- C17: for every 5-letter lowercase guess `g`, every pattern `p` and every
5-letter lowercase word `w`, whatever the order in which the Go map of counts is
ranged over: if `constraintFromPattern(g, p).Matches(w)` is true, then at every
position `i` with `p[i] = Correct` the word has `w[i] = g[i]`, and at every
position `i` with `p[i] = Transposed` the letter `w[i]` differs from `g[i]` and
the letter `g[i]` occurs somewhere in `w`. -/
theorem C17_Matches_respects_Correct_and_Transposed (ord : RangeOrder) (g w : Word)
    (p : Pattern) (hg : IsWord g) (hw : IsWord w)
    (hm : (constraintFromPattern ord g p).Matches w = true) :
    ∀ i, i < WordLength →
      (p.getD i 0 = LetterCorrect → w.getD i 0 = g.getD i 0)
      ∧ (p.getD i 0 = LetterTransposed →
          w.getD i 0 ≠ g.getD i 0 ∧ ∃ j, j < WordLength ∧ w.getD j 0 = g.getD i 0) := by
  obtain ⟨hA, hN⟩ := (constraintFromPattern_Matches ord g p w hg hw).mp hm
  intro i hi
  have hAi := hA i hi
  unfold allowedAfter at hAi
  constructor
  · intro hc
    rw [if_pos ⟨hi, hc⟩] at hAi
    exact hAi
  · intro ht
    have hnc : ¬ (i < WordLength ∧ p.getD i 0 = LetterCorrect) := by
      rintro ⟨_, hc⟩
      rw [ht] at hc
      exact absurd hc (by decide)
    rw [if_neg hnc] at hAi
    refine ⟨fun e => hAi.1 ⟨hi, Or.inr ht, e⟩, ?_⟩
    exact countChar_pos w _ (le_trans (needed_pos g p hi (Or.inr ht)) (hN _))

theorem C17_Matches_respects_Correct_and_Transposed_witness :
    IsWord (bytes "slate") ∧ IsWord (bytes "crane")
    ∧ (constraintFromPattern RangeOrder.insertion (bytes "slate") [1, 1, 3, 2, 3]).Matches
        (bytes "crane") = false
    ∧ (constraintFromPattern RangeOrder.insertion (bytes "slate") [1, 1, 3, 1, 3]).Matches
        (bytes "crane") = true
    ∧ ∀ i, i < WordLength →
      (([1, 1, 3, 1, 3] : Pattern).getD i 0 = LetterCorrect →
        (bytes "crane").getD i 0 = (bytes "slate").getD i 0)
      ∧ (([1, 1, 3, 1, 3] : Pattern).getD i 0 = LetterTransposed →
          (bytes "crane").getD i 0 ≠ (bytes "slate").getD i 0
          ∧ ∃ j, j < WordLength ∧ (bytes "crane").getD j 0 = (bytes "slate").getD i 0) :=
  ⟨by decide, by decide, by decide, by decide,
    C17_Matches_respects_Correct_and_Transposed RangeOrder.insertion (bytes "slate")
      (bytes "crane") [1, 1, 3, 1, 3] (by decide) (by decide) (by decide)⟩

/-! ## C18: the hints of `Game.Guess` pass `isValidPattern` -/

theorem sliceIndex_eq_none (s : List Nat) (v : Nat) : sliceIndex s v = none ↔ v ∉ s := by
  induction s with
  | nil => simp [sliceIndex]
  | cons x rest ih =>
    unfold sliceIndex
    by_cases h : x = v
    · rw [if_pos h]
      simp [h]
    · rw [if_neg h, Option.map_eq_none', ih, List.mem_cons, not_or]
      exact ⟨fun hn => ⟨fun e => h e.symm, hn⟩, fun hn => hn.2⟩

theorem foldl_invariant {σ α : Type} (P : σ → Prop) (f : σ → α → σ)
    (hf : ∀ s a, P s → P (f s a)) : ∀ (l : List α) (s : σ), P s → P (l.foldl f s) := by
  intro l
  induction l with
  | nil => intro s hs; exact hs
  | cons a l ih => intro s hs; exact ih _ (hf s a hs)

/-- The loop `Check correct letter` leaves no `LetterTransposed` in `hints`. -/
theorem afterCorrect_hints (secret word : Word) (j : Nat) :
    (afterCorrect secret word).2.getD j 0 ≠ LetterTransposed := by
  have h := foldl_invariant
    (fun st : List Nat × List Hint => ∀ j, st.2.getD j 0 ≠ LetterTransposed)
    (markCorrect word)
    (by
      intro st i hst j
      unfold markCorrect
      by_cases hc : word.getD i 0 = st.1.getD i 0
      · rw [if_pos hc]
        show (st.2.set i LetterCorrect).getD j 0 ≠ LetterTransposed
        rw [getD_set]
        by_cases hj : j = i ∧ i < st.2.length
        · rw [if_pos hj]; decide
        · rw [if_neg hj]; exact hst j
      · rw [if_neg hc]; exact hst j)
    (List.range WordLength)
    (secret, (List.range WordLength).foldl (fun hints i => hints.set i LetterWrong)
      [0, 0, 0, 0, 0])
    (by
      intro j
      have e : (List.range WordLength).foldl (fun (hints : List Hint) i =>
          hints.set i LetterWrong) [0, 0, 0, 0, 0] = [1, 1, 1, 1, 1] := by decide
      show List.getD ((List.range WordLength).foldl (fun (hints : List Hint) i =>
          hints.set i LetterWrong) [0, 0, 0, 0, 0]) j 0 ≠ LetterTransposed
      rw [e]
      match j with
      | 0 => decide
      | 1 => decide
      | 2 => decide
      | 3 => decide
      | 4 => decide
      | (n + 5) =>
        intro h
        simp [LetterTransposed] at h)
  exact h j

theorem afterTransposed_succ (secret word : Word) (k : Nat) :
    afterTransposed secret word (k + 1)
      = markTransposed word (afterTransposed secret word k) k := by
  unfold afterTransposed
  rw [List.range_succ, List.foldl_append]
  rfl

/-- A byte other than '?' that the bag does not hold is not put into it by an
iteration of the loop `Check transposed letters`. -/
theorem markTransposed_bag (word : Word) (st : List Nat × List Hint) (i x : Nat)
    (hx : x ≠ 63) (h : x ∉ st.1) : x ∉ (markTransposed word st i).1 := by
  unfold markTransposed
  cases hs : sliceIndex st.1 (word.getD i 0) with
  | none => exact h
  | some index =>
    intro hm
    rcases List.mem_or_eq_of_mem_set hm with hm | hm
    · exact h hm
    · exact hx hm

theorem afterTransposed_bag (secret word : Word) (x : Nat) (hx : x ≠ 63) (i : Nat)
    (h : x ∉ (afterTransposed secret word i).1) :
    ∀ d, x ∉ (afterTransposed secret word (i + d)).1 := by
  intro d
  induction d with
  | zero => exact h
  | succ d ih =>
    rw [← Nat.add_assoc, afterTransposed_succ]
    exact markTransposed_bag word _ _ x hx ih

/-- The hint of position `j` after `k` iterations of the loop `Check transposed
letters`: it is Transposed only if iteration `j` has run and found the letter in
the bag, and it is Wrong after iteration `j` only if that iteration did not find
the letter in the bag. -/
theorem afterTransposed_hint (secret word : Word) (k j : Nat) :
    ((afterTransposed secret word k).2.getD j 0 = LetterTransposed →
        j < k ∧ word.getD j 0 ∈ (afterTransposed secret word j).1)
    ∧ ((afterTransposed secret word k).2.getD j 0 = LetterWrong → j < k →
        word.getD j 0 ∉ (afterTransposed secret word j).1) := by
  induction k with
  | zero =>
    refine ⟨fun h => absurd h (afterCorrect_hints secret word j), fun _ hj => ?_⟩
    exact absurd hj (Nat.not_lt_zero j)
  | succ k ih =>
    rw [afterTransposed_succ]
    unfold markTransposed
    cases hs : sliceIndex (afterTransposed secret word k).1 (word.getD k 0) with
    | none =>
      show ((afterTransposed secret word k).2.getD j 0 = LetterTransposed → _)
        ∧ ((afterTransposed secret word k).2.getD j 0 = LetterWrong → _)
      refine ⟨fun h => ⟨Nat.lt_succ_of_lt (ih.1 h).1, (ih.1 h).2⟩, fun h hj => ?_⟩
      rcases Nat.lt_succ_iff_lt_or_eq.mp hj with hj | hj
      · exact ih.2 h hj
      · rw [hj]
        exact (sliceIndex_eq_none _ _).mp hs
    | some index =>
      show (((afterTransposed secret word k).2.set k LetterTransposed).getD j 0
          = LetterTransposed → _)
        ∧ (((afterTransposed secret word k).2.set k LetterTransposed).getD j 0
          = LetterWrong → _)
      rw [getD_set]
      have hfound : word.getD k 0 ∈ (afterTransposed secret word k).1 := by
        by_contra hn
        rw [(sliceIndex_eq_none _ _).mpr hn] at hs
        exact absurd hs (by simp)
      by_cases hjk : j = k ∧ k < (afterTransposed secret word k).2.length
      · rw [if_pos hjk]
        refine ⟨fun _ => ⟨by omega, ?_⟩, fun h => absurd h (by decide)⟩
        rw [hjk.1]
        exact hfound
      · rw [if_neg hjk]
        refine ⟨fun h => ⟨Nat.lt_succ_of_lt (ih.1 h).1, (ih.1 h).2⟩, fun h hj => ?_⟩
        rcases Nat.lt_succ_iff_lt_or_eq.mp hj with hj | hj
        · exact ih.2 h hj
        · exfalso
          -- the hint of position `k` is still the one of the first loop, and
          -- iteration `k` found the letter: the slot is out of range
          have hlen : (afterTransposed secret word k).2.length ≤ j := by
            rw [hj]
            exact Nat.le_of_not_lt (fun hlt => hjk ⟨hj, hlt⟩)
          rw [List.getD_eq_default _ _ hlen] at h
          exact absurd h (by decide)

/-- C18: for every secret of five bytes and every guess of five lowercase
letters, the hints that `Game.Guess` computes for the guess against the secret
are accepted by `isValidPattern`. -/
theorem C18_Guess_hints_pass_isValidPattern (secret word : Word)
    (hsecret : secret.length = WordLength) (hword : IsWord word) :
    isValidPattern word (guessHints secret word) = true := by
  have _ := hsecret
  unfold isValidPattern
  rw [List.all_eq_true]
  intro i hi
  have hi5 := List.mem_range.mp hi
  by_cases hw : (guessHints secret word).getD i 0 = LetterWrong
  · rw [if_pos hw, List.all_eq_true]
    intro j hj
    rw [List.mem_range'_1] at hj
    have hnot := (afterTransposed_hint secret word WordLength i).2 hw hi5
    have hx : word.getD i 0 ≠ 63 := by
      have hl := hword.2 (word.getD i 0) (by
        rw [List.getD_eq_getElem word 0 (by rw [hword.1]; exact hi5)]
        exact List.getElem_mem _)
      unfold IsLower at hl
      omega
    have hlater := afterTransposed_bag secret word _ hx i hnot (j - i)
    rw [Nat.add_sub_cancel' (by omega)] at hlater
    simp only [Bool.not_eq_true', Bool.and_eq_false_imp, decide_eq_true_eq, decide_eq_false_iff_not]
    intro heq ht
    have := ((afterTransposed_hint secret word WordLength j).1 ht).2
    rw [← heq] at this
    exact hlater this
  · rw [if_neg hw]

theorem C18_Guess_hints_pass_isValidPattern_witness :
    (bytes "sassy").length = WordLength ∧ IsWord (bytes "slate")
    ∧ guessHints (bytes "sassy") (bytes "slate")
        = [LetterTransposed, LetterWrong, LetterTransposed, LetterWrong, LetterWrong]
    ∧ isValidPattern (bytes "slate") (guessHints (bytes "sassy") (bytes "slate")) = true :=
  ⟨by decide, by decide, by decide,
    C18_Guess_hints_pass_isValidPattern (bytes "sassy") (bytes "slate") (by decide) (by decide)⟩

/-! ## C19, C20: the play-mode game -/

/-- C19 (code bug): for the secret "sassy" and the guess "slate", position 0
holds the same letter in both, and `Game.Guess` assigns it `LetterTransposed`,
not `LetterCorrect`: the loop `Check transposed letters` runs over every
position, finds the second 's' of the secret in the bag and overwrites the hint
of position 0. The call returns without error and records these hints. -/
theorem C19_Guess_overwrites_Correct :
    (bytes "slate").getD 0 0 = (bytes "sassy").getD 0 0
    ∧ guessHints (bytes "sassy") (bytes "slate")
        = [LetterTransposed, LetterWrong, LetterTransposed, LetterWrong, LetterWrong]
    ∧ ((NewGame (bytes "sassy")).Guess exampleAssets (bytes "slate")).2 = (false, none)
    ∧ ((NewGame (bytes "sassy")).Guess exampleAssets (bytes "slate")).1.state.guesses.getD 0 none
        = some ⟨bytes "slate",
            [LetterTransposed, LetterWrong, LetterTransposed, LetterWrong, LetterWrong]⟩ := by
  refine ⟨by decide, by decide, by decide, by decide⟩

theorem GameState_AddGuess_full (assets : Assets) (gs : GameState) (word : Word)
    (hints : List Hint) (hfull : gs.guesses.getD (MaxGuesses - 1) none ≠ none) :
    gs.AddGuess assets word hints
      = (gs, some ("Exceeded maximum number of guesses: " ++ toString MaxGuesses)) := by
  unfold GameState.AddGuess
  rw [if_pos hfull]

theorem GameState_AddGuess_not_ascii (assets : Assets) (gs : GameState) (word : Word)
    (hints : List Hint) (hfree : gs.guesses.getD (MaxGuesses - 1) none = none)
    (hword : word.length = 5) (hhints : hints.length = 5) (hbad : isAscii word = false) :
    gs.AddGuess assets word hints
      = (gs, some ("Exceeded maximum number of guesses: " ++ toString MaxGuesses)) := by
  unfold GameState.AddGuess
  rw [if_neg (fun h => h hfree), if_neg (fun h => h hword), if_neg (fun h => h hhints),
    if_pos (by rw [hbad]; rfl)]

/-- C20 (code bug): on a fresh game state, `GameState.AddGuess` with the
5-character word "sl4te" (the character '4' is outside 'a'..'z') returns the
error "Exceeded maximum number of guesses: 6"; on a game state that holds six
guesses, `GameState.AddGuess` with the valid word "slate" returns the same
error: the two kinds of error are not told apart. -/
theorem C20_invalid_characters_error_is_rounds_exhausted_error :
    isAscii (bytes "sl4te") = false
    ∧ (NewGameState.AddGuess exampleAssets (bytes "sl4te")
        [LetterWrong, LetterWrong, LetterWrong, LetterWrong, LetterWrong]).2
      = some "Exceeded maximum number of guesses: 6"
    ∧ fullGameState.guesses.all (fun g => g.isSome) = true
    ∧ (fullGameState.AddGuess exampleAssets (bytes "slate")
        [LetterWrong, LetterWrong, LetterWrong, LetterWrong, LetterWrong]).2
      = some "Exceeded maximum number of guesses: 6" := by
  refine ⟨by decide, ?_, by decide, ?_⟩
  · rw [GameState_AddGuess_not_ascii _ _ _ _ (by decide) (by decide) (by decide) (by decide)]
    decide
  · rw [GameState_AddGuess_full _ _ _ _ (by decide)]
    decide

/-! ## C13: the count entries of `And` -/

theorem entryCount_cons (x : MinCountConstraint) (xs : List MinCountConstraint) (ch : Nat) :
    entryCount (x :: xs) ch = if x.Char = ch then x.Count else entryCount xs ch := by
  unfold entryCount
  rw [List.find?_cons]
  by_cases h : x.Char = ch
  · simp [h]
  · simp [h]

theorem entryCount_absent (cs : List MinCountConstraint) (ch : Nat)
    (h : ∀ e ∈ cs, e.Char ≠ ch) : entryCount cs ch = 0 := by
  induction cs with
  | nil => rfl
  | cons x xs ih =>
    rw [entryCount_cons, if_neg (h x (List.mem_cons_self x xs))]
    exact ih (fun e he => h e (List.mem_cons_of_mem x he))

theorem entryCount_absent_getD (cs : List MinCountConstraint) (hlen : cs.length = WordLength)
    (ch : Nat) (h : ∀ i, i < WordLength → (cs.getD i MinCountConstraint.zero).Char ≠ ch) :
    entryCount cs ch = 0 :=
  entryCount_absent cs ch ((forall_mem_iff_getD cs hlen (fun e => e.Char ≠ ch)).mpr h)

theorem entryCount_slot (cs : List MinCountConstraint) (hp : PackedLetters cs) {ch i : Nat}
    (hch : ch ≠ 0) (hi : i < WordLength)
    (h : (cs.getD i MinCountConstraint.zero).Char = ch) :
    entryCount cs ch = (cs.getD i MinCountConstraint.zero).Count := by
  obtain ⟨hlen, _, hdist⟩ := hp
  have hil : i < cs.length := by rw [hlen]; exact hi
  unfold entryCount
  cases hf : cs.find? (fun e => decide (e.Char = ch)) with
  | none =>
    exfalso
    rw [List.find?_eq_none] at hf
    have := hf (cs.getD i MinCountConstraint.zero) (by
      rw [List.getD_eq_getElem cs _ hil]
      exact List.getElem_mem hil)
    simp [-List.getD_eq_getElem?_getD, h] at this
  | some e =>
    have hpe := List.find?_some hf
    have hmem := List.mem_of_find?_eq_some hf
    obtain ⟨j, hj, hje⟩ := List.getElem_of_mem hmem
    have hj5 : j < WordLength := by rw [← hlen]; exact hj
    have hjd : cs.getD j MinCountConstraint.zero = e := by
      rw [List.getD_eq_getElem cs _ hj]; exact hje
    have hec : e.Char = ch := by simpa using hpe
    have hij : j = i := by
      by_contra hne
      rcases Nat.lt_or_gt_of_ne hne with hlt | hgt
      · exact hdist j hj5 i hi hlt (by rw [hjd, hec]; exact hch) (by rw [hjd, hec, h])
      · exact hdist i hi j hj5 hgt (by rw [h]; exact hch) (by rw [hjd, hec, h])
    show e.Count = _
    rw [← hjd, hij]

/-- The facts about one run of the inner loop of `And` from which the count of
every letter after the run follows. -/
theorem entryCount_after (comb r : List MinCountConstraint) (x : MinCountConstraint)
    (hc : PackedLetters comb) (hr : PackedLetters r) (ch : Nat) (hch : ch ≠ 0)
    (hkeep : x.Char ≠ ch → ∀ j, j < WordLength →
      ((r.getD j MinCountConstraint.zero).Char = ch
        ↔ (comb.getD j MinCountConstraint.zero).Char = ch)
      ∧ ((comb.getD j MinCountConstraint.zero).Char = ch →
          r.getD j MinCountConstraint.zero = comb.getD j MinCountConstraint.zero))
    (hnew : x.Char = ch → ∃ j, j < WordLength ∧ (r.getD j MinCountConstraint.zero).Char = ch
      ∧ (r.getD j MinCountConstraint.zero).Count = max (entryCount comb ch) x.Count) :
    ((∃ i, i < WordLength ∧ (r.getD i MinCountConstraint.zero).Char = ch)
        ↔ (∃ i, i < WordLength ∧ (comb.getD i MinCountConstraint.zero).Char = ch) ∨ x.Char = ch)
    ∧ entryCount r ch
        = if x.Char = ch then max (entryCount comb ch) x.Count else entryCount comb ch := by
  by_cases hx : x.Char = ch
  · obtain ⟨j, hj, hjc, hjn⟩ := hnew hx
    rw [if_pos hx]
    refine ⟨⟨fun _ => Or.inr hx, fun _ => ⟨j, hj, hjc⟩⟩, ?_⟩
    rw [entryCount_slot r hr hch hj hjc, hjn]
  · rw [if_neg hx]
    have hk := hkeep hx
    constructor
    · constructor
      · rintro ⟨i, hi, hic⟩
        exact Or.inl ⟨i, hi, (hk i hi).1.mp hic⟩
      · rintro (⟨i, hi, hic⟩ | h)
        · exact ⟨i, hi, (hk i hi).1.mpr hic⟩
        · exact absurd h hx
    · by_cases hn : ∃ i, i < WordLength ∧ (comb.getD i MinCountConstraint.zero).Char = ch
      · obtain ⟨i, hi, hic⟩ := hn
        rw [entryCount_slot comb hc hch hi hic,
          entryCount_slot r hr hch hi ((hk i hi).1.mpr hic), (hk i hi).2 hic]
      · rw [entryCount_absent_getD comb hc.1 ch (fun i hi h => hn ⟨i, hi, h⟩),
          entryCount_absent_getD r hr.1 ch (fun i hi h => hn ⟨i, hi, (hk i hi).1.mp h⟩)]

/-- One run of the inner loop of `And` on packed entries with distinct letters,
when the letters in play fit in the five slots: the entries stay so, and the
count held for a letter becomes the maximum with the count of the merged entry
if that entry names the letter, and is unchanged otherwise. -/
theorem mergeCount_max (U : List Nat) (hUl : U.length ≤ WordLength)
    (comb : List MinCountConstraint) (hp : PackedLetters comb)
    (hsub : ∀ i, i < WordLength → (comb.getD i MinCountConstraint.zero).Char ≠ 0 →
      (comb.getD i MinCountConstraint.zero).Char ∈ U)
    (x : MinCountConstraint) (hxU : x.Char ≠ 0 → x.Char ∈ U) :
    PackedLetters (mergeCount x (List.range WordLength) comb)
    ∧ (∀ i, i < WordLength →
        ((mergeCount x (List.range WordLength) comb).getD i MinCountConstraint.zero).Char ≠ 0 →
        ((mergeCount x (List.range WordLength) comb).getD i MinCountConstraint.zero).Char ∈ U)
    ∧ ∀ ch, ch ≠ 0 →
      ((∃ i, i < WordLength
          ∧ ((mergeCount x (List.range WordLength) comb).getD i MinCountConstraint.zero).Char = ch)
        ↔ (∃ i, i < WordLength ∧ (comb.getD i MinCountConstraint.zero).Char = ch) ∨ x.Char = ch)
      ∧ entryCount (mergeCount x (List.range WordLength) comb) ch
          = if x.Char = ch then max (entryCount comb ch) x.Count else entryCount comb ch := by
  obtain ⟨hlen, hpack, hdist⟩ := hp
  rcases mergeCount_range x comb with ⟨he, hall⟩ | ⟨k, hk, hpre, hA | hB⟩
  · -- no slot takes the entry: it names no letter
    rw [he]
    have hx0 : x.Char = 0 := by
      by_contra hx
      have hnd : (x.Char :: (List.range WordLength).map
          (fun i => (comb.getD i MinCountConstraint.zero).Char)).Nodup := by
        rw [List.nodup_cons]
        constructor
        · intro hm
          rw [List.mem_map] at hm
          obtain ⟨k, hk, hke⟩ := hm
          exact (hall k (List.mem_range.mp hk)).1 hke
        · apply List.Nodup.map_on _ (List.nodup_range _)
          intro a ha b hb hab
          rw [List.mem_range] at ha hb
          by_contra hne
          rcases Nat.lt_or_gt_of_ne hne with hlt | hgt
          · exact hdist a ha b hb hlt (hall a ha).2 hab
          · exact hdist b hb a ha hgt (hall b hb).2 hab.symm
      have hss : (x.Char :: (List.range WordLength).map
          (fun i => (comb.getD i MinCountConstraint.zero).Char)) ⊆ U := by
        intro ch hch
        rcases List.mem_cons.mp hch with rfl | hch
        · exact hxU hx
        · rw [List.mem_map] at hch
          obtain ⟨k, hk, rfl⟩ := hch
          rw [List.mem_range] at hk
          exact hsub k hk (hall k hk).2
      have hle := (List.subperm_of_subset hnd hss).length_le
      simp [WordLength] at hle hUl
      omega
    refine ⟨⟨hlen, hpack, hdist⟩, hsub, fun ch hch => ?_⟩
    have hxc : ¬ x.Char = ch := fun e => hch (by rw [← e, hx0])
    rw [if_neg hxc]
    exact ⟨⟨fun h => Or.inl h, fun h => h.resolve_right hxc⟩, rfl⟩
  · -- a slot with the same letter: the counts are merged
    obtain ⟨hsame, hres⟩ := hA
    rw [hres]
    have hkl : k < comb.length := by rw [hlen]; exact hk
    have hchar : ∀ j, ((comb.set k ⟨(comb.getD k MinCountConstraint.zero).Char,
        max (comb.getD k MinCountConstraint.zero).Count x.Count⟩).getD j
          MinCountConstraint.zero).Char = (comb.getD j MinCountConstraint.zero).Char := by
      intro j
      rw [getD_set]
      by_cases hj : j = k
      · subst hj; simp [hkl]
      · simp [hj]
    have hr : PackedLetters (comb.set k ⟨(comb.getD k MinCountConstraint.zero).Char,
        max (comb.getD k MinCountConstraint.zero).Count x.Count⟩) := by
      refine ⟨by rw [List.length_set]; exact hlen, ?_, ?_⟩
      · intro a ha b hb hab
        rw [hchar, hchar]
        exact hpack a ha b hb hab
      · intro a ha b hb hab
        rw [hchar, hchar]
        exact hdist a ha b hb hab
    refine ⟨hr, ?_, fun ch hch => ?_⟩
    · intro a ha
      rw [hchar]
      exact hsub a ha
    · apply entryCount_after comb _ x ⟨hlen, hpack, hdist⟩ hr ch hch
      · intro hx j hj
        refine ⟨by rw [hchar], fun hjc => ?_⟩
        rw [getD_set, if_neg]
        rintro ⟨hjk, _⟩
        rw [hjk, hsame] at hjc
        exact hx hjc
      · intro hx
        refine ⟨k, hk, by rw [hchar, hsame, hx], ?_⟩
        rw [getD_set, if_pos ⟨rfl, hkl⟩,
          entryCount_slot comb ⟨hlen, hpack, hdist⟩ hch hk (by rw [hsame, hx])]
  · -- an unused slot: the entry is stored there
    obtain ⟨hne, hzero, hres⟩ := hB
    rw [hres]
    have hkl : k < comb.length := by rw [hlen]; exact hk
    have hx0 : x.Char ≠ 0 := fun e => hne (by rw [hzero, e])
    have hlater : ∀ j, j < WordLength → k < j →
        (comb.getD j MinCountConstraint.zero).Char = 0 :=
      fun j hj hkj => hpack k hk j hj hkj hzero
    have habs : ∀ j, j < WordLength → (comb.getD j MinCountConstraint.zero).Char ≠ x.Char := by
      intro j hj
      rcases Nat.lt_trichotomy j k with hlt | heq | hgt
      · exact (hpre j hlt).1
      · rw [heq]; exact hne
      · rw [hlater j hj hgt]; exact fun e => hx0 e.symm
    have hat : ∀ j, (comb.set k x).getD j MinCountConstraint.zero
        = if j = k then x else comb.getD j MinCountConstraint.zero := by
      intro j
      rw [getD_set]
      by_cases hj : j = k
      · rw [if_pos ⟨hj, hkl⟩, if_pos hj]
      · rw [if_neg (fun h => hj h.1), if_neg hj]
    have hr : PackedLetters (comb.set k x) := by
      refine ⟨by rw [List.length_set]; exact hlen, ?_, ?_⟩
      · intro a ha b hb hab
        rw [hat, hat]
        by_cases hak : a = k
        · rw [if_pos hak]
          intro h
          exact absurd h hx0
        · rw [if_neg hak]
          intro h
          have hka : k < a := by
            by_contra hle
            exact (hpre a (by omega)).2 h
          rw [if_neg (by omega)]
          exact hlater b hb (by omega)
      · intro a ha b hb hab
        rw [hat, hat]
        by_cases hak : a = k
        · rw [if_pos hak, if_neg (by omega)]
          intro _
          rw [hlater b hb (by omega)]
          exact hx0
        · rw [if_neg hak]
          by_cases hbk : b = k
          · rw [if_pos hbk]
            intro _
            exact habs a ha
          · rw [if_neg hbk]
            exact hdist a ha b hb hab
    refine ⟨hr, ?_, fun ch hch => ?_⟩
    · intro a ha
      rw [hat]
      by_cases hak : a = k
      · rw [if_pos hak]
        exact hxU
      · rw [if_neg hak]
        exact hsub a ha
    · apply entryCount_after comb _ x ⟨hlen, hpack, hdist⟩ hr ch hch
      · intro hx j hj
        rw [hat]
        by_cases hjk : j = k
        · rw [if_pos hjk, hjk]
          refine ⟨⟨fun h => absurd h hx, fun h => ?_⟩, fun h => ?_⟩
          · rw [hzero] at h
            exact absurd h.symm hch
          · rw [hzero] at h
            exact absurd h.symm hch
        · rw [if_neg hjk]
          exact ⟨Iff.rfl, fun _ => rfl⟩
      · intro hx
        refine ⟨k, hk, by rw [hat, if_pos rfl]; exact hx, ?_⟩
        rw [hat, if_pos rfl, entryCount_absent_getD comb hlen ch
          (fun j hj => by rw [← hx]; exact habs j hj)]
        exact (Nat.max_eq_right (Nat.zero_le _)).symm

/-- The outer loop of `And` over the entries `xs` of the other operand, which
name distinct letters, when the letters of both operands fit in the five slots. -/
theorem mergeCount_foldl_max (U : List Nat) (hUl : U.length ≤ WordLength)
    (xs : List MinCountConstraint)
    (hxsU : ∀ x ∈ xs, x.Char ≠ 0 → x.Char ∈ U)
    (hxsd : xs.Pairwise (fun x y => x.Char ≠ 0 → x.Char ≠ y.Char)) :
    ∀ comb : List MinCountConstraint, PackedLetters comb →
      (∀ i, i < WordLength → (comb.getD i MinCountConstraint.zero).Char ≠ 0 →
        (comb.getD i MinCountConstraint.zero).Char ∈ U) →
      PackedLetters (xs.foldl (fun cc x => mergeCount x (List.range WordLength) cc) comb)
      ∧ ∀ ch, ch ≠ 0 →
        ((∃ i, i < WordLength
            ∧ ((xs.foldl (fun cc x => mergeCount x (List.range WordLength) cc) comb).getD i
                MinCountConstraint.zero).Char = ch)
          ↔ (∃ i, i < WordLength ∧ (comb.getD i MinCountConstraint.zero).Char = ch)
            ∨ ∃ x ∈ xs, x.Char = ch)
        ∧ entryCount (xs.foldl (fun cc x => mergeCount x (List.range WordLength) cc) comb) ch
            = max (entryCount comb ch) (entryCount xs ch) := by
  induction xs with
  | nil =>
    intro comb hp _
    refine ⟨hp, fun ch _ => ⟨?_, ?_⟩⟩
    · simp
    · show entryCount comb ch = max (entryCount comb ch) 0
      exact (Nat.max_eq_left (Nat.zero_le _)).symm
  | cons x xs ih =>
    intro comb hp hsub
    obtain ⟨hp1, hsub1, hstep⟩ := mergeCount_max U hUl comb hp hsub x
      (hxsU x (List.mem_cons_self x xs))
    rw [List.pairwise_cons] at hxsd
    obtain ⟨hp2, hrest⟩ := ih (fun y hy => hxsU y (List.mem_cons_of_mem x hy)) hxsd.2 _ hp1 hsub1
    rw [List.foldl_cons]
    refine ⟨hp2, fun ch hch => ?_⟩
    obtain ⟨hn2, he2⟩ := hrest ch hch
    obtain ⟨hn1, he1⟩ := hstep ch hch
    constructor
    · rw [hn2, hn1]
      constructor
      · rintro ((h | h) | ⟨y, hy, hyc⟩)
        · exact Or.inl h
        · exact Or.inr ⟨x, List.mem_cons_self x xs, h⟩
        · exact Or.inr ⟨y, List.mem_cons_of_mem x hy, hyc⟩
      · rintro (h | ⟨y, hy, hyc⟩)
        · exact Or.inl (Or.inl h)
        · rcases List.mem_cons.mp hy with rfl | hy
          · exact Or.inl (Or.inr hyc)
          · exact Or.inr ⟨y, hy, hyc⟩
    · rw [he2, he1, entryCount_cons]
      by_cases hx : x.Char = ch
      · rw [if_pos hx, if_pos hx, entryCount_absent xs ch (fun e he hec =>
          hxsd.1 e he (by rw [hx]; exact hch) (by rw [hx, hec]))]
        exact Nat.max_eq_left (Nat.zero_le _)
      · rw [if_neg hx, if_neg hx]

theorem PackedLetters_pairwise (cs : List MinCountConstraint) (hp : PackedLetters cs) :
    cs.Pairwise (fun x y => x.Char ≠ 0 → x.Char ≠ y.Char) := by
  obtain ⟨hlen, _, hdist⟩ := hp
  rw [List.pairwise_iff_getElem]
  intro i j hi hj hij
  have := hdist i (by rw [← hlen]; exact hi) j (by rw [← hlen]; exact hj) hij
  rw [List.getD_eq_getElem cs _ hi, List.getD_eq_getElem cs _ hj] at this
  exact this

theorem mem_usedLetters (cs : List MinCountConstraint) (hlen : cs.length = WordLength)
    (ch : Nat) :
    ch ∈ usedLetters cs
      ↔ ch ≠ 0 ∧ ∃ i, i < WordLength ∧ (cs.getD i MinCountConstraint.zero).Char = ch := by
  unfold usedLetters
  rw [List.mem_filter, List.mem_map]
  constructor
  · rintro ⟨⟨e, he, hec⟩, h0⟩
    obtain ⟨i, hi, hie⟩ := List.getElem_of_mem he
    refine ⟨by simpa using h0, i, by rw [← hlen]; exact hi, ?_⟩
    rw [List.getD_eq_getElem cs _ hi, hie, hec]
  · rintro ⟨h0, i, hi, hic⟩
    have hil : i < cs.length := by rw [hlen]; exact hi
    refine ⟨⟨cs.getD i MinCountConstraint.zero, ?_, hic⟩, by simpa using h0⟩
    rw [List.getD_eq_getElem cs _ hil]
    exact List.getElem_mem hil

/-- C13: for all Constraints `a` and `b` whose count entries name distinct
letters and are packed from slot 0, and whose count entries together name at
most 5 distinct letters, the count entries of `a.And(b)` again name distinct
letters and are packed from slot 0; every letter named in either operand has
exactly one entry, whose count is the maximum of the counts that `a` and `b`
hold for the letter (0 for a letter that an operand does not name); and no
entry names another letter. -/
theorem C13_And_Counts_max (a b : Constraint) (ha : PackedLetters a.Counts)
    (hb : PackedLetters b.Counts)
    (hcap : ((usedLetters a.Counts ++ usedLetters b.Counts).dedup).length ≤ WordLength) :
    PackedLetters (a.And b).Counts
    ∧ ∀ ch, ch ≠ 0 →
      ((ch ∈ usedLetters a.Counts ∨ ch ∈ usedLetters b.Counts) →
        ∃ i, i < WordLength
          ∧ (a.And b).Counts.getD i MinCountConstraint.zero
              = ⟨ch, max (entryCount a.Counts ch) (entryCount b.Counts ch)⟩
          ∧ ∀ j, j < WordLength →
              ((a.And b).Counts.getD j MinCountConstraint.zero).Char = ch → j = i)
      ∧ (ch ∉ usedLetters a.Counts → ch ∉ usedLetters b.Counts →
          ∀ j, j < WordLength →
            ((a.And b).Counts.getD j MinCountConstraint.zero).Char ≠ ch) := by
  have hfold := mergeCount_foldl_max _ hcap b.Counts
    (by
      intro x hx hx0
      rw [List.mem_dedup, List.mem_append]
      right
      unfold usedLetters
      rw [List.mem_filter, List.mem_map]
      exact ⟨⟨x, hx, rfl⟩, by simpa using hx0⟩)
    (PackedLetters_pairwise b.Counts hb) a.Counts ha
    (by
      intro i hi hne
      rw [List.mem_dedup, List.mem_append]
      exact Or.inl (mem_usedLetters_of_getD _ ha.1 hi hne))
  have hAnd : (a.And b).Counts
      = b.Counts.foldl (fun cc x => mergeCount x (List.range WordLength) cc) a.Counts := rfl
  rw [hAnd]
  obtain ⟨hp, hall⟩ := hfold
  refine ⟨hp, fun ch hch => ?_⟩
  obtain ⟨hnamed, hcount⟩ := hall ch hch
  have hb_iff : (∃ x ∈ b.Counts, x.Char = ch)
      ↔ ∃ i, i < WordLength ∧ (b.Counts.getD i MinCountConstraint.zero).Char = ch := by
    constructor
    · rintro ⟨x, hx, hxc⟩
      obtain ⟨i, hi, hie⟩ := List.getElem_of_mem hx
      refine ⟨i, by rw [← hb.1]; exact hi, ?_⟩
      rw [List.getD_eq_getElem _ _ hi, hie, hxc]
    · rintro ⟨i, hi, hic⟩
      have hil : i < b.Counts.length := by rw [hb.1]; exact hi
      refine ⟨b.Counts.getD i MinCountConstraint.zero, ?_, hic⟩
      rw [List.getD_eq_getElem _ _ hil]
      exact List.getElem_mem hil
  rw [mem_usedLetters _ ha.1, mem_usedLetters _ hb.1]
  constructor
  · intro hin
    have hex := hnamed.mpr (by
      rcases hin with h | h
      · exact Or.inl h.2
      · exact Or.inr (hb_iff.mpr h.2))
    obtain ⟨i, hi, hic⟩ := hex
    refine ⟨i, hi, ?_, ?_⟩
    · have hcnt := entryCount_slot _ hp hch hi hic
      rw [hcount] at hcnt
      cases hv : (List.foldl (fun cc x => mergeCount x (List.range WordLength) cc) a.Counts
          b.Counts).getD i MinCountConstraint.zero with
      | mk c n =>
        rw [hv] at hic hcnt
        simp only at hic hcnt
        rw [hic, ← hcnt]
    · intro j hj hjc
      by_contra hne
      rcases Nat.lt_or_gt_of_ne hne with hlt | hgt
      · exact hp.2.2 j hj i hi hlt (by rw [hjc]; exact hch) (by rw [hjc, hic])
      · exact hp.2.2 i hi j hj hgt (by rw [hic]; exact hch) (by rw [hjc, hic])
  · intro hna hnb j hj hjc
    rcases hnamed.mp ⟨j, hj, hjc⟩ with h | h
    · exact hna ⟨hch, h⟩
    · exact hnb ⟨hch, hb_iff.mp h⟩

theorem C13_And_Counts_max_witness :
    (constraintFromPattern RangeOrder.insertion (bytes "slate")
        [LetterWrong, LetterWrong, LetterCorrect, LetterWrong, LetterCorrect]).Counts
      = [⟨97, 1⟩, ⟨101, 1⟩, MinCountConstraint.zero, MinCountConstraint.zero,
          MinCountConstraint.zero]
    ∧ (constraintFromPattern RangeOrder.insertion (bytes "eject")
        [LetterTransposed, LetterWrong, LetterTransposed, LetterTransposed, LetterWrong]).Counts
      = [⟨101, 2⟩, ⟨99, 1⟩, MinCountConstraint.zero, MinCountConstraint.zero,
          MinCountConstraint.zero]
    ∧ ((constraintFromPattern RangeOrder.insertion (bytes "slate")
          [LetterWrong, LetterWrong, LetterCorrect, LetterWrong, LetterCorrect]).And
        (constraintFromPattern RangeOrder.insertion (bytes "eject")
          [LetterTransposed, LetterWrong, LetterTransposed, LetterTransposed,
            LetterWrong])).Counts
      = [⟨97, 1⟩, ⟨101, 2⟩, ⟨99, 1⟩, MinCountConstraint.zero, MinCountConstraint.zero]
    ∧ (PackedLetters
        ((constraintFromPattern RangeOrder.insertion (bytes "slate")
            [LetterWrong, LetterWrong, LetterCorrect, LetterWrong, LetterCorrect]).And
          (constraintFromPattern RangeOrder.insertion (bytes "eject")
            [LetterTransposed, LetterWrong, LetterTransposed, LetterTransposed,
              LetterWrong])).Counts
      ∧ ∀ ch, ch ≠ 0 →
        ((ch ∈ usedLetters (constraintFromPattern RangeOrder.insertion (bytes "slate")
              [LetterWrong, LetterWrong, LetterCorrect, LetterWrong, LetterCorrect]).Counts
            ∨ ch ∈ usedLetters (constraintFromPattern RangeOrder.insertion (bytes "eject")
              [LetterTransposed, LetterWrong, LetterTransposed, LetterTransposed,
                LetterWrong]).Counts) →
          ∃ i, i < WordLength
            ∧ ((constraintFromPattern RangeOrder.insertion (bytes "slate")
                  [LetterWrong, LetterWrong, LetterCorrect, LetterWrong, LetterCorrect]).And
                (constraintFromPattern RangeOrder.insertion (bytes "eject")
                  [LetterTransposed, LetterWrong, LetterTransposed, LetterTransposed,
                    LetterWrong])).Counts.getD i MinCountConstraint.zero
                = ⟨ch, max
                    (entryCount (constraintFromPattern RangeOrder.insertion (bytes "slate")
                      [LetterWrong, LetterWrong, LetterCorrect, LetterWrong,
                        LetterCorrect]).Counts ch)
                    (entryCount (constraintFromPattern RangeOrder.insertion (bytes "eject")
                      [LetterTransposed, LetterWrong, LetterTransposed, LetterTransposed,
                        LetterWrong]).Counts ch)⟩
            ∧ ∀ j, j < WordLength →
                (((constraintFromPattern RangeOrder.insertion (bytes "slate")
                    [LetterWrong, LetterWrong, LetterCorrect, LetterWrong, LetterCorrect]).And
                  (constraintFromPattern RangeOrder.insertion (bytes "eject")
                    [LetterTransposed, LetterWrong, LetterTransposed, LetterTransposed,
                      LetterWrong])).Counts.getD j MinCountConstraint.zero).Char = ch → j = i)
        ∧ (ch ∉ usedLetters (constraintFromPattern RangeOrder.insertion (bytes "slate")
              [LetterWrong, LetterWrong, LetterCorrect, LetterWrong, LetterCorrect]).Counts →
            ch ∉ usedLetters (constraintFromPattern RangeOrder.insertion (bytes "eject")
              [LetterTransposed, LetterWrong, LetterTransposed, LetterTransposed,
                LetterWrong]).Counts →
            ∀ j, j < WordLength →
              (((constraintFromPattern RangeOrder.insertion (bytes "slate")
                  [LetterWrong, LetterWrong, LetterCorrect, LetterWrong, LetterCorrect]).And
                (constraintFromPattern RangeOrder.insertion (bytes "eject")
                  [LetterTransposed, LetterWrong, LetterTransposed, LetterTransposed,
                    LetterWrong])).Counts.getD j MinCountConstraint.zero).Char ≠ ch)) :=
  ⟨by decide, by decide, by decide,
    C13_And_Counts_max _ _ (by decide) (by decide) (by decide)⟩

/-! ## C14: `And` of a constraint with itself -/

theorem set_getD_self (cs : List MinCountConstraint) (k : Nat) :
    cs.set k (cs.getD k MinCountConstraint.zero) = cs := by
  apply List.ext_getElem?
  intro n
  rw [List.getElem?_set]
  by_cases hkn : k = n
  · subst hkn
    rw [if_pos rfl]
    by_cases hlt : k < cs.length
    · rw [if_pos hlt, List.getD_eq_getElem cs _ hlt, List.getElem?_eq_getElem hlt]
    · rw [if_neg hlt, List.getElem?_eq_none (Nat.le_of_not_lt hlt)]
  · rw [if_neg hkn]

/-- Merging an entry of well-formed count entries into these same entries
changes nothing. -/
theorem mergeCount_self (cs : List MinCountConstraint) (hp : PackedCounts cs) {i : Nat}
    (hi : i < WordLength) :
    mergeCount (cs.getD i MinCountConstraint.zero) (List.range WordLength) cs = cs := by
  obtain ⟨_, hpack, hdist, hzero⟩ := hp
  rcases mergeCount_range (cs.getD i MinCountConstraint.zero) cs with
    ⟨he, _⟩ | ⟨k, hk, hpre, ⟨hsame, he⟩ | ⟨hne, hz, _⟩⟩
  · exact he
  · rw [he]
    have hki : k ≤ i := by
      by_contra hlt
      exact (hpre i (by omega)).1 rfl
    have hcount : max (cs.getD k MinCountConstraint.zero).Count
        (cs.getD i MinCountConstraint.zero).Count = (cs.getD k MinCountConstraint.zero).Count := by
      rcases Nat.lt_or_eq_of_le hki with hlt | heq
      · have hk0 : (cs.getD k MinCountConstraint.zero).Char = 0 := by
          by_contra hne
          exact hdist k hk i hi hlt hne hsame
        have hi0 : (cs.getD i MinCountConstraint.zero).Char = 0 := by
          rw [← hsame]; exact hk0
        rw [hzero i hi hi0]
        exact Nat.max_eq_left (Nat.zero_le _)
      · rw [heq]
        exact Nat.max_self _
    rw [hcount]
    exact set_getD_self cs k
  · exfalso
    have hki : k < i := by
      by_contra hle
      rcases Nat.lt_or_eq_of_le (Nat.le_of_not_lt hle) with hlt | heq
      · exact (hpre i hlt).1 rfl
      · rw [heq] at hne
        exact hne rfl
    have := hpack k hk i hi hki hz
    rw [this] at hne
    exact hne hz

theorem foldl_fixed {σ α : Type} (f : σ → α → σ) (s : σ) :
    ∀ l : List α, (∀ a ∈ l, f s a = s) → l.foldl f s = s := by
  intro l
  induction l with
  | nil => intro _; rfl
  | cons a l ih =>
    intro h
    rw [List.foldl_cons, h a (List.mem_cons_self a l)]
    exact ih (fun b hb => h b (List.mem_cons_of_mem a hb))

/-- C14 (counterexample): the constraint whose slot 0 is unused and whose slot 1
requires one 'a' has at most one entry per letter, and `And` of it with itself
stores the entry a second time in slot 0. -/
theorem C14_And_self_counterexample :
    (unpackedConstraint.And unpackedConstraint).Counts
        = [⟨97, 1⟩, ⟨97, 1⟩, MinCountConstraint.zero, MinCountConstraint.zero,
            MinCountConstraint.zero]
    ∧ unpackedConstraint.And unpackedConstraint ≠ unpackedConstraint := by
  constructor
  · decide
  · decide

/-- C14 (amended): for every Constraint `c` with five positional letter sets
and well-formed count entries (five slots, the entries in use packed from slot
0, at most one entry per letter, unused entries zero), `c.And(c)` equals `c`. -/
theorem C14_And_self_eq (c : Constraint) (hl : c.Letters.length = WordLength)
    (hp : PackedCounts c.Counts) : c.And c = c := by
  have hLetters : (c.And c).Letters = c.Letters := by
    unfold Constraint.And
    match hc : c.Letters, hl with
    | [l0, l1, l2, l3, l4], _ =>
      simp only [List.getD_cons_zero, List.getD_cons_succ, Nat.and_self]
  have hCounts : (c.And c).Counts = c.Counts := by
    unfold Constraint.And
    apply foldl_fixed
    intro x hx
    obtain ⟨i, hi, rfl⟩ := List.getElem_of_mem hx
    have hi5 : i < WordLength := by rw [← hp.1]; exact hi
    have := mergeCount_self c.Counts hp hi5
    rw [List.getD_eq_getElem c.Counts _ hi] at this
    exact this
  calc c.And c = ⟨(c.And c).Letters, (c.And c).Counts⟩ := rfl
    _ = ⟨c.Letters, c.Counts⟩ := by rw [hLetters, hCounts]

theorem C14_And_self_eq_witness :
    (constraintFromPattern RangeOrder.insertion (bytes "slate")
        [LetterWrong, LetterWrong, LetterCorrect, LetterWrong, LetterCorrect]).Counts
      = [⟨97, 1⟩, ⟨101, 1⟩, MinCountConstraint.zero, MinCountConstraint.zero,
          MinCountConstraint.zero]
    ∧ (constraintFromPattern RangeOrder.insertion (bytes "slate")
        [LetterWrong, LetterWrong, LetterCorrect, LetterWrong, LetterCorrect]).And
        (constraintFromPattern RangeOrder.insertion (bytes "slate")
          [LetterWrong, LetterWrong, LetterCorrect, LetterWrong, LetterCorrect])
      = constraintFromPattern RangeOrder.insertion (bytes "slate")
          [LetterWrong, LetterWrong, LetterCorrect, LetterWrong, LetterCorrect] :=
  ⟨by decide, C14_And_self_eq _ (by decide) (by decide)⟩

/-! ## C12: the all-Correct path of `Solver.AddGuess` -/

/-- The all-Correct path of `Solver.AddGuess`. -/
theorem Solver_AddGuess_of_allCorrect (assets : Assets) (ord : RangeOrder) (s : Solver)
    (word : Word) (hints : List Hint) (hn : s.numGuesses < MaxGuesses)
    (he : (s.state.AddGuess assets word hints).2 = none)
    (hall : hints.foldl (fun acc h => acc && decide (h = LetterCorrect)) true = true) :
    Solver.AddGuess assets ord s word hints
      = some ⟨{ state := (s.state.AddGuess assets word hints).1, constraints := s.constraints,
                solutionTree := s.solutionTree, guessTree := s.guessTree,
                constraintMap := s.constraintMap, numGuesses := s.numGuesses }, true, none⟩ := by
  unfold Solver.AddGuess
  rw [if_neg (by omega)]
  simp only [he, hall, if_true]

/-- C12 (counterexample): six calls of `Solver.AddGuess` with the vocabulary
word "crane" and five Correct hints all succeed and leave the round counter at
0, fewer than `MaxGuesses`; the guess history is then full, and a seventh such
call returns `done = false` with the error "Exceeded maximum number of guesses:
6". -/
theorem C12_AddGuess_allCorrect_counterexample :
    IsWord (bytes "crane") ∧ bytes "crane" ∈ exampleAssets.Wordles
    ∧ (addGuesses exampleAssets RangeOrder.insertion exampleSolver
        (List.replicate 6 (bytes "crane",
          [LetterCorrect, LetterCorrect, LetterCorrect, LetterCorrect, LetterCorrect]))).map
        (fun s => (s.numGuesses,
          (Solver.AddGuess exampleAssets RangeOrder.insertion s (bytes "crane")
            [LetterCorrect, LetterCorrect, LetterCorrect, LetterCorrect, LetterCorrect]).map
            (fun r => (r.done, r.err))))
      = some (0, some (false, some "Exceeded maximum number of guesses: 6")) := by
  refine ⟨by decide, by decide, ?_⟩
  decide

/-- C12 (amended): for a solver with fewer than `MaxGuesses` rounds consumed and
a free slot in its guess history, and a word of five lowercase letters of the
vocabulary, `Solver.AddGuess` with all five hints equal to `LetterCorrect`
returns `done = true` and no error, and leaves the running constraint, the
solution tree, the guess tree, the constraint map and the round counter
unchanged. -/
theorem C12_AddGuess_allCorrect_frame (assets : Assets) (ord : RangeOrder) (s : Solver)
    (word : Word) (hn : s.numGuesses < MaxGuesses)
    (hfree : s.state.guesses.getD (MaxGuesses - 1) none = none)
    (hword : IsWord word) (hvocab : word ∈ assets.Wordles ∨ word ∈ assets.NonWordles) :
    ∃ r, Solver.AddGuess assets ord s word
          [LetterCorrect, LetterCorrect, LetterCorrect, LetterCorrect, LetterCorrect] = some r
      ∧ r.done = true ∧ r.err = none
      ∧ r.solver.constraints = s.constraints
      ∧ r.solver.solutionTree = s.solutionTree
      ∧ r.solver.guessTree = s.guessTree
      ∧ r.solver.constraintMap = s.constraintMap
      ∧ r.solver.numGuesses = s.numGuesses := by
  have he : (s.state.AddGuess assets word
      [LetterCorrect, LetterCorrect, LetterCorrect, LetterCorrect, LetterCorrect]).2 = none := by
    by_contra hne
    rcases (GameState_AddGuess_err_iff assets s.state word
        [LetterCorrect, LetterCorrect, LetterCorrect, LetterCorrect, LetterCorrect]
        hfree rfl).mp hne with
      h | ⟨b, hb, hnl⟩ | ⟨h1, h2⟩
    · exact h hword.1
    · exact hnl (hword.2 b hb)
    · rcases hvocab with h | h
      · exact h1 h
      · exact h2 h
  exact ⟨_, Solver_AddGuess_of_allCorrect assets ord s word _ hn he rfl,
    rfl, rfl, rfl, rfl, rfl, rfl, rfl⟩

theorem C12_AddGuess_allCorrect_frame_witness :
    exampleSolver.numGuesses < MaxGuesses
    ∧ exampleSolver.state.guesses.getD (MaxGuesses - 1) none = none
    ∧ IsWord (bytes "crane")
    ∧ (bytes "crane" ∈ exampleAssets.Wordles ∨ bytes "crane" ∈ exampleAssets.NonWordles)
    ∧ ∃ r, Solver.AddGuess exampleAssets RangeOrder.insertion exampleSolver (bytes "crane")
          [LetterCorrect, LetterCorrect, LetterCorrect, LetterCorrect, LetterCorrect] = some r
      ∧ r.done = true ∧ r.err = none
      ∧ r.solver.constraints = exampleSolver.constraints
      ∧ r.solver.solutionTree = exampleSolver.solutionTree
      ∧ r.solver.guessTree = exampleSolver.guessTree
      ∧ r.solver.constraintMap = exampleSolver.constraintMap
      ∧ r.solver.numGuesses = exampleSolver.numGuesses :=
  ⟨by decide, by decide, by decide, by decide,
    C12_AddGuess_allCorrect_frame exampleAssets RangeOrder.insertion exampleSolver
      (bytes "crane") (by decide) (by decide) (by decide) (by decide)⟩

/-! ## C16: a guessed word does not come back -/

theorem allCorrect_fold (hints : List Hint) :
    ∀ acc : Bool, hints.foldl (fun acc h => acc && decide (h = LetterCorrect)) acc = true →
      acc = true ∧ ∀ x ∈ hints, x = LetterCorrect := by
  induction hints with
  | nil =>
    intro acc h
    exact ⟨h, fun x hx => absurd hx (List.not_mem_nil x)⟩
  | cons y ys ih =>
    intro acc h
    rw [List.foldl_cons] at h
    obtain ⟨h1, h2⟩ := ih _ h
    rw [Bool.and_eq_true, decide_eq_true_iff] at h1
    refine ⟨h1.1, fun x hx => ?_⟩
    rcases List.mem_cons.mp hx with rfl | hx
    · exact h1.2
    · exact h2 x hx

/-- What a call of `GameState.AddGuess` that returns no error has checked. -/
theorem GameState_AddGuess_ok (assets : Assets) (gs : GameState) (word : Word)
    (hints : List Hint) (h : (gs.AddGuess assets word hints).2 = none) :
    word.length = 5 ∧ hints.length = 5 ∧ isAscii word = true := by
  unfold GameState.AddGuess at h
  split_ifs at h with h1 h2 h3 h4 h5
  refine ⟨by simpa using h2, by simpa using h3, by simpa using h4⟩

/-- The guessed letter of a Wrong or Transposed position is not allowed at that
position by the constraint derived from the pattern. -/
theorem constraintFromPattern_excludes (ord : RangeOrder) (word : Word) (pattern : Pattern)
    (hw : IsWord word) {i : Nat} (hi : i < WordLength)
    (hp : pattern.getD i 0 = LetterWrong ∨ pattern.getD i 0 = LetterTransposed) :
    allows ((constraintFromPattern ord word pattern).Letters.getD i 0) (word.getD i 0)
      = false := by
  by_contra hne
  have ht : allows ((constraintFromPattern ord word pattern).Letters.getD i 0)
      (word.getD i 0) = true := by simpa using hne
  rw [constraintFromPattern_Letters] at ht
  have ha := (allows_stateAfter word pattern hw WordLength (le_refl _) i (word.getD i 0) hi
    (getD_of_isWord hw hi)).mp ht
  unfold allowedAfter at ha
  have hnc : ¬ (i < WordLength ∧ pattern.getD i 0 = LetterCorrect) := by
    rintro ⟨_, hc⟩
    rcases hp with hp | hp
    · rw [hp] at hc; exact absurd hc (by decide)
    · rw [hp] at hc; exact absurd hc (by decide)
  rw [if_neg hnc] at ha
  exact ha.1 ⟨hi, hp, rfl⟩

/-- The running constraint after a guess with a Wrong or Transposed position
rejects the guessed word. -/
theorem And_constraintFromPattern_rejects (ord : RangeOrder) (c : Constraint) (word : Word)
    (pattern : Pattern) (hw : IsWord word) {i : Nat} (hi : i < WordLength)
    (hp : pattern.getD i 0 = LetterWrong ∨ pattern.getD i 0 = LetterTransposed) :
    (c.And (constraintFromPattern ord word pattern)).Matches word = false := by
  by_contra hne
  have ht : (c.And (constraintFromPattern ord word pattern)).Matches word = true := by
    simpa using hne
  have h1 := ((Matches_iff _ _).mp ht).1 i hi
  rw [And_Letters_getD _ _ hi, allows_and (getD_of_isWord hw hi), Bool.and_eq_true] at h1
  rw [constraintFromPattern_excludes ord word pattern hw hi hp] at h1
  exact absurd h1.2 (by decide)

/-- A call of `Solver.AddGuess` adds no word to the word lists of the trees. -/
theorem Solver_AddGuess_words (assets : Assets) (ord : RangeOrder) (s : Solver) (word : Word)
    (hints : List Hint) (r : AddGuessResult)
    (h : Solver.AddGuess assets ord s word hints = some r) :
    (∀ w, w ∈ r.solver.guessTree.Wordles → w ∈ s.guessTree.Wordles)
    ∧ ∀ w, w ∈ r.solver.solutionTree.Wordles → w ∈ s.solutionTree.Wordles := by
  rcases Solver_AddGuess_cases assets ord s word hints r h with
    ⟨_, hr⟩ | ⟨_, _, _, _, hr⟩ | ⟨_, _, _, _, _, hr⟩ | ⟨_, _, _, _, _, _, _, hst, hgt, _⟩
  · subst hr
    exact ⟨fun w hw => hw, fun w hw => hw⟩
  · rw [hr]
    exact ⟨fun w hw => hw, fun w hw => hw⟩
  · rw [hr]
    exact ⟨fun w hw => hw, fun w hw => hw⟩
  · rw [hst, hgt, NewWordleTree_Wordles, NewWordleTree_Wordles]
    exact ⟨fun w hw => (List.mem_filter.mp hw).1, fun w hw => (List.mem_filter.mp hw).1⟩

theorem Later_words (assets : Assets) (s t : Solver) (h : Later assets s t) :
    (∀ w, w ∈ t.guessTree.Wordles → w ∈ s.guessTree.Wordles)
    ∧ ∀ w, w ∈ t.solutionTree.Wordles → w ∈ s.solutionTree.Wordles := by
  induction h with
  | refl s => exact ⟨fun w hw => hw, fun w hw => hw⟩
  | step s ord word hints r t hstep _ ih =>
    obtain ⟨h1, h2⟩ := Solver_AddGuess_words assets ord s word hints r hstep
    exact ⟨fun w hw => h1 w (ih.1 w hw), fun w hw => h2 w (ih.2 w hw)⟩

theorem guessUtilities_words (fl : FloatOps) (s : Solver) :
    ∀ (ws : List Word) (us : List (WordUtility fl)), guessUtilities fl s ws = some us →
      us.map (fun e => e.1) = ws := by
  intro ws
  induction ws with
  | nil =>
    intro us h
    unfold guessUtilities at h
    rw [← Option.some.inj h]
    rfl
  | cons w ws ih =>
    intro us h
    unfold guessUtilities at h
    cases hu : s.solutionTree.utility fl ((mapGet s.constraintMap w).getD []) with
    | none => rw [hu] at h; exact absurd h (by simp)
    | some u =>
      rw [hu] at h
      cases hr : guessUtilities fl s ws with
      | none => rw [hr] at h; exact absurd h (by simp)
      | some rest =>
        rw [hr] at h
        rw [← Option.some.inj h, List.map_cons, ih rest hr]

/-- Every word that `topNWords` returns is in the word list of the solution
tree or of the guess tree. -/
theorem topNWords_words (fl : FloatOps) (s : Solver) (n : Int) (l : List (WordUtility fl))
    (h : s.topNWords fl n = some l) :
    ∀ e ∈ l, e.1 ∈ s.solutionTree.Wordles ∨ e.1 ∈ s.guessTree.Wordles := by
  unfold Solver.topNWords at h
  by_cases h1 : s.solutionTree.WordCount = 1
  · rw [if_pos h1] at h
    cases hw : s.solutionTree.Wordles with
    | nil => rw [hw] at h; exact absurd h (by simp)
    | cons w ws =>
      rw [hw] at h
      intro e he
      rw [← Option.some.inj h, List.mem_singleton] at he
      rw [he]
      exact Or.inl (List.mem_cons_self w ws)
  · rw [if_neg h1] at h
    cases hu : guessUtilities fl s s.guessTree.Wordles with
    | none => rw [hu] at h; exact absurd h (by simp)
    | some us =>
      rw [hu] at h
      simp only at h
      split_ifs at h with hneg
      intro e he
      rw [← Option.some.inj h] at he
      have hmem : e ∈ us := (fl.perm us).subset (List.mem_of_mem_take he)
      right
      rw [← guessUtilities_words fl s _ us hu]
      exact List.mem_map_of_mem _ hmem

/-- C16 (amended): after a `Solver.AddGuess(word, hints)` call, on a solver with
fewer than `MaxGuesses` rounds consumed, that returns no error, with hints among
Wrong, Transposed and Correct of which at least one is not Correct: in that
round and in every later round the word is absent from the word lists of the
guess tree and of the solution tree, and `topNWords` does not return it. -/
theorem C16_guessed_word_is_gone (assets : Assets) (ord : RangeOrder) (s : Solver)
    (word : Word) (hints : List Hint) (r : AddGuessResult) (t : Solver)
    (hn : s.numGuesses < MaxGuesses)
    (h : Solver.AddGuess assets ord s word hints = some r) (herr : r.err = none)
    (hh : ∀ x ∈ hints, x = LetterWrong ∨ x = LetterTransposed ∨ x = LetterCorrect)
    (hnot : ∃ x ∈ hints, x ≠ LetterCorrect)
    (hlater : Later assets r.solver t) :
    word ∉ t.guessTree.Wordles ∧ word ∉ t.solutionTree.Wordles
    ∧ ∀ (fl : FloatOps) (n : Int) (l : List (WordUtility fl)),
        t.topNWords fl n = some l → ∀ e ∈ l, e.1 ≠ word := by
  have hnow : word ∉ r.solver.guessTree.Wordles ∧ word ∉ r.solver.solutionTree.Wordles := by
    rcases Solver_AddGuess_cases assets ord s word hints r h with
      ⟨hge, _⟩ | ⟨_, he, hre, _⟩ | ⟨_, _, htrue, _⟩ | ⟨_, hok, _, _, _, _, _, hst, hgt, _⟩
    · exact absurd hn (Nat.not_lt.mpr hge)
    · rw [herr] at hre
      exact absurd hre.symm he
    · obtain ⟨x, hx, hxc⟩ := hnot
      exact absurd ((allCorrect_fold hints true htrue).2 x hx) hxc
    · obtain ⟨hwl, hhl, hasc⟩ := GameState_AddGuess_ok assets s.state word hints hok
      have hw : IsWord word := ⟨hwl, ((isAscii_iff word).mp hasc).2⟩
      obtain ⟨x, hx, hxc⟩ := hnot
      obtain ⟨i, hi, hix⟩ := List.getElem_of_mem hx
      have hi5 : i < WordLength := by rw [hhl] at hi; exact hi
      have hp : hints.getD i 0 = LetterWrong ∨ hints.getD i 0 = LetterTransposed := by
        rw [List.getD_eq_getElem hints 0 hi, hix]
        rcases hh x hx with h1 | h1 | h1
        · exact Or.inl h1
        · exact Or.inr h1
        · exact absurd h1 hxc
      have hrej := And_constraintFromPattern_rejects ord s.constraints word hints hw hi5 hp
      rw [hst, hgt, NewWordleTree_Wordles, NewWordleTree_Wordles]
      constructor
      · intro hm
        have := (List.mem_filter.mp hm).2
        rw [hrej] at this
        exact absurd this (by decide)
      · intro hm
        have := (List.mem_filter.mp hm).2
        rw [hrej] at this
        exact absurd this (by decide)
  obtain ⟨hg, hs⟩ := Later_words assets r.solver t hlater
  refine ⟨fun hm => hnow.1 (hg word hm), fun hm => hnow.2 (hs word hm), ?_⟩
  intro fl n l hl e he heq
  rcases topNWords_words fl t n l hl e he with hm | hm
  · rw [heq] at hm
    exact hnow.2 (hs word hm)
  · rw [heq] at hm
    exact hnow.1 (hg word hm)

theorem narrowedSolver_words (ord : RangeOrder) (s : Solver) (state : GameState)
    (word : Word) (hints : List Hint) (hws : ∀ w ∈ s.solutionTree.Wordles, IsWord w) :
    ∀ w ∈ (narrowedSolver ord s state word hints).solutionTree.Wordles, IsWord w := by
  intro w hw
  unfold narrowedSolver at hw
  rw [NewWordleTree_Wordles] at hw
  exact hws w (List.mem_filter.mp hw).1

/-- A list of guesses that each take the narrowing branch of `Solver.AddGuess`. -/
theorem addGuesses_narrowAll (assets : Assets) (ord : RangeOrder) :
    ∀ (gs : List (Word × List Hint)) (s : Solver),
      (∀ w ∈ s.solutionTree.Wordles, IsWord w) →
      s.numGuesses + gs.length ≤ MaxGuesses →
      recordsAll assets s.state gs = true →
      (∀ g ∈ gs, g.2.foldl (fun acc h => acc && decide (h = LetterCorrect)) true = false) →
      addGuesses assets ord s gs = some (narrowAll assets ord s gs) := by
  intro gs
  induction gs with
  | nil => intro s _ _ _ _; rfl
  | cons g rest ih =>
    intro s hws hn hrec hall
    unfold recordsAll at hrec
    rw [Bool.and_eq_true, decide_eq_true_iff] at hrec
    rw [List.length_cons] at hn
    have hstep := Solver_AddGuess_of_narrow assets ord s g.1 g.2 (by omega) hrec.1
      (hall g (List.mem_cons_self g rest)) hws
    unfold addGuesses narrowAll
    rw [hstep]
    apply ih _ (narrowedSolver_words ord s _ _ _ hws)
    · show s.numGuesses + 1 + rest.length ≤ MaxGuesses
      omega
    · exact hrec.2
    · exact fun g2 hg2 => hall g2 (List.mem_cons_of_mem g hg2)

theorem Solver_AddGuess_of_exhausted (assets : Assets) (ord : RangeOrder) (s : Solver)
    (word : Word) (hints : List Hint) (hn : MaxGuesses ≤ s.numGuesses) :
    Solver.AddGuess assets ord s word hints = some ⟨s, true, none⟩ := by
  unfold Solver.AddGuess
  rw [if_pos hn]

theorem topNWords_of_single (fl : FloatOps) (s : Solver) (w : Word) (n : Int)
    (hcount : s.solutionTree.WordCount = 1) (hwords : s.solutionTree.Wordles = [w]) :
    s.topNWords fl n = some [(w, fl.zero)] := by
  unfold Solver.topNWords
  rw [if_pos hcount, hwords]

/-- C16 (counterexample): in the scenario vocabulary, six calls with the guess
"abcde" and its feedback against "edcba" succeed and consume the six rounds; the
next call, with the guess "edcba" and five Wrong hints, succeeds (it returns
`done = true` and no error), and "edcba" is still in the word lists of both
trees and is what `topNWords` returns. And on the fresh solver, the call with
the guess "abcde" and the hints `LetterPossible`, Correct, Correct, Correct,
Correct succeeds and leaves "abcde" in the word lists of both trees. -/
theorem C16_guessed_word_counterexample :
    (∃ s, addGuesses scenarioAssets RangeOrder.insertion scenarioSolver
          (List.replicate 6 (bytes "abcde",
            [LetterTransposed, LetterTransposed, LetterCorrect, LetterTransposed,
              LetterTransposed])) = some s
      ∧ s.numGuesses = MaxGuesses
      ∧ ∃ r, Solver.AddGuess scenarioAssets RangeOrder.insertion s (bytes "edcba")
            [LetterWrong, LetterWrong, LetterWrong, LetterWrong, LetterWrong] = some r
        ∧ r.done = true ∧ r.err = none
        ∧ bytes "edcba" ∈ r.solver.guessTree.Wordles
        ∧ bytes "edcba" ∈ r.solver.solutionTree.Wordles
        ∧ r.solver.topNWords exampleFloatOps 1
            = some [(bytes "edcba", exampleFloatOps.zero)])
    ∧ ∃ r, Solver.AddGuess scenarioAssets RangeOrder.insertion scenarioSolver (bytes "abcde")
          [LetterPossible, LetterCorrect, LetterCorrect, LetterCorrect, LetterCorrect] = some r
      ∧ r.err = none
      ∧ bytes "abcde" ∈ r.solver.guessTree.Wordles
      ∧ bytes "abcde" ∈ r.solver.solutionTree.Wordles :=
  ⟨⟨_, addGuesses_narrowAll scenarioAssets RangeOrder.insertion _ scenarioSolver
        (by decide) (by decide) (by decide) (by decide),
      by decide,
      _, Solver_AddGuess_of_exhausted _ _ _ _ _ (by decide), rfl, rfl, by decide, by decide,
      topNWords_of_single _ _ _ _ (by decide) (by decide)⟩,
    ⟨_, Solver_AddGuess_of_narrow _ _ _ _ _ (by decide) (by decide) (by decide) (by decide),
      rfl, by decide, by decide⟩⟩

theorem C16_guessed_word_is_gone_witness :
    scenarioSolver.numGuesses < MaxGuesses
    ∧ standardFeedback (bytes "abcde") (bytes "edcba")
        = [LetterTransposed, LetterTransposed, LetterCorrect, LetterTransposed,
            LetterTransposed]
    ∧ Solver.AddGuess scenarioAssets RangeOrder.insertion scenarioSolver (bytes "abcde")
          [LetterTransposed, LetterTransposed, LetterCorrect, LetterTransposed,
            LetterTransposed]
        = some ⟨scenarioRound1, false, none⟩
    ∧ Later scenarioAssets scenarioRound1 scenarioRound2
    ∧ bytes "abcde" ∉ scenarioRound2.guessTree.Wordles
    ∧ bytes "abcde" ∉ scenarioRound2.solutionTree.Wordles
    ∧ ∀ (fl : FloatOps) (n : Int) (l : List (WordUtility fl)),
        scenarioRound2.topNWords fl n = some l → ∀ e ∈ l, e.1 ≠ bytes "abcde" :=
  ⟨by decide, by decide,
    Solver_AddGuess_of_narrow _ _ _ _ _ (by decide) (by decide) (by decide) (by decide),
    Later.step scenarioRound1 RangeOrder.insertion (bytes "aabbc")
      [LetterTransposed, LetterWrong, LetterWrong, LetterCorrect, LetterTransposed]
      ⟨scenarioRound2, false, none⟩ scenarioRound2
      (Solver_AddGuess_of_narrow _ _ _ _ _ (by decide) (by decide) (by decide) (by decide))
      (Later.refl _),
    C16_guessed_word_is_gone scenarioAssets RangeOrder.insertion scenarioSolver (bytes "abcde")
      [LetterTransposed, LetterTransposed, LetterCorrect, LetterTransposed, LetterTransposed]
      ⟨scenarioRound1, false, none⟩ scenarioRound2 (by decide)
      (Solver_AddGuess_of_narrow _ _ _ _ _ (by decide) (by decide) (by decide) (by decide))
      rfl (by decide) (by decide)
      (Later.step scenarioRound1 RangeOrder.insertion (bytes "aabbc")
        [LetterTransposed, LetterWrong, LetterWrong, LetterCorrect, LetterTransposed]
        ⟨scenarioRound2, false, none⟩ scenarioRound2
        (Solver_AddGuess_of_narrow _ _ _ _ _ (by decide) (by decide) (by decide) (by decide))
        (Later.refl _))⟩

/-! ## C21: truthful feedback keeps the solution -/

/-- One run of the inner loop of `And`: if the requirements held so far and the
merged entry are all met by the occurrence counts `N`, so are the requirements
after the run. -/
theorem mergeCount_sat (N : Nat → Nat) (x : MinCountConstraint) (hx : x.Count ≤ N x.Char)
    (is : List Nat) (comb : List MinCountConstraint)
    (hc : ∀ e ∈ comb, e.Count ≤ N e.Char) :
    ∀ e ∈ mergeCount x is comb, e.Count ≤ N e.Char := by
  have hget : ∀ i, (comb.getD i MinCountConstraint.zero).Count
      ≤ N (comb.getD i MinCountConstraint.zero).Char ∨ comb.length ≤ i := by
    intro i
    by_cases hi : i < comb.length
    · left
      rw [List.getD_eq_getElem comb _ hi]
      exact hc _ (List.getElem_mem hi)
    · exact Or.inr (Nat.le_of_not_lt hi)
  rcases mergeCount_cases x is comb with ⟨he, _⟩ | ⟨pre, i, post, _, _, ⟨hsame, he⟩ | ⟨_, _, he⟩⟩
  · rw [he]; exact hc
  · rw [he]
    intro e hmem
    rcases hget i with hle | hout
    · rcases List.mem_or_eq_of_mem_set hmem with h | h
      · exact hc e h
      · rw [h]
        show max _ _ ≤ N _
        rw [hsame] at hle ⊢
        exact Nat.max_le.mpr ⟨hle, hx⟩
    · rw [List.set_eq_of_length_le hout] at hmem
      exact hc e hmem
  · rw [he]
    intro e hmem
    rcases List.mem_or_eq_of_mem_set hmem with h | h
    · exact hc e h
    · rw [h]; exact hx

/-- A word that matches two constraints matches their `And`. -/
theorem And_Matches_of_both (c other : Constraint) (w : Word) (hw : IsWord w)
    (h1 : c.Matches w = true) (h2 : other.Matches w = true) :
    (c.And other).Matches w = true := by
  rw [Matches_iff] at h1 h2 ⊢
  constructor
  · intro i hi
    rw [And_Letters_getD _ _ hi, allows_and (getD_of_isWord hw hi), h1.1 i hi, h2.1 i hi]
    rfl
  · have hfold : ∀ (xs : List MinCountConstraint) (comb : List MinCountConstraint),
        (∀ x ∈ xs, x.Count ≤ countChar w x.Char) →
        (∀ e ∈ comb, e.Count ≤ countChar w e.Char) →
        ∀ e ∈ xs.foldl (fun cc x => mergeCount x (List.range WordLength) cc) comb,
          e.Count ≤ countChar w e.Char := by
      intro xs
      induction xs with
      | nil => intro comb _ hc; exact hc
      | cons x xs ih =>
        intro comb hxs hc
        rw [List.foldl_cons]
        exact ih _ (fun y hy => hxs y (List.mem_cons_of_mem x hy))
          (mergeCount_sat (countChar w) x (hxs x (List.mem_cons_self x xs)) _ comb hc)
    exact hfold other.Counts c.Counts h2.2 h1.2

/-- On a solver whose solution words are 5-letter lowercase words,
`Solver.AddGuess` returns: no `nil` node is dereferenced while the constraint
map is rebuilt. -/
theorem Solver_AddGuess_returns (assets : Assets) (ord : RangeOrder) (s : Solver)
    (word : Word) (hints : List Hint) (hws : ∀ w ∈ s.solutionTree.Wordles, IsWord w) :
    ∃ r, Solver.AddGuess assets ord s word hints = some r := by
  by_cases hn : MaxGuesses ≤ s.numGuesses
  · exact ⟨_, Solver_AddGuess_of_exhausted assets ord s word hints hn⟩
  · have hlt : s.numGuesses < MaxGuesses := Nat.lt_of_not_le hn
    cases he : (s.state.AddGuess assets word hints).2 with
    | some err =>
      have hst := GameState_AddGuess_unchanged assets s.state word hints (by rw [he]; simp)
      refine ⟨_, Solver_AddGuess_of_error assets ord s word hints err hlt ?_⟩
      exact Prod.ext hst he
    | none =>
      cases hall : hints.foldl (fun acc h => acc && decide (h = LetterCorrect)) true with
      | true => exact ⟨_, Solver_AddGuess_of_allCorrect assets ord s word hints hlt he hall⟩
      | false => exact ⟨_, Solver_AddGuess_of_narrow assets ord s word hints hlt he hall hws⟩

/-- C21: for every solver state in which the 5-letter lowercase word `s` is in
the word list of the solution tree and matches the running constraint, and every
guess `g`: after `AddGuess(g, hints)` with `hints` the standard-rule feedback of
`g` against `s`, the word `s` is still in the word list of the solution tree and
still matches the running constraint, whatever the order in which the Go maps
are ranged over; and the call returns when the solution words are 5-letter
lowercase words. -/
theorem C21_truthful_feedback_keeps_solution (assets : Assets) (ord : RangeOrder)
    (sv : Solver) (g s : Word) (hs : IsWord s) (hmem : s ∈ sv.solutionTree.Wordles)
    (hmatch : sv.constraints.Matches s = true) :
    (∀ r, Solver.AddGuess assets ord sv g (standardFeedback g s) = some r →
      s ∈ r.solver.solutionTree.Wordles ∧ r.solver.constraints.Matches s = true)
    ∧ ((∀ w ∈ sv.solutionTree.Wordles, IsWord w) →
        ∃ r, Solver.AddGuess assets ord sv g (standardFeedback g s) = some r) := by
  refine ⟨fun r h => ?_, fun hws => Solver_AddGuess_returns assets ord sv g _ hws⟩
  rcases Solver_AddGuess_cases assets ord sv g _ r h with
    ⟨_, hr⟩ | ⟨_, _, _, _, hr⟩ | ⟨_, _, _, _, _, hr⟩ | ⟨_, hok, _, _, _, _, hcs, hst, _⟩
  · subst hr
    exact ⟨hmem, hmatch⟩
  · rw [hr]
    exact ⟨hmem, hmatch⟩
  · rw [hr]
    exact ⟨hmem, hmatch⟩
  · obtain ⟨hgl, _, hasc⟩ := GameState_AddGuess_ok assets sv.state g _ hok
    have hg : IsWord g := ⟨hgl, ((isAscii_iff g).mp hasc).2⟩
    have hfb : (constraintFromPattern ord g (standardFeedback g s)).Matches s = true := by
      rw [constraintFromPattern_Matches ord g _ s hg hs]
      exact ⟨fun j hj => feedback_allowedAfter g s hj, fun ch => feedback_needed_le g s ch⟩
    have hboth := And_Matches_of_both sv.constraints _ s hs hmatch hfb
    rw [hst, hcs, NewWordleTree_Wordles]
    exact ⟨List.mem_filter.mpr ⟨hmem, hboth⟩, hboth⟩

theorem C21_truthful_feedback_keeps_solution_witness :
    IsWord (bytes "crane") ∧ bytes "crane" ∈ exampleSolver.solutionTree.Wordles
    ∧ exampleSolver.constraints.Matches (bytes "crane") = true
    ∧ standardFeedback (bytes "slate") (bytes "crane")
        = [LetterWrong, LetterWrong, LetterCorrect, LetterWrong, LetterCorrect]
    ∧ (∀ r, Solver.AddGuess exampleAssets RangeOrder.insertion exampleSolver (bytes "slate")
          (standardFeedback (bytes "slate") (bytes "crane")) = some r →
        bytes "crane" ∈ r.solver.solutionTree.Wordles
        ∧ r.solver.constraints.Matches (bytes "crane") = true)
    ∧ ((∀ w ∈ exampleSolver.solutionTree.Wordles, IsWord w) →
        ∃ r, Solver.AddGuess exampleAssets RangeOrder.insertion exampleSolver (bytes "slate")
          (standardFeedback (bytes "slate") (bytes "crane")) = some r) :=
  ⟨by decide, by decide, by decide, by decide,
    C21_truthful_feedback_keeps_solution exampleAssets RangeOrder.insertion exampleSolver
      (bytes "slate") (bytes "crane") (by decide) (by decide) (by decide)⟩

/-! ## C22: the trie walk meets no `nil` node -/

theorem LowerKeys_new (r : Nat) : LowerKeys r (some NewWordleTreeNode) := by
  cases r with
  | zero => simp [LowerKeys]
  | succ r =>
    intro ch h
    simp [NewWordleTreeNode, WordleTreeNode.Children, mapGet] at h

/-- Inserting lowercase bytes below a node keeps every key lowercase. -/
theorem insertChars_keys (r : Nat) :
    ∀ (node : WordleTreeNode) (chars : List Nat), chars.length = r →
      (∀ b ∈ chars, IsLower b) → LowerKeys r (some node) →
      LowerKeys r (some (insertChars node chars)) := by
  induction r with
  | zero => intro _ _ _ _ _; simp [LowerKeys]
  | succ r ih =>
    intro node chars hlen hlow hk
    obtain ⟨O, C⟩ := node
    cases chars with
    | nil => simp at hlen
    | cons ch rest =>
      have hrest : rest.length = r := by simpa using hlen
      have hch : IsLower ch := hlow ch (List.mem_cons_self ch rest)
      have hlowr : ∀ b ∈ rest, IsLower b := fun b hb => hlow b (List.mem_cons_of_mem ch hb)
      cases hg : mapGet C ch with
      | some child =>
        have hchild : LowerKeys r (some child) := by
          have := (hk ch (by simp [WordleTreeNode.Children, hg])).2
          simp only [WordleTreeNode.Children, hg] at this
          exact this
        simp only [insertChars, hg]
        intro x hx
        simp only [WordleTreeNode.Children, mapGet_mapSet] at hx ⊢
        by_cases hxc : x = ch
        · rw [if_pos hxc]
          exact ⟨hxc ▸ hch, ih child rest hrest hlowr hchild⟩
        · rw [if_neg hxc] at hx ⊢
          exact hk x hx
      | none =>
        simp only [insertChars, hg]
        intro x hx
        simp only [WordleTreeNode.Children, mapGet_mapSet] at hx ⊢
        by_cases hxc : x = ch
        · rw [if_pos hxc]
          exact ⟨hxc ▸ hch, ih NewWordleTreeNode rest hrest hlowr (LowerKeys_new r)⟩
        · rw [if_neg hxc] at hx ⊢
          exact hk x hx

theorem NewWordleTree_keys (ws : List Word) (c : Constraint) (hws : ∀ w ∈ ws, IsWord w) :
    LowerKeys WordLength (some (NewWordleTree ws c).node) := by
  unfold NewWordleTree
  have hgen : ∀ (ws : List Word), (∀ w ∈ ws, IsWord w) → ∀ root : WordleTree,
      LowerKeys WordLength (some root.node) →
      LowerKeys WordLength (some (ws.foldl
        (fun root word =>
          if !c.Matches word then root
          else
            { node := insertChars root.node (wordChars word)
              WordCount := root.WordCount + 1
              Wordles := root.Wordles ++ [word] })
        root).node) := by
    intro ws
    induction ws with
    | nil => intro _ root h; exact h
    | cons w ws ih =>
      intro hws root h
      rw [List.foldl_cons]
      apply ih (fun v hv => hws v (List.mem_cons_of_mem w hv))
      have hw := hws w (List.mem_cons_self w ws)
      by_cases hm : c.Matches w = true
      · simp only [hm, Bool.not_true, Bool.false_eq_true, if_false]
        rw [wordChars_eq hw.1]
        exact insertChars_keys WordLength root.node w hw.1 hw.2 h
      · have hf : c.Matches w = false := by simpa using hm
        simp only [hf, Bool.not_false, if_true]
        exact h
  exact hgen ws hws _ (LowerKeys_new _)

/-- In a well-built tree with lowercase keys, every node above the last level
holds children under letters only, and a letter is in `Options` exactly when a
child is stored under it. -/
theorem descend_invariant :
    ∀ (path : List Nat) (r : Nat) (node : Option WordleTreeNode) (n : WordleTreeNode),
      path.length < r → WellBuilt r node → LowerKeys r node → descend node path = some n →
      ∀ ch, ((mapGet n.Children ch).isSome = true → IsLower ch)
        ∧ (IsLower ch → (allows n.Options ch = true ↔ (mapGet n.Children ch).isSome = true)) := by
  intro path
  induction path with
  | nil =>
    intro r node n hr hwb hk hd ch
    obtain ⟨r, rfl⟩ : ∃ k, r = k + 1 := ⟨r - 1, by simp at hr; omega⟩
    simp only [descend] at hd
    subst hd
    exact ⟨fun h => (hk ch h).1, fun hl => (hwb ch hl).1⟩
  | cons x rest ih =>
    intro r node n hr hwb hk hd
    obtain ⟨r, rfl⟩ : ∃ k, r = k + 1 := ⟨r - 1, by simp at hr; omega⟩
    have hrest : rest.length < r := by simpa using hr
    cases node with
    | none => simp [descend] at hd
    | some m =>
      simp only [descend] at hd
      have hsome : (mapGet m.Children x).isSome = true := by
        cases hg : mapGet m.Children x with
        | some child => rfl
        | none =>
          rw [hg] at hd
          cases rest with
          | nil => simp [descend] at hd
          | cons y ys => simp [descend] at hd
      obtain ⟨hxl, hkc⟩ := hk x hsome
      have hallow := (hwb x hxl).1.mpr hsome
      exact ih r _ n hrest ((hwb x hxl).2 hallow) hkc hd

theorem anyCalls_mem (f : Nat → Option Bool) (g : Nat → List (Option WordleTreeNode × Nat))
    (call : Option WordleTreeNode × Nat) :
    ∀ l : List Nat, call ∈ anyCalls f g l → ∃ ch ∈ l, call ∈ g ch := by
  intro l
  induction l with
  | nil => intro h; simp [anyCalls] at h
  | cons a l ih =>
    intro h
    unfold anyCalls at h
    rcases List.mem_append.mp h with h | h
    · exact ⟨a, List.mem_cons_self a l, h⟩
    · cases hf : f a with
      | none => rw [hf] at h; simp at h
      | some b =>
        cases b with
        | true => rw [hf] at h; simp at h
        | false =>
          rw [hf] at h
          obtain ⟨ch, hch, hc⟩ := ih h
          exact ⟨ch, List.mem_cons_of_mem a hch, hc⟩

/-- Every call that `countMatches` makes below a well-built node has a node
that exists and a depth of at most `WordLength`. -/
theorem countMatchesCalls_safe (r : Nat) :
    ∀ (node : Option WordleTreeNode) (c : Constraint) (depth : Nat),
      depth + r = WordLength → node.isSome = true → WellBuilt r node →
      ∀ call ∈ countMatchesCalls r node c depth,
        call.1.isSome = true ∧ call.2 ≤ WordLength := by
  induction r with
  | zero =>
    intro node c depth hd hn _ call hc
    unfold countMatchesCalls at hc
    rw [if_pos (by omega), List.mem_singleton] at hc
    rw [hc]
    exact ⟨hn, by simp only; omega⟩
  | succ r ih =>
    intro node c depth hd hn hwb call hc
    unfold countMatchesCalls at hc
    rw [if_neg (by omega)] at hc
    cases node with
    | none => simp at hn
    | some n =>
      simp only at hc
      rcases List.mem_cons.mp hc with hc | hc
      · rw [hc]
        exact ⟨rfl, by simp only; omega⟩
      · rw [List.mem_flatMap] at hc
        obtain ⟨ch, hch, hcall⟩ := hc
        rw [mem_ToChars, allows_and hch.1, Bool.and_eq_true] at hch
        obtain ⟨hl, ha, _⟩ := hch
        exact ih _ _ _ (by omega) ((hwb ch hl).1.mp ha) ((hwb ch hl).2 ha) call hcall

/-- Every call that `hasMatches` makes below a well-built node has a node that
exists and a depth of at most `WordLength`. -/
theorem hasMatchesCalls_safe (r : Nat) :
    ∀ (node : Option WordleTreeNode) (c : Constraint) (depth : Nat),
      depth + r = WordLength → node.isSome = true → WellBuilt r node →
      ∀ call ∈ hasMatchesCalls r node c depth,
        call.1.isSome = true ∧ call.2 ≤ WordLength := by
  induction r with
  | zero =>
    intro node c depth hd hn _ call hc
    unfold hasMatchesCalls at hc
    rw [if_pos (by omega), List.mem_singleton] at hc
    rw [hc]
    exact ⟨hn, by simp only; omega⟩
  | succ r ih =>
    intro node c depth hd hn hwb call hc
    unfold hasMatchesCalls at hc
    rw [if_neg (by omega)] at hc
    cases node with
    | none => simp at hn
    | some n =>
      simp only at hc
      rcases List.mem_cons.mp hc with hc | hc
      · rw [hc]
        exact ⟨rfl, by simp only; omega⟩
      · obtain ⟨ch, hch, hcall⟩ := anyCalls_mem _ _ call _ hc
        rw [mem_ToChars, allows_and hch.1, Bool.and_eq_true] at hch
        obtain ⟨hl, ha, _⟩ := hch
        exact ih _ _ _ (by omega) ((hwb ch hl).1.mp ha) ((hwb ch hl).2 ha) call hcall

/-- C22: in every tree built by `NewWordleTree` from 5-letter lowercase words,
each node at depth less than 5 holds children under letters only and has bit `k`
set in `Options` exactly when `Children` holds a node for the letter 'a'+k; and
for every Constraint, `HasMatches` and `CountMatches` return (no `nil` node is
dereferenced), and every call of `hasMatches` and of `countMatches` that they
make is on a node that exists, at a depth of at most 5, where the recursion
ends. -/
theorem C22_trie_walk_safe (ws : List Word) (c0 : Constraint) (hws : ∀ w ∈ ws, IsWord w) :
    (∀ (path : List Nat) (n : WordleTreeNode), path.length < WordLength →
        descend (some (NewWordleTree ws c0).node) path = some n →
        (∀ ch, (mapGet n.Children ch).isSome = true → IsLower ch)
        ∧ ∀ k, k < 26 →
            (n.Options.testBit k = true ↔ (mapGet n.Children (97 + k)).isSome = true))
    ∧ ∀ c : Constraint,
        (∃ b, (NewWordleTree ws c0).HasMatches c = some b)
        ∧ (∃ m, (NewWordleTree ws c0).CountMatches c = some m)
        ∧ (∀ call ∈ hasMatchesCalls WordLength (some (NewWordleTree ws c0).node) c 0,
            call.1.isSome = true ∧ call.2 ≤ WordLength)
        ∧ ∀ call ∈ countMatchesCalls WordLength (some (NewWordleTree ws c0).node) c 0,
            call.1.isSome = true ∧ call.2 ≤ WordLength := by
  obtain ⟨hwb, _⟩ := NewWordleTree_node ws c0 hws
  have hkeys := NewWordleTree_keys ws c0 hws
  constructor
  · intro path n hlen hd
    have hinv := descend_invariant path WordLength _ n hlen hwb hkeys hd
    refine ⟨fun ch h => (hinv ch).1 h, fun k hk => ?_⟩
    have hl : IsLower (97 + k) := ⟨by omega, by omega⟩
    rw [← (hinv (97 + k)).2 hl, allows_iff hl]
    have e : 97 + k - 97 = k := by omega
    rw [e]
  · intro c
    have hcm : ∃ m, (NewWordleTree ws c0).CountMatches c = some m := by
      unfold WordleTree.CountMatches
      exact ⟨_, countMatches_wordsOf WordLength _ c 0 (by simp) hwb⟩
    refine ⟨⟨_, HasMatches_built ws c0 c hws⟩, hcm, ?_, ?_⟩
    · exact hasMatchesCalls_safe WordLength _ c 0 (by simp) rfl hwb
    · exact countMatchesCalls_safe WordLength _ c 0 (by simp) rfl hwb

theorem C22_trie_walk_safe_witness :
    (∀ w ∈ exampleAssets.Wordles, IsWord w)
    ∧ (NewWordleTree exampleAssets.Wordles NewConstraint).HasMatches NewConstraint = some true
    ∧ (NewWordleTree exampleAssets.Wordles NewConstraint).CountMatches NewConstraint = some 2
    ∧ ((∀ (path : List Nat) (n : WordleTreeNode), path.length < WordLength →
          descend (some (NewWordleTree exampleAssets.Wordles NewConstraint).node) path = some n →
          (∀ ch, (mapGet n.Children ch).isSome = true → IsLower ch)
          ∧ ∀ k, k < 26 →
              (n.Options.testBit k = true ↔ (mapGet n.Children (97 + k)).isSome = true))
      ∧ ∀ c : Constraint,
          (∃ b, (NewWordleTree exampleAssets.Wordles NewConstraint).HasMatches c = some b)
          ∧ (∃ m, (NewWordleTree exampleAssets.Wordles NewConstraint).CountMatches c = some m)
          ∧ (∀ call ∈ hasMatchesCalls WordLength
                (some (NewWordleTree exampleAssets.Wordles NewConstraint).node) c 0,
              call.1.isSome = true ∧ call.2 ≤ WordLength)
          ∧ ∀ call ∈ countMatchesCalls WordLength
                (some (NewWordleTree exampleAssets.Wordles NewConstraint).node) c 0,
              call.1.isSome = true ∧ call.2 ≤ WordLength) :=
  ⟨by decide, by decide, by decide,
    C22_trie_walk_safe exampleAssets.Wordles NewConstraint (by decide)⟩

/-! ## The traces of calls and the `nil` dereference -/

theorem sumChild_none (f : Nat → Option Nat) (l : List Nat) :
    sumChild f l = none ↔ ∃ ch ∈ l, f ch = none := by
  induction l with
  | nil => simp [sumChild]
  | cons a l ih =>
    unfold sumChild
    cases hf : f a with
    | none => simp [hf]
    | some n =>
      cases hs : sumChild f l with
      | none =>
        simp only [true_iff]
        obtain ⟨ch, hch, hc⟩ := ih.mp hs
        exact ⟨ch, List.mem_cons_of_mem a hch, hc⟩
      | some m =>
        constructor
        · intro h; exact absurd h (by simp)
        · rintro ⟨ch, hch, hc⟩
          rcases List.mem_cons.mp hch with rfl | hch
          · rw [hf] at hc; exact absurd hc (by simp)
          · have := ih.mpr ⟨ch, hch, hc⟩
            rw [hs] at this
            exact absurd this (by simp)

theorem anyChild_none (f : Nat → Option Bool) (g : Nat → List (Option WordleTreeNode × Nat))
    (P : Option WordleTreeNode × Nat → Prop)
    (hfg : ∀ ch, f ch = none ↔ ∃ call ∈ g ch, P call) (l : List Nat) :
    anyChild f l = none ↔ ∃ call ∈ anyCalls f g l, P call := by
  induction l with
  | nil => simp [anyChild, anyCalls]
  | cons a l ih =>
    unfold anyChild anyCalls
    cases hf : f a with
    | none =>
      simp only [true_iff]
      obtain ⟨call, hc, hp⟩ := (hfg a).mp hf
      exact ⟨call, List.mem_append_left _ hc, hp⟩
    | some b =>
      have hno : ¬ ∃ call ∈ g a, P call := fun h => by
        have := (hfg a).mpr h
        rw [hf] at this
        exact absurd this (by simp)
      cases b with
      | true =>
        simp only [List.append_nil]
        constructor
        · intro h; exact absurd h (by simp)
        · intro h; exact absurd h hno
      | false =>
        simp only
        rw [ih]
        constructor
        · rintro ⟨call, hc, hp⟩
          exact ⟨call, List.mem_append_right _ hc, hp⟩
        · rintro ⟨call, hc, hp⟩
          rcases List.mem_append.mp hc with hc | hc
          · exact absurd ⟨call, hc, hp⟩ hno
          · exact ⟨call, hc, hp⟩

/-- The walk of `countMatches` dereferences `nil` exactly when its trace of
calls holds a call on a `nil` node above depth `WordLength`. -/
theorem countMatchesAux_none (r : Nat) :
    ∀ (node : Option WordleTreeNode) (c : Constraint) (depth : Nat),
      depth + r = WordLength →
      (countMatchesAux r node c depth = none
        ↔ ∃ call ∈ countMatchesCalls r node c depth, call.1 = none ∧ call.2 < WordLength) := by
  induction r with
  | zero =>
    intro node c depth hd
    have hge : depth ≥ WordLength := by omega
    unfold countMatchesAux countMatchesCalls
    simp only [hge, if_true]
    constructor
    · intro h; exact absurd h (by simp)
    · rintro ⟨call, hc, _, h⟩
      rw [List.mem_singleton] at hc
      rw [hc] at h
      simp only at h
      omega
  | succ r ih =>
    intro node c depth hd
    have hlt : ¬ depth ≥ WordLength := by omega
    unfold countMatchesAux countMatchesCalls
    simp only [hlt, if_false]
    cases node with
    | none =>
      simp only [true_iff]
      exact ⟨(none, depth), List.mem_singleton.mpr rfl, rfl, by simp only; omega⟩
    | some n =>
      simp only
      rw [sumChild_none]
      constructor
      · rintro ⟨ch, hch, hnone⟩
        obtain ⟨call, hc, hp⟩ := (ih _ _ _ (by omega)).mp hnone
        exact ⟨call, List.mem_cons_of_mem _ (List.mem_flatMap.mpr ⟨ch, hch, hc⟩), hp⟩
      · rintro ⟨call, hc, hp⟩
        rcases List.mem_cons.mp hc with rfl | hc
        · exact absurd hp.1 (by simp)
        · obtain ⟨ch, hch, hc⟩ := List.mem_flatMap.mp hc
          exact ⟨ch, hch, (ih _ _ _ (by omega)).mpr ⟨call, hc, hp⟩⟩

/-- The walk of `hasMatches` dereferences `nil` exactly when its trace of calls
holds a call on a `nil` node above depth `WordLength`. -/
theorem hasMatchesAux_none (r : Nat) :
    ∀ (node : Option WordleTreeNode) (c : Constraint) (depth : Nat),
      depth + r = WordLength →
      (hasMatchesAux r node c depth = none
        ↔ ∃ call ∈ hasMatchesCalls r node c depth, call.1 = none ∧ call.2 < WordLength) := by
  induction r with
  | zero =>
    intro node c depth hd
    have hge : depth ≥ WordLength := by omega
    unfold hasMatchesAux hasMatchesCalls
    simp only [hge, if_true]
    constructor
    · intro h; exact absurd h (by simp)
    · rintro ⟨call, hc, _, h⟩
      rw [List.mem_singleton] at hc
      rw [hc] at h
      simp only at h
      omega
  | succ r ih =>
    intro node c depth hd
    have hlt : ¬ depth ≥ WordLength := by omega
    unfold hasMatchesAux hasMatchesCalls
    simp only [hlt, if_false]
    cases node with
    | none =>
      simp only [true_iff]
      exact ⟨(none, depth), List.mem_singleton.mpr rfl, rfl, by simp only; omega⟩
    | some n =>
      simp only
      rw [anyChild_none _ _ (fun call => call.1 = none ∧ call.2 < WordLength)
        (fun ch => ih _ _ _ (by omega))]
      constructor
      · rintro ⟨call, hc, hp⟩
        exact ⟨call, List.mem_cons_of_mem _ hc, hp⟩
      · rintro ⟨call, hc, hp⟩
        rcases List.mem_cons.mp hc with rfl | hc
        · exact absurd hp.1 (by simp)
        · exact ⟨call, hc, hp⟩

end Wordle
